import Mathlib

/-!
Verification of the `parenthesis` s-expression library against its
specification.  The Rust sources under `parenthesis/src` (read.rs,
pretty.rs, to_parens.rs) are embedded shallowly: tokens, spans and the
balancing / whitespace passes are translated function by function;
modules that are not part of the given sources (`from_parens.rs`,
`escape.rs`, the `Value` type and the derive-macro binder) are modelled
from the specification and marked as such in their doc comments.
-/

namespace Parenthesis

/-- Byte span within the source text, half-open (`pub type Span = Range<usize>`
in read.rs).  The field `stop` stands for Rust's `end`, which is a Lean
keyword.  Offsets are counted in characters; on the ASCII inputs of the
concrete claims this agrees with Rust's byte offsets. -/
structure Span where
  start : Nat
  stop : Nat
deriving DecidableEq, Repr

/-- Model of an IEEE-754 double as used by the code: the finite doubles are a
subset of the rationals (every finite double is a dyadic rational); all NaN
payloads are collapsed into the single value `nan`.  Structural equality on
this type (its `DecidableEq`) makes `nan = nan` true, mirroring the data
model's NaN-aware structural float equality (the `ordered_float` wrapper
inside `Value`). -/
inductive F64 where
  | nan
  | inf
  | neginf
  | finite (q : Rat)
deriving DecidableEq, Repr

/-- IEEE `==` on doubles: NaN compares unequal to everything, including
itself.  Used where the Rust code compares floats with `==`
(`Pretty::float` in pretty.rs). -/
def F64.ieeeEq : F64 → F64 → Bool
  | .nan, _ => false
  | _, .nan => false
  | .inf, .inf => true
  | .inf, _ => false
  | .neginf, .neginf => true
  | .neginf, _ => false
  | .finite p, .finite q => p == q
  | .finite _, _ => false

/-- Rust `f64::ceil`: the identity on NaN and the infinities, the rational
ceiling on finite values. -/
def F64.ceil : F64 → F64
  | .finite q => .finite ((Int.ceil q : Int) : Rat)
  | x => x

/-- `f64::is_nan`. -/
def F64.isNan : F64 → Bool
  | .nan => true
  | _ => false

/-- Flat token of the logos lexer in read.rs.  `Symbol` carries the symbol
text (the crate's `Symbol` type, modelled as a string). -/
inductive Token where
  | OpenList (skip : Nat)
  | CloseList
  | String (s : String)
  | Symbol (s : String)
  | Comment
  | Bool (b : Bool)
  | Int (i : Int)
  | Float (f : F64)
deriving DecidableEq, Repr

/-- Modelled from the spec: the `ParseError` category raised by the binder and
the `FromParens` implementations (module `from_parens.rs` of this crate is
not among the given sources).  Only the shapes needed by the claims are
modelled: missing/duplicate tagged fields, a value or string that was
expected but absent, and a sibling that no slot consumes. -/
inductive ParseError where
  | ExpectedValue
  | ExpectedString
  | MissingField (name : String)
  | DuplicateField (name : String)
  | UnexpectedForm
deriving DecidableEq, Repr

/-- `ReadError` from read.rs.  The Rust `Parse` variant carries a
`ParseError<Span>`; the span payloads inside the parse errors are not
modelled. -/
inductive ReadError where
  | Syntax (span : Span)
  | EndOfFile
  | UnexpectedClose (span : Span)
  | ExpectedWhitespace (after before : Span)
  | Parse (e : ParseError)
deriving DecidableEq, Repr

/-- Overwrite the token at index `j` keeping its span
(`tokens[j].0 = ...` in balance_lists). -/
def setTok (ts : List (Token × Span)) (j : Nat) (t : Token) :
    List (Token × Span) :=
  match ts[j]? with
  | some (_, sp) => ts.set j (t, sp)
  | none => ts

/-- Loop of `balance_lists` (read.rs).  `acc` is the prefix of the array that
the loop has already passed (the Rust code rewrites the array in place, and
the current index `i` equals `acc.length`); `stack` holds the indices of the
currently unclosed `(`s, most recent first. -/
def balanceGo : List (Token × Span) → List (Token × Span) → List Nat →
    Except ReadError (List (Token × Span))
  | [], acc, stack => if stack = [] then .ok acc else .error .EndOfFile
  | (t, sp) :: rest, acc, stack =>
    match t with
    | .OpenList k => balanceGo rest (acc ++ [(.OpenList k, sp)]) (acc.length :: stack)
    | .CloseList =>
      match stack with
      | [] => .error (.UnexpectedClose sp)
      | j :: stack' =>
          balanceGo rest
            (setTok acc j (.OpenList (acc.length - j)) ++ [(.CloseList, sp)])
            stack'
    | _ => balanceGo rest (acc ++ [(t, sp)]) stack

/-- `balance_lists` from read.rs: check that the parentheses are
well-balanced and make the `OpenList` tokens reflect the distance to their
associated `CloseList` tokens. -/
def balance_lists (ts : List (Token × Span)) :
    Except ReadError (List (Token × Span)) :=
  balanceGo ts [] []

/-- The tokens exempting a window of `check_whitespace` on the left: the
first token of the pair may be an `OpenList` or a `Comment`. -/
def exemptLeft : Token → Bool
  | .OpenList _ => true
  | .Comment => true
  | _ => false

/-- The tokens exempting a window of `check_whitespace` on the right: the
second token of the pair may be a `CloseList` or a `Comment`. -/
def exemptRight : Token → Bool
  | .CloseList => true
  | .Comment => true
  | _ => false

/-- `check_whitespace` from read.rs: walk all windows of two adjacent
tokens; unless the first is an `OpenList`/`Comment` or the second is a
`CloseList`/`Comment`, their spans must not touch. -/
def check_whitespace : List (Token × Span) → Except ReadError Unit
  | (a, sa) :: (b, sb) :: rest =>
    if exemptLeft a then check_whitespace ((b, sb) :: rest)
    else if exemptRight b then check_whitespace ((b, sb) :: rest)
    else if sa.stop = sb.start then .error (.ExpectedWhitespace sa sb)
    else check_whitespace ((b, sb) :: rest)
  | _ => .ok ()

/-- `ReaderStream` from read.rs: a cursor into the flat token array. -/
structure ReaderStream where
  tokens : List (Token × Span)
  cur_span : Span
  parent_span : Span
deriving DecidableEq, Repr

/-- `TokenTree` (shape given by the spec's Visitor Protocol; the defining
module `from_parens.rs` is not among the given sources): a lazy tree view,
where a list wraps a further `ReaderStream` bounded to its contents. -/
inductive TokenTree where
  | List (inner : ReaderStream)
  | String (s : String)
  | Symbol (s : String)
  | Bool (b : Bool)
  | Int (i : Int)
  | Float (f : F64)
deriving DecidableEq, Repr

/-- End offset of the span of `ts[skip]` (`self.tokens[*skip].1.end` in
`ReaderStream::peek`); 0 if the index is out of range, where Rust would
panic.  On streams produced by a successful `balance_lists` the index is
always in range. -/
def closerStop (ts : List (Token × Span)) (skip : Nat) : Nat :=
  match ts[skip]? with
  | some (_, sp) => sp.stop
  | none => 0

/-- `ReaderStream::peek`.  On an `OpenList(skip)` the child view holds the
tokens strictly between the opener and its closer
(`&self.tokens[1..*skip]`), and the child's parent span runs from the end of
the opener to the end of the closer.  The `Token::Comment` arm panics in
Rust (`unreachable!`); the model returns `none` there, and the separate
predicate `peekPanics` below records that this arm was taken. -/
def ReaderStream.peek (s : ReaderStream) : Option TokenTree :=
  match s.tokens with
  | [] => none
  | (t, sp) :: _ =>
    match t with
    | .OpenList skip =>
        some (.List { tokens := (s.tokens.drop 1).take (skip - 1),
                      cur_span := ⟨sp.stop, sp.stop⟩,
                      parent_span := ⟨sp.stop, closerStop s.tokens skip⟩ })
    | .CloseList => none
    | .String str => some (.String str)
    | .Symbol sym => some (.Symbol sym)
    | .Comment => none
    | .Bool b => some (.Bool b)
    | .Int i => some (.Int i)
    | .Float f => some (.Float f)

/-- True exactly when `ReaderStream::peek` would execute the
`unreachable!` assertion of its `Token::Comment` arm. -/
def ReaderStream.peekPanics (s : ReaderStream) : Bool :=
  match s.tokens with
  | (Token.Comment, _) :: _ => true
  | _ => false

/-- The span of the first token of the stream; `⟨0, 0⟩` when empty
(`ReaderStream::next` only reads it when `peek` succeeded). -/
def ReaderStream.headSpan (s : ReaderStream) : Span :=
  match s.tokens with
  | (_, sp) :: _ => sp
  | [] => ⟨0, 0⟩

/-- `ReaderStream::next`: return what `peek` returns; past a non-list token
advance one flat token, past a list advance `inner.tokens.len() + 2` flat
tokens. -/
def ReaderStream.next (s : ReaderStream) : Option (TokenTree × ReaderStream) :=
  match s.peek with
  | none => none
  | some (.List inner) =>
      some (.List inner,
        { tokens := s.tokens.drop (inner.tokens.length + 2),
          cur_span := inner.parent_span,
          parent_span := s.parent_span })
  | some tt =>
      some (tt,
        { tokens := s.tokens.drop 1,
          cur_span := s.headSpan,
          parent_span := s.parent_span })

/-- `ReaderStream::is_end`. -/
def ReaderStream.is_end (s : ReaderStream) : Bool :=
  s.tokens.isEmpty

/-! ### The logos lexer of read.rs

The lexer is modelled as maximal munch over the token patterns: at each
position every pattern's longest match is computed, the longest one wins,
and equal lengths are resolved by the explicit logos priorities
(`Int` has priority 0, the `Float` regex priority 1, all other patterns are
higher).  For this particular set of patterns equal-length matches of
distinct patterns never occur — the first characters of the classes are
disjoint, and `Int`/`Float` matches differ by the mandatory decimal
point — so the priority order is never exercised. -/

/-- The whitespace skipped by the lexer, the logos skip regex
`[ \t\n\f]+` of read.rs (note: no carriage return). -/
def isWs (c : Char) : Bool :=
  c = ' ' || c = '\t' || c = '\n' || c = Char.ofNat 12

/-- First-character class of a bare symbol:
`[a-zA-Z!$%&*/:<=>?\^_~\.@]` in read.rs. -/
def symInit (c : Char) : Bool :=
  c.isAlpha || c = '!' || c = '$' || c = '%' || c = '&' || c = '*' ||
  c = '/' || c = ':' || c = '<' || c = '=' || c = '>' || c = '?' ||
  c = '^' || c = '_' || c = '~' || c = '.' || c = '@'

/-- Continuation class of a bare symbol:
`[a-zA-Z!$%&*/:<=>?\^_~0-9+\-\.@]` in read.rs; the initial class plus
digits, `+` and `-`. -/
def symCont (c : Char) : Bool :=
  symInit c || c.isDigit || c = '+' || c = '-'

/-- Length of the maximal run of characters satisfying `p` at the front. -/
def runLen (p : Char → Bool) : List Char → Nat
  | c :: rest => if p c then runLen p rest + 1 else 0
  | [] => 0

/-- Longest match of the string pattern
`"([^"\\]|\\["\\tnr]|u\{[a-fA-F0-9]+\})*"` starting after the opening
quote; `n` counts the characters of the body consumed so far and the
result includes both quotes.  The `u{...}` alternative of the pattern is
redundant — each of its characters already matches `[^"\\]` — so it does
not change the recognized language.  The pattern's star is
deterministic: a bare `"` can only close the literal, so there is exactly
one way to match, which is also the longest. -/
def stringBody : List Char → Nat → Option Nat
  | c :: rest, n =>
    if c = '"' then some (n + 2)
    else if c = '\\' then
      match rest with
      | d :: rest' =>
        if d = '"' || d = '\\' || d = 't' || d = 'n' || d = 'r' then
          stringBody rest' (n + 2)
        else none
      | [] => none
    else stringBody rest (n + 1)
  | [], _ => none

/-- Longest match of the quoted-string token at the front of the input. -/
def stringMatch : List Char → Option Nat
  | c :: rest => if c = '"' then stringBody rest 0 else none
  | [] => none

/-- The hexadecimal digit class `[a-fA-F0-9]`. -/
def isHexChar (c : Char) : Bool :=
  c.isDigit || ('a' ≤ c && c ≤ 'f') || ('A' ≤ c && c ≤ 'F')

/-- Worker for `pipeBody`; the fuel is a structural-recursion device only
(every step consumes at least one character, so `fuel ≥ cs.length`
suffices). -/
def pipeBodyGo : Nat → List Char → Nat → Option Nat
  | 0, _, _ => none
  | fuel + 1, cs, n =>
    match cs with
    | c :: rest =>
      if c = '|' then some (n + 2)
      else if c = '\\' then
        match rest with
        | d :: rest' =>
          if d = 'u' then
            match rest' with
            | b :: rest'' =>
              if b = Char.ofNat 123 then
                let h := min (runLen isHexChar rest'') 4
                if h = 0 then none
                else if (rest''.drop h).take 2 = [Char.ofNat 125, ';'] then
                  pipeBodyGo fuel ((rest''.drop h).drop 2) (n + h + 5)
                else none
              else none
            | [] => none
          else if d = '|' || d = '\\' || d = 't' || d = 'n' || d = 'r' then
            pipeBodyGo fuel rest' (n + 2)
          else none
        | [] => none
      else pipeBodyGo fuel rest (n + 1)
    | [] => none

/-- Longest match of the piped-symbol pattern
`\|([^\|\\]|\\u\{[a-fA-F0-9]{1,4}\};|\\[\|\\tnr])*\|` after the opening
pipe.  Like the string pattern it is deterministic: a bare `|` can only
close the literal. -/
def pipeBody (cs : List Char) (n : Nat) : Option Nat :=
  pipeBodyGo cs.length cs n

/-- Longest match of the three symbol patterns of read.rs (bare symbol,
`+`/`-`-headed symbol, piped symbol); their first characters are
disjoint. -/
def symMatch : List Char → Option Nat
  | c :: rest =>
    if symInit c then some (1 + runLen symCont rest)
    else if c = '+' || c = '-' then
      match rest with
      | d :: rest' =>
        if symInit d then some (2 + runLen symCont rest') else some 1
      | [] => some 1
    else if c = '|' then pipeBody rest 0
    else none
  | [] => none

/-- Longest match of the comment pattern `;[^\n]*\n`: the closing newline
is part of the token, and a comment that reaches the end of input without
a newline does not match at all. -/
def commentMatch : List Char → Option Nat
  | c :: rest =>
    if c = ';' then
      let k := runLen (fun c => c ≠ '\n') rest
      if (rest.drop k).take 1 = ['\n'] then some (k + 2) else none
    else none
  | [] => none

/-- Match of the `#t`/`#f` boolean tokens. -/
def boolMatch (cs : List Char) : Option Nat :=
  if cs.take 2 = ['#', 't'] then some 2
  else if cs.take 2 = ['#', 'f'] then some 2
  else none

/-- Longest match of the integer pattern `[+-]?[0-9]+`. -/
def intMatch (cs : List Char) : Option Nat :=
  match cs with
  | c :: rest =>
    if c = '+' || c = '-' then
      let d := runLen Char.isDigit rest
      if d = 0 then none else some (1 + d)
    else
      let d := runLen Char.isDigit cs
      if d = 0 then none else some d
  | [] => none

/-- Longest match of the float pattern
`[+-]?[0-9]+\.[0-9]*([eE][+-]?[0-9]+)?`: sign, mandatory integer digits,
mandatory dot, optional fraction digits, and an exponent that is only
included when a complete `[eE][+-]?[0-9]+` follows (otherwise the match
stops before it). -/
def floatRegexMatch (cs : List Char) : Option Nat :=
  let signLen : Nat :=
    match cs with
    | c :: _ => if c = '+' || c = '-' then 1 else 0
    | [] => 0
  let afterSign := cs.drop signLen
  let d1 := runLen Char.isDigit afterSign
  if d1 = 0 then none
  else
    match afterSign.drop d1 with
    | dot :: afterDot =>
      if dot = '.' then
      let d2 := runLen Char.isDigit afterDot
      let base := signLen + d1 + 1 + d2
      let expTail := afterDot.drop d2
      match expTail with
      | e :: afterE =>
        if e = 'e' || e = 'E' then
          let esign : Nat :=
            match afterE with
            | c :: _ => if c = '+' || c = '-' then 1 else 0
            | [] => 0
          let d3 := runLen Char.isDigit (afterE.drop esign)
          if d3 = 0 then some base else some (base + 1 + esign + d3)
        else some base
      | [] => some base
      else none
    | [] => none

/-- Longest match of the `Float` variant: the regex together with the
literal tokens `#+inf`, `#-inf`, `#nan`. -/
def floatMatch (cs : List Char) : Option Nat :=
  if cs.take 5 = ['#', '+', 'i', 'n', 'f'] then some 5
  else if cs.take 5 = ['#', '-', 'i', 'n', 'f'] then some 5
  else if cs.take 4 = ['#', 'n', 'a', 'n'] then some 4
  else floatRegexMatch cs

/-! ### Token construction (the logos callbacks) -/

/-- Numeric value of a hexadecimal digit. -/
def hexVal (c : Char) : Nat :=
  if c.isDigit then c.toNat - '0'.toNat
  else if 'a' ≤ c ∧ c ≤ 'f' then c.toNat - 'a'.toNat + 10
  else if 'A' ≤ c ∧ c ≤ 'F' then c.toNat - 'A'.toNat + 10
  else 0

/-- Worker for `unescape`; the fuel is a structural-recursion device only
(every step consumes at least one character, so `fuel ≥ cs.length`
suffices). -/
def unescapeGo : Nat → List Char → Option (List Char)
  | 0, cs => if cs = [] then some [] else none
  | fuel + 1, cs =>
    match cs with
    | [] => some []
    | c :: rest =>
      if c = '\\' then
      match rest with
      | [] => none
      | d :: rest' =>
        if d = '\\' || d = '"' || d = '|' then
          (unescapeGo fuel rest').map (d :: ·)
        else if d = 't' then (unescapeGo fuel rest').map ('\t' :: ·)
        else if d = 'n' then (unescapeGo fuel rest').map ('\n' :: ·)
        else if d = 'r' then (unescapeGo fuel rest').map ('\r' :: ·)
        else if d = 'u' then
          match rest' with
          | b :: rest'' =>
            if b = Char.ofNat 123 then
              let h := runLen isHexChar rest''
              if h = 0 then none
              else
                let n := (rest''.take h).foldl (fun acc c => 16 * acc + hexVal c) 0
                if n < 0xd800 ∨ (0xe000 ≤ n ∧ n < 0x110000) then
                  if (rest''.drop h).take 1 = [Char.ofNat 125] then
                    (unescapeGo fuel ((rest''.drop h).drop 1)).map
                      (Char.ofNat n :: ·)
                  else none
                else none
            else none
          | [] => none
        else none
      else (unescapeGo fuel rest).map (c :: ·)

/-- Modelled from the spec: `unescape` from escape.rs (not among the given
sources) — a pure function taking raw escaped text and returning the
decoded text, or `None` on malformed escapes.  `\\`, `\"`, `\|`, `\t`,
`\n`, `\r` decode to the escaped character, `\u{HEX}` to the code point
(failing on surrogates and out-of-range values); every other character is
kept as is, and a trailing lone backslash fails. -/
def unescape (cs : List Char) : Option (List Char) :=
  unescapeGo cs.length cs

/-- Decimal digits of a natural number, most significant first, via the
fuel-driven little-endian worker `natDigitsRev`; `fuel ≥ n` suffices. -/
def natDigitsRev (fuel n : Nat) : List Nat :=
  match fuel with
  | 0 => []
  | fuel + 1 => if n = 0 then [] else n % 10 :: natDigitsRev fuel (n / 10)

/-- Decimal string of a natural number (model of Rust's integer
formatting). -/
def natToString (n : Nat) : List Char :=
  if n = 0 then ['0']
  else ((natDigitsRev n n).map (fun d => Char.ofNat (48 + d))).reverse

/-- Decimal string of an integer, sign included (`i64::to_string`). -/
def intToString (i : Int) : List Char :=
  if i < 0 then '-' :: natToString i.natAbs else natToString i.natAbs

/-- Value of a list of decimal digit characters. -/
def digitsVal (cs : List Char) : Nat :=
  cs.foldl (fun acc c => 10 * acc + (c.toNat - '0'.toNat)) 0

/-- Rust `str::parse::<i64>` on a slice that matched the integer pattern:
the decimal value with its sign, failing (overflow) outside the i64
range. -/
def parseI64 (cs : List Char) : Option Int :=
  let (neg, digits) : Bool × List Char :=
    match cs with
    | c :: rest =>
      if c = '+' then (false, rest)
      else if c = '-' then (true, rest)
      else (false, cs)
    | [] => (false, cs)
  let v : Int := (digitsVal digits : Nat)
  let v := if neg then -v else v
  if -(2 ^ 63) ≤ v ∧ v ≤ 2 ^ 63 - 1 then some v else none

/-- Modelled from Rust `str::parse::<f64>` (std, outside the sources) on a
slice that matched the float regex: the exact rational value of
`sign digits.digits (e exp)?`.  Rust rounds this rational to the nearest
double; on the decimal renderings produced by the pretty-printer model the
value is exactly representable, so the two agree wherever a claim relies
on this function. -/
def parseFloat (cs : List Char) : F64 :=
  let (neg, rest) : Bool × List Char :=
    match cs with
    | c :: r =>
      if c = '+' then (false, r)
      else if c = '-' then (true, r)
      else (false, cs)
    | [] => (false, cs)
  let d1 := runLen Char.isDigit rest
  let ip := digitsVal (rest.take d1)
  let afterDot := (rest.drop d1).drop 1
  let d2 := runLen Char.isDigit afterDot
  let fp := digitsVal (afterDot.take d2)
  let expTail := afterDot.drop d2
  let expVal : Int :=
    match expTail with
    | e :: afterE =>
      if e = 'e' || e = 'E' then
        match afterE with
        | c :: ds =>
          if c = '+' then (digitsVal ds : Nat)
          else if c = '-' then -(digitsVal ds : Nat)
          else (digitsVal (c :: ds) : Nat)
        | [] => (digitsVal ([] : List Char) : Nat)
      else 0
    | [] => 0
  let mag : Rat := ((ip : Rat) + (fp : Rat) / ((10 : Rat) ^ d2)) * (10 : Rat) ^ expVal
  .finite (if neg then -mag else mag)

/-! ### Lexer dispatch -/

/-- The variants of the `Token` enum of read.rs, as lexer patterns. -/
inductive LexKind where
  | openL
  | closeL
  | str
  | sym
  | comment
  | boolean
  | integer
  | floating
deriving DecidableEq, Repr

/-- Longest match of each variant's pattern at the front of the input. -/
def kindMatch : LexKind → List Char → Option Nat
  | .openL, cs => if cs.take 1 = ['('] then some 1 else none
  | .closeL, cs => if cs.take 1 = [')'] then some 1 else none
  | .str, cs => stringMatch cs
  | .sym, cs => symMatch cs
  | .comment, cs => commentMatch cs
  | .boolean, cs => boolMatch cs
  | .integer, cs => intMatch cs
  | .floating, cs => floatMatch cs

/-- Explicit logos priorities of read.rs: the `Int` pattern is lowered to 0
and the `Float` regex to 1; all other patterns are strictly more
specific.  (For this pattern set the priorities are never needed: distinct
variants never produce equal-length matches.) -/
def kindPrio : LexKind → Nat
  | .integer => 0
  | .floating => 1
  | _ => 2

/-- The variants in declaration order. -/
def lexKinds : List LexKind :=
  [.openL, .closeL, .str, .sym, .comment, .boolean, .integer, .floating]

/-- Maximal munch: longer match wins, equal length resolved by priority. -/
def betterCand (a b : LexKind × Nat) : LexKind × Nat :=
  if b.2 > a.2 || (b.2 = a.2 && kindPrio b.1 > kindPrio a.1) then b else a

/-- The winning variant and its match length at the front of the input. -/
def lexBest (cs : List Char) : Option (LexKind × Nat) :=
  (lexKinds.filterMap (fun k => (kindMatch k cs).map (k, ·))).foldl
    (fun acc c =>
      match acc with
      | none => some c
      | some a => some (betterCand a c))
    none

/-- Run the winning variant's logos callback on the matched slice; `none`
models a failing callback (`unescape` returning `None`, or `parse::<i64>`
overflowing), which logos turns into an error token. -/
def buildToken : LexKind → List Char → Option Token
  | .openL, _ => some (.OpenList 0)
  | .closeL, _ => some .CloseList
  | .str, cs => (unescape ((cs.drop 1).dropLast)).map (fun l => .String (String.mk l))
  | .sym, cs =>
    if cs.take 1 = ['|'] then
      (unescape ((cs.drop 1).dropLast)).map (fun l => .Symbol (String.mk l))
    else some (.Symbol (String.mk cs))
  | .comment, _ => some .Comment
  | .boolean, cs => some (.Bool (cs.take 2 = ['#', 't']))
  | .integer, cs => (parseI64 cs).map Token.Int
  | .floating, cs =>
    if cs.take 2 = ['#', '+'] then some (.Float .inf)
    else if cs.take 2 = ['#', '-'] then some (.Float .neginf)
    else if cs.take 2 = ['#', 'n'] then some (.Float .nan)
    else some (.Float (parseFloat cs))

/-- One lexer step on a nonempty input: either skip a maximal whitespace
run, or emit one entry — `none` stands for a logos error token (an
unmatched character, spanning that character, or a failed callback,
spanning the matched slice).  Returns the entry and the number of consumed
characters minus one (every step consumes at least one character). -/
def lexStep (cs : List Char) (pos : Nat) : Option (Option Token × Span) × Nat :=
  let w := runLen isWs cs
  if w ≠ 0 then (none, w - 1)
  else
    match lexBest cs with
    | some (k, len) => (some (buildToken k (cs.take len), ⟨pos, pos + len⟩), len - 1)
    | none => (some (none, ⟨pos, pos + 1⟩), 0)

/-- The lexer loop; the fuel is only a structural-recursion device, and
`fuel ≥ cs.length` is always enough because every step consumes at least
one character. -/
def lexGo : Nat → List Char → Nat → List (Option Token × Span)
  | 0, _, _ => []
  | _ + 1, [], _ => []
  | fuel + 1, c :: rest, pos =>
    let step := lexStep (c :: rest) pos
    let out := lexGo fuel ((c :: rest).drop (step.2 + 1)) (pos + (step.2 + 1))
    match step.1 with
    | some e => e :: out
    | none => out

/-- The raw spanned token sequence of a source text
(`Token::lexer(str).spanned()`). -/
def lexAll (cs : List Char) : List (Option Token × Span) :=
  lexGo cs.length cs 0

/-- The token-collection stage of `from_str` (read.rs): drop every
`Comment` token, then fail with `Syntax` at the first lexing error. -/
def collectTokens : List (Option Token × Span) → Except ReadError (List (Token × Span))
  | [] => .ok []
  | (some .Comment, _) :: rest => collectTokens rest
  | (some t, sp) :: rest => (collectTokens rest).map ((t, sp) :: ·)
  | (none, sp) :: _ => .error (.Syntax sp)

/-- All of `from_str` up to the construction of the `ReaderStream`:
lex, filter comments, surface-syntax check, balance, then build the
top-level stream whose parent span covers the whole input. -/
def from_str_stream (cs : List Char) : Except ReadError ReaderStream := do
  let tokens ← collectTokens (lexAll cs)
  let _ ← check_whitespace tokens
  let tokens' ← balance_lists tokens
  pure { tokens := tokens', cur_span := ⟨0, 0⟩, parent_span := ⟨0, cs.length⟩ }

/-- Modelled from the spec: the universal tree type `Value` (its defining
module is not among the given sources; spec section 3).  The integer
payload is Rust's `i64`, modelled as `Int` with the 64-bit range imposed
separately where a claim needs it; the float payload is `F64`, whose
structural equality makes NaN equal to NaN (the data model's NaN-aware
structural float equality). -/
inductive Value where
  | List (l : List Value)
  | String (s : String)
  | Symbol (s : String)
  | Bool (b : Bool)
  | Int (i : Int)
  | Float (f : F64)
deriving Repr

/-! ### FromParens models

The trait `FromParens` and its implementations live in `from_parens.rs`,
which is not among the given sources; the implementations for `Value`,
`Vec<Value>` and `String` are modelled from the spec's Visitor Protocol:
a value is pulled from the stream with `next`, and a list token tree is
read by collecting values from the child view until that view is
exhausted.  The fuel arguments are structural-recursion devices only;
every call consumes stream tokens, so any fuel larger than the token
count gives the model's meaning. -/

mutual

/-- Modelled from the spec: `FromParens for Value`. -/
def valueFromParens : Nat → ReaderStream → Except ParseError (Value × ReaderStream)
  | 0, _ => .error .ExpectedValue
  | fuel + 1, s =>
    match s.next with
    | none => .error .ExpectedValue
    | some (.List inner, s') =>
      match valuesFromParens fuel inner with
      | .ok vs => .ok (.List vs, s')
      | .error e => .error e
    | some (.String str, s') => .ok (.String str, s')
    | some (.Symbol sym, s') => .ok (.Symbol sym, s')
    | some (.Bool b, s') => .ok (.Bool b, s')
    | some (.Int i, s') => .ok (.Int i, s')
    | some (.Float f, s') => .ok (.Float f, s')

/-- Modelled from the spec: `FromParens for Vec<Value>` — read values
until the stream is exhausted. -/
def valuesFromParens : Nat → ReaderStream → Except ParseError (List Value)
  | 0, _ => .error .ExpectedValue
  | fuel + 1, s =>
    match s.peek with
    | none => .ok []
    | some _ =>
      match valueFromParens fuel s with
      | .ok (v, s') =>
        match valuesFromParens fuel s' with
        | .ok vs => .ok (v :: vs)
        | .error e => .error e
      | .error e => .error e

end

/-- `from_str::<Vec<Value>>`: the full reading pipeline for a sequence of
values. -/
def from_str_values (str : String) : Except ReadError (List Value) :=
  match from_str_stream str.toList with
  | .error e => .error e
  | .ok s =>
    match valuesFromParens (2 * s.tokens.length + 2) s with
    | .ok vs => .ok vs
    | .error e => .error (.Parse e)

/-- `from_str::<Value>`: read a single value. -/
def from_str_value (str : String) : Except ReadError Value :=
  match from_str_stream str.toList with
  | .error e => .error e
  | .ok s =>
    match valueFromParens (2 * s.tokens.length + 2) s with
    | .ok (v, _) => .ok v
    | .error e => .error (.Parse e)

/-! ### The binder for a single required slot (claim C3) -/

/-- Modelled from the spec: the sibling scan that the `FromParens` derive
macro generates for `struct Test { #[sexpr(required)] field: String }`
(the macro crate is not among the given sources; spec section 4.4).  Every
sibling must be a tagged form `(field v)` with a string tail; each
occurrence is recorded in encounter order. -/
def requiredFieldGo : Nat → ReaderStream → List String →
    Except ParseError (List String)
  | 0, _, _ => .error .ExpectedValue
  | fuel + 1, s, occs =>
    match s.next with
    | none => .ok occs
    | some (.List inner, s') =>
      match inner.next with
      | some (.Symbol name, innerRest) =>
        if name = "field" then
          match innerRest.next with
          | some (.String str, innerRest') =>
            if innerRest'.is_end then requiredFieldGo fuel s' (occs ++ [str])
            else .error .UnexpectedForm
          | _ => .error .ExpectedString
        else .error .UnexpectedForm
      | _ => .error .UnexpectedForm
    | some _ => .error .UnexpectedForm

/-- Modelled from the spec: after the sibling scan the required slot's
counter must be exactly one — zero occurrences is a missing-field error,
two or more a duplicate-field error. -/
def readRequiredField (s : ReaderStream) : Except ParseError String :=
  match requiredFieldGo (s.tokens.length + 1) s [] with
  | .error e => .error e
  | .ok [] => .error (.MissingField "field")
  | .ok [v] => .ok v
  | .ok (_ :: _ :: _) => .error (.DuplicateField "field")

/-- `from_str::<Test>` for the one-required-slot schema of claim C3. -/
def from_str_required (str : String) : Except ReadError String :=
  match from_str_stream str.toList with
  | .error e => .error e
  | .ok s =>
    match readRequiredField s with
    | .ok v => .ok v
    | .error e => .error (.Parse e)

/-! ## Theorems -/

/-! ### The balance invariant (claims C2, C6, C7) -/

/-- Tokens that are neither an opener nor a closer. -/
def isAtomTok : Token → Bool
  | .OpenList _ => false
  | .CloseList => false
  | _ => true

/-- Well-formed flat token sequences with correct skip annotations: empty,
an atom followed by a well-formed remainder, or an `OpenList` whose skip
is the flat distance to its matching `CloseList`, wrapping a well-formed
inner segment and followed by a well-formed remainder.  This is the
balance invariant of the spec, stated recursively. -/
inductive Okay : List Token → Prop where
  | nil : Okay []
  | atom {t : Token} {rest : List Token} :
      isAtomTok t = true → Okay rest → Okay (t :: rest)
  | list {inner rest : List Token} :
      Okay inner → Okay rest →
      Okay (.OpenList (inner.length + 1) :: inner ++ .CloseList :: rest)

theorem Okay.append {xs ys : List Token} (hx : Okay xs) (hy : Okay ys) :
    Okay (xs ++ ys) := by
  induction hx with
  | nil => exact hy
  | atom ha _ ih => exact .atom ha ih
  | list hin _ _ ih₂ =>
    simpa [List.cons_append, List.append_assoc] using Okay.list hin ih₂

/-- Invariant of the balancing loop: the already-visited prefix `acc`
decomposes around the stacked open positions into fully matched
segments. -/
def BalanceInv : List (Token × Span) → List Nat → Prop
  | acc, [] => Okay (acc.map Prod.fst)
  | acc, j :: js => ∃ C k sp S,
      acc = C ++ (Token.OpenList k, sp) :: S ∧ C.length = j ∧
      Okay (S.map Prod.fst) ∧ BalanceInv C js

theorem BalanceInv.push {acc : List (Token × Span)} {js : List Nat}
    {X : List (Token × Span)} (h : BalanceInv acc js)
    (hX : Okay (X.map Prod.fst)) : BalanceInv (acc ++ X) js := by
  cases js with
  | nil =>
    simp only [BalanceInv] at h ⊢
    rw [List.map_append]
    exact Okay.append h hX
  | cons j js =>
    simp only [BalanceInv] at h ⊢
    obtain ⟨C, k, sp, S, rfl, hC, hS, hinv⟩ := h
    exact ⟨C, k, sp, S ++ X, by simp, hC,
      by simpa [List.map_append] using Okay.append hS hX, hinv⟩

theorem getElem?_append_cons_self {α : Type} (C : List α) (x : α)
    (S : List α) : (C ++ x :: S)[C.length]? = some x := by
  rw [List.getElem?_append_right (Nat.le_refl _)]
  simp

theorem set_append_cons_self {α : Type} (C : List α) (x y : α)
    (S : List α) : (C ++ x :: S).set C.length y = C ++ y :: S := by
  induction C with
  | nil => rfl
  | cons c C ih =>
    simp only [List.cons_append, List.set, List.length_cons]
    exact congrArg (c :: ·) ih

theorem setTok_decomp (C S : List (Token × Span)) (k : Nat) (sp : Span)
    (t : Token) :
    setTok (C ++ (Token.OpenList k, sp) :: S) C.length t =
      C ++ (t, sp) :: S := by
  unfold setTok
  rw [getElem?_append_cons_self]
  exact set_append_cons_self C _ _ S

theorem balanceGo_okay (rest : List (Token × Span)) :
    ∀ (acc : List (Token × Span)) (stack : List Nat)
      (out : List (Token × Span)),
      BalanceInv acc stack → balanceGo rest acc stack = .ok out →
      Okay (out.map Prod.fst) := by
  induction rest with
  | nil =>
    intro acc stack out hinv h
    by_cases hs : stack = []
    · subst hs
      simp only [balanceGo, if_pos rfl] at h
      cases h
      exact hinv
    · simp [balanceGo, hs] at h
  | cons x rest ih =>
    intro acc stack out hinv h
    obtain ⟨t, sp⟩ := x
    cases t with
    | OpenList k =>
      simp only [balanceGo] at h
      refine ih _ _ _ ?_ h
      simp only [BalanceInv]
      exact ⟨acc, k, sp, [], by simp, rfl, .nil, hinv⟩
    | CloseList =>
      cases stack with
      | nil => simp [balanceGo] at h
      | cons j js =>
        simp only [balanceGo] at h
        simp only [BalanceInv] at hinv
        obtain ⟨C, k₀, sp₀, S, rfl, hC, hS, hinvC⟩ := hinv
        have hlen : (C ++ (Token.OpenList k₀, sp₀) :: S).length - j =
            S.length + 1 := by
          simp [List.length_append, hC]
        rw [hlen, ← hC, setTok_decomp] at h
        have hXok : Okay (((Token.OpenList (S.length + 1), sp₀) ::
            (S ++ [(Token.CloseList, sp)])).map Prod.fst) := by
          have := @Okay.list (S.map Prod.fst) [] hS .nil
          simpa [List.map_append] using this
        have hinv' : BalanceInv
            (C ++ ((Token.OpenList (S.length + 1), sp₀) ::
              (S ++ [(Token.CloseList, sp)]))) js :=
          BalanceInv.push hinvC hXok
        refine ih _ _ _ hinv' ?_
        simpa [List.append_assoc] using h
    | String s =>
      exact ih _ _ _ (hinv.push (X := [(.String s, sp)]) (.atom rfl .nil))
        (by simpa [balanceGo] using h)
    | Symbol s =>
      exact ih _ _ _ (hinv.push (X := [(.Symbol s, sp)]) (.atom rfl .nil))
        (by simpa [balanceGo] using h)
    | Comment =>
      exact ih _ _ _ (hinv.push (X := [(.Comment, sp)]) (.atom rfl .nil))
        (by simpa [balanceGo] using h)
    | Bool b =>
      exact ih _ _ _ (hinv.push (X := [(.Bool b, sp)]) (.atom rfl .nil))
        (by simpa [balanceGo] using h)
    | Int i =>
      exact ih _ _ _ (hinv.push (X := [(.Int i, sp)]) (.atom rfl .nil))
        (by simpa [balanceGo] using h)
    | Float f =>
      exact ih _ _ _ (hinv.push (X := [(.Float f, sp)]) (.atom rfl .nil))
        (by simpa [balanceGo] using h)

/-- On success, `balance_lists` produces a token sequence satisfying the
recursive balance invariant. -/
theorem balance_lists_okay {ts ts' : List (Token × Span)}
    (h : balance_lists ts = .ok ts') : Okay (ts'.map Prod.fst) :=
  balanceGo_okay ts [] [] ts' (by simpa [BalanceInv] using Okay.nil) h

/-- Flat-index reading of the recursive invariant: in an `Okay` sequence,
every `OpenList k` at index `i` has its matching `CloseList` at index
`i + k`, and the tokens strictly between form an `Okay` segment. -/
theorem Okay.open_spec {ts : List Token} (h : Okay ts) :
    ∀ i k, ts[i]? = some (.OpenList k) →
      ts[i + k]? = some .CloseList ∧
      Okay ((ts.drop (i + 1)).take (k - 1)) := by
  induction h with
  | nil => intro i k h; simp at h
  | atom ha _ ih =>
    intro i k hik
    cases i with
    | zero =>
      simp only [List.getElem?_cons_zero, Option.some_inj] at hik
      subst hik
      simp [isAtomTok] at ha
    | succ n =>
      have := ih n k (by simpa using hik)
      constructor
      · have harith : n + 1 + k = (n + k) + 1 := by omega
        rw [harith, List.getElem?_cons_succ]
        exact this.1
      · simpa using this.2
  | @list inner rest hin hrest ih_in ih_rest =>
    intro i k hik
    simp only [List.cons_append] at hik ⊢
    cases i with
    | zero =>
      simp only [List.getElem?_cons_zero, Option.some_inj,
        Token.OpenList.injEq] at hik
      subst hik
      constructor
      · simp only [Nat.zero_add, List.getElem?_cons_succ]
        rw [List.getElem?_append_right (Nat.le_refl _)]
        simp
      · simp only [Nat.zero_add, List.drop_succ_cons, List.drop_zero,
          Nat.add_sub_cancel]
        rw [List.take_left' rfl]
        exact hin
    | succ n =>
      rw [List.getElem?_cons_succ] at hik
      rcases Nat.lt_trichotomy n inner.length with hn | hn | hn
      · -- inside the inner segment
        rw [List.getElem?_append_left hn] at hik
        obtain ⟨hclose, hseg⟩ := ih_in n k hik
        have hnk : n + k < inner.length := by
          rcases List.getElem?_eq_some.mp hclose with ⟨hlt, _⟩
          exact hlt
        constructor
        · have harith : n + 1 + k = (n + k) + 1 := by omega
          rw [harith, List.getElem?_cons_succ, List.getElem?_append_left hnk]
          exact hclose
        · rw [List.drop_succ_cons,
            List.drop_append_of_le_length (by omega),
            List.take_append_of_le_length]
          · exact hseg
          · simp only [List.length_drop]
            omega
      · -- exactly at the closer: not an opener
        subst hn
        rw [List.getElem?_append_right (Nat.le_refl _)] at hik
        simp at hik
      · -- in the remainder after the closer
        rw [List.getElem?_append_right (by omega)] at hik
        have hik' : rest[n - inner.length - 1]? = some (.OpenList k) := by
          have hidx : n - inner.length = (n - inner.length - 1) + 1 := by
            omega
          rw [hidx, List.getElem?_cons_succ] at hik
          exact hik
        obtain ⟨hclose, hseg⟩ := ih_rest _ k hik'
        constructor
        · have harith : n + 1 + k = (n + k) + 1 := by omega
          rw [harith, List.getElem?_cons_succ,
            @List.getElem?_append_right _ inner _ _ (by omega)]
          have hidx : n + k - inner.length =
              (n - inner.length - 1 + k) + 1 := by omega
          rw [hidx, List.getElem?_cons_succ]
          exact hclose
        · rw [List.drop_succ_cons]
          have hidx : n + 1 = inner.length + (n - inner.length + 1) := by
            omega
          rw [hidx, List.drop_append, List.drop_succ_cons]
          have hidx2 : n - inner.length = (n - inner.length - 1) + 1 := by
            omega
          rw [hidx2]
          exact hseg

/-- Claim C2: for every token sequence accepted by `balance_lists`, each
`OpenList` at flat index `i` carries a skip `k` such that the token at
`i + k` is its matching `CloseList`, the tokens strictly between form a
segment balanced the same way, and no two opener/closer pairs cross: any
opener strictly inside the pair closes strictly inside it. -/
theorem c2_balance_invariant (ts ts' : List (Token × Span))
    (h : balance_lists ts = .ok ts') (i k : Nat)
    (hi : (ts'.map Prod.fst)[i]? = some (.OpenList k)) :
    (ts'.map Prod.fst)[i + k]? = some .CloseList ∧
    Okay (((ts'.map Prod.fst).drop (i + 1)).take (k - 1)) ∧
    (∀ i' k', i < i' → i' < i + k →
      (ts'.map Prod.fst)[i']? = some (.OpenList k') → i' + k' < i + k) := by
  have hok := balance_lists_okay h
  obtain ⟨hclose, hseg⟩ := hok.open_spec i k hi
  refine ⟨hclose, hseg, ?_⟩
  intro i' k' hlt hlt' hi'
  set tl := ts'.map Prod.fst with htl
  -- the opener at i' sits at position i' - i - 1 inside the segment
  have hseglen : k - 1 ≤ (tl.drop (i + 1)).length := by
    rcases List.getElem?_eq_some.mp hclose with ⟨hltlen, _⟩
    simp [List.length_drop]
    omega
  have hidx : ((tl.drop (i + 1)).take (k - 1))[i' - i - 1]? =
      some (.OpenList k') := by
    rw [List.getElem?_take, if_pos (by omega), List.getElem?_drop]
    have : i + 1 + (i' - i - 1) = i' := by omega
    rw [this]
    exact hi'
  obtain ⟨hclose', _⟩ := hseg.open_spec _ k' hidx
  rcases List.getElem?_eq_some.mp hclose' with ⟨hlt2, _⟩
  have := List.length_take_le (k - 1) (tl.drop (i + 1))
  omega

/-- Witness for claim C2: the tokens of `(())`, balanced, instantiated at
the outer opener (index 0, skip 3). -/
theorem c2_balance_invariant_witness :
    (([(Token.OpenList 3, (⟨0, 1⟩ : Span)), (Token.OpenList 1, ⟨1, 2⟩),
        (Token.CloseList, ⟨2, 3⟩), (Token.CloseList, ⟨3, 4⟩)].map
        Prod.fst)[0 + 3]? = some Token.CloseList) ∧
    Okay ((([(Token.OpenList 3, (⟨0, 1⟩ : Span)), (Token.OpenList 1, ⟨1, 2⟩),
        (Token.CloseList, ⟨2, 3⟩), (Token.CloseList, ⟨3, 4⟩)].map
        Prod.fst).drop (0 + 1)).take (3 - 1)) ∧
    (∀ i' k', 0 < i' → i' < 0 + 3 →
      (([(Token.OpenList 3, (⟨0, 1⟩ : Span)), (Token.OpenList 1, ⟨1, 2⟩),
        (Token.CloseList, ⟨2, 3⟩), (Token.CloseList, ⟨3, 4⟩)].map
        Prod.fst))[i']? = some (Token.OpenList k') → i' + k' < 0 + 3) :=
  c2_balance_invariant
    [(.OpenList 0, ⟨0, 1⟩), (.OpenList 0, ⟨1, 2⟩),
     (.CloseList, ⟨2, 3⟩), (.CloseList, ⟨3, 4⟩)]
    [(.OpenList 3, ⟨0, 1⟩), (.OpenList 1, ⟨1, 2⟩),
     (.CloseList, ⟨2, 3⟩), (.CloseList, ⟨3, 4⟩)]
    rfl 0 3 rfl

/-- The condition `check_whitespace` enforces on one window of two
adjacent tokens: if their spans touch, the first must be an
`OpenList`/`Comment` or the second a `CloseList`/`Comment`. -/
def windowOk (a b : Token × Span) : Prop :=
  a.2.stop = b.2.start → exemptLeft a.1 = true ∨ exemptRight b.1 = true

/-- `check_whitespace` succeeds exactly when every window of two adjacent
tokens satisfies `windowOk`. -/
theorem check_whitespace_ok_iff (ts : List (Token × Span)) :
    check_whitespace ts = .ok () ↔ ts.Chain' windowOk := by
  induction ts with
  | nil => simp [check_whitespace]
  | cons x tail ih =>
    cases tail with
    | nil => simp [check_whitespace]
    | cons y rest =>
      rw [List.chain'_cons]
      obtain ⟨a, sa⟩ := x
      obtain ⟨b, sb⟩ := y
      by_cases hl : exemptLeft a = true
      · simpa [check_whitespace, hl, windowOk] using ih
      · by_cases hr : exemptRight b = true
        · simpa [check_whitespace, hl, hr, windowOk] using ih
        · by_cases ht : sa.stop = sb.start
          · simp [check_whitespace, hl, hr, ht, windowOk]
          · simpa [check_whitespace, hl, hr, ht, windowOk] using ih

/-! ### Error behavior of the balancing pass (claim C6) -/

/-- Openers. -/
def isOpenTok : Token → Bool
  | .OpenList _ => true
  | _ => false

/-- Closers. -/
def isCloseTok : Token → Bool
  | .CloseList => true
  | _ => false

/-- Number of `OpenList` tokens. -/
def countOpen (ts : List (Token × Span)) : Nat :=
  ts.countP (fun p => isOpenTok p.1)

/-- Number of `CloseList` tokens. -/
def countClose (ts : List (Token × Span)) : Nat :=
  ts.countP (fun p => isCloseTok p.1)

/-- An unmatched closer relative to `e` already-stacked openers: token `i`
is a `CloseList` and the balancing stack is empty when the pass reaches
it, i.e. the prefix has exactly `e` fewer closers than openers
counterbalanced — `countClose = countOpen + e` on the prefix. -/
def BadClose (ts : List (Token × Span)) (e i : Nat) : Prop :=
  (∃ sp, ts[i]? = some (Token.CloseList, sp)) ∧
  countClose (ts.take i) = countOpen (ts.take i) + e

/-- Pure control-flow skeleton of the balancing loop: only the remaining
tokens and the stack height matter for which result is produced. -/
def balSpec : List (Token × Span) → Nat → Except ReadError Unit
  | [], 0 => .ok ()
  | [], _ + 1 => .error .EndOfFile
  | (t, sp) :: rest, h =>
    match t with
    | .OpenList _ => balSpec rest (h + 1)
    | .CloseList =>
      match h with
      | 0 => .error (.UnexpectedClose sp)
      | h' + 1 => balSpec rest h'
    | _ => balSpec rest h

/-- The balancing loop's result, with the rewritten tokens erased, is the
control-flow skeleton applied to the stack height. -/
theorem balanceGo_toUnit (rest : List (Token × Span)) :
    ∀ (acc : List (Token × Span)) (stack : List Nat),
      (balanceGo rest acc stack).map (fun _ => ()) =
        balSpec rest stack.length := by
  induction rest with
  | nil =>
    intro acc stack
    cases stack with
    | nil => simp [balanceGo, balSpec, Except.map]
    | cons j js => simp [balanceGo, balSpec, Except.map]
  | cons x rest ih =>
    intro acc stack
    obtain ⟨t, sp⟩ := x
    cases t with
    | OpenList k => simpa [balanceGo, balSpec] using ih _ _
    | CloseList =>
      cases stack with
      | nil => simp [balanceGo, balSpec, Except.map]
      | cons j js => simpa [balanceGo, balSpec] using ih _ _
    | String s => simpa [balanceGo, balSpec] using ih _ _
    | Symbol s => simpa [balanceGo, balSpec] using ih _ _
    | Comment => simpa [balanceGo, balSpec] using ih _ _
    | Bool b => simpa [balanceGo, balSpec] using ih _ _
    | Int i => simpa [balanceGo, balSpec] using ih _ _
    | Float f => simpa [balanceGo, balSpec] using ih _ _

theorem badClose_zero (t : Token) (sp : Span) (rest : List (Token × Span))
    (e : Nat) :
    BadClose ((t, sp) :: rest) e 0 ↔ isCloseTok t = true ∧ e = 0 := by
  unfold BadClose
  simp only [List.getElem?_cons_zero, List.take_zero, countOpen, countClose,
    List.countP_nil, Option.some_inj, Prod.mk.injEq]
  constructor
  · rintro ⟨⟨sp', ht, _⟩, he⟩
    subst ht
    exact ⟨rfl, by omega⟩
  · rintro ⟨ht, he⟩
    cases t with
    | CloseList => exact ⟨⟨sp, rfl, rfl⟩, by omega⟩
    | OpenList k => simp [isCloseTok] at ht
    | String s => simp [isCloseTok] at ht
    | Symbol s => simp [isCloseTok] at ht
    | Comment => simp [isCloseTok] at ht
    | Bool b => simp [isCloseTok] at ht
    | Int i => simp [isCloseTok] at ht
    | Float f => simp [isCloseTok] at ht

theorem badClose_succ (t : Token) (sp : Span) (rest : List (Token × Span))
    {e j e' : Nat}
    (he : (if isOpenTok t then 1 else 0) + e =
      (if isCloseTok t then 1 else 0) + e') :
    (BadClose ((t, sp) :: rest) e (j + 1) ↔ BadClose rest e' j) := by
  unfold BadClose
  simp only [List.getElem?_cons_succ, List.take_succ_cons, countOpen,
    countClose, List.countP_cons]
  cases hio : isOpenTok t <;> cases hic : isCloseTok t <;>
    simp only [hio, hic, if_true, if_false, Bool.false_eq_true,
      Bool.true_eq_false, ite_true, ite_false] at he ⊢ <;>
    (constructor <;> rintro ⟨h1, h2⟩ <;> exact ⟨h1, by omega⟩)

theorem noBad_cons (t : Token) (sp : Span) (rest : List (Token × Span))
    {h e' : Nat}
    (he : (if isOpenTok t then 1 else 0) + h =
      (if isCloseTok t then 1 else 0) + e')
    (h0 : ¬(isCloseTok t = true ∧ h = 0)) :
    (∀ i, ¬ BadClose ((t, sp) :: rest) h i) ↔
      (∀ j, ¬ BadClose rest e' j) := by
  constructor
  · intro hall j hb
    exact hall (j + 1) ((badClose_succ t sp rest he).mpr hb)
  · intro hrest i
    cases i with
    | zero =>
      rw [badClose_zero]
      exact h0
    | succ j =>
      intro hb
      exact hrest j ((badClose_succ t sp rest he).mp hb)

theorem count_cons (t : Token) (sp : Span) (rest : List (Token × Span))
    {h e' : Nat}
    (he : (if isOpenTok t then 1 else 0) + h =
      (if isCloseTok t then 1 else 0) + e') :
    (countClose ((t, sp) :: rest) = countOpen ((t, sp) :: rest) + h ↔
      countClose rest = countOpen rest + e') := by
  unfold countOpen countClose
  simp only [List.countP_cons]
  cases hio : isOpenTok t <;> cases hic : isCloseTok t <;>
    simp only [hio, hic, if_true, if_false, Bool.false_eq_true,
      Bool.true_eq_false, ite_true, ite_false] at he ⊢ <;>
    (constructor <;> intro <;> omega)

/-- The first unmatched closer, together with its span: a `BadClose`
position holding span `s` such that no smaller position is bad. -/
def FirstBad (ts : List (Token × Span)) (e : Nat) (s : Span) : Prop :=
  ∃ i, ts[i]? = some (Token.CloseList, s) ∧
    countClose (ts.take i) = countOpen (ts.take i) + e ∧
    ∀ j, j < i → ¬ BadClose ts e j

theorem firstBad_cons (t : Token) (sp : Span) (rest : List (Token × Span))
    {h e' : Nat} (s : Span)
    (he : (if isOpenTok t then 1 else 0) + h =
      (if isCloseTok t then 1 else 0) + e')
    (h0 : ¬(isCloseTok t = true ∧ h = 0)) :
    (FirstBad ((t, sp) :: rest) h s ↔ FirstBad rest e' s) := by
  unfold FirstBad
  constructor
  · rintro ⟨i, hi, hcnt, hmin⟩
    cases i with
    | zero =>
      exfalso
      apply h0
      refine (badClose_zero t sp rest h).mp ?_
      exact ⟨⟨s, by simpa using hi⟩, by
        simpa [countOpen, countClose] using hcnt⟩
    | succ j =>
      have hb : BadClose ((t, sp) :: rest) h (j + 1) :=
        ⟨⟨s, by simpa using hi⟩, hcnt⟩
      obtain ⟨hb1, hb2⟩ := (badClose_succ t sp rest he).mp hb
      refine ⟨j, ?_, hb2, ?_⟩
      · obtain ⟨sp', hsp'⟩ := hb1
        rw [List.getElem?_cons_succ] at hi
        exact hi
      · intro j' hj' hbad
        exact hmin (j' + 1) (by omega) ((badClose_succ t sp rest he).mpr hbad)
  · rintro ⟨j, hj, hcnt, hmin⟩
    have hb : BadClose rest e' j := ⟨⟨s, hj⟩, hcnt⟩
    obtain ⟨hb1, hb2⟩ := (badClose_succ t sp rest he).mpr hb
    refine ⟨j + 1, by simpa using hj, hb2, ?_⟩
    intro j' hj' hbad
    cases j' with
    | zero => exact h0 ((badClose_zero t sp rest h).mp hbad)
    | succ j'' =>
      exact hmin j'' (by omega) ((badClose_succ t sp rest he).mp hbad)

/-- `balSpec` succeeds exactly when there is no unmatched closer and the
closers balance the openers plus the starting stack height. -/
theorem balSpec_ok_iff (rest : List (Token × Span)) :
    ∀ h : Nat, balSpec rest h = .ok () ↔
      (∀ i, ¬ BadClose rest h i) ∧
      countClose rest = countOpen rest + h := by
  induction rest with
  | nil =>
    intro h
    unfold BadClose
    cases h with
    | zero =>
      simp [balSpec, countOpen, countClose]
    | succ h => simp [balSpec, countOpen, countClose]
  | cons x rest ih =>
    intro h
    obtain ⟨t, sp⟩ := x
    cases t with
    | CloseList =>
      cases h with
      | zero =>
        simp only [balSpec]
        constructor
        · intro hc; cases hc
        · rintro ⟨hall, _⟩
          exact absurd ((badClose_zero Token.CloseList sp rest 0).mpr
            ⟨rfl, rfl⟩) (hall 0)
      | succ h' =>
        have he : (if isOpenTok Token.CloseList then 1 else 0) + (h' + 1) =
            (if isCloseTok Token.CloseList then 1 else 0) + h' := by
          show 0 + (h' + 1) = 1 + h'
          omega
        simp only [balSpec]
        rw [ih h', noBad_cons _ sp rest he (by simp), count_cons _ sp rest he]
    | OpenList k =>
      have he : (if isOpenTok (Token.OpenList k) then 1 else 0) + h =
          (if isCloseTok (Token.OpenList k) then 1 else 0) + (h + 1) := by
        show 1 + h = 0 + (h + 1)
        omega
      simp only [balSpec]
      rw [ih (h + 1), noBad_cons _ sp rest he (by simp [isCloseTok]),
        count_cons _ sp rest he]
    | String s =>
      have he : (if isOpenTok (Token.String s) then 1 else 0) + h =
          (if isCloseTok (Token.String s) then 1 else 0) + h := by rfl
      simp only [balSpec]
      rw [ih h, noBad_cons _ sp rest he (by simp [isCloseTok]),
        count_cons _ sp rest he]
    | Symbol s =>
      have he : (if isOpenTok (Token.Symbol s) then 1 else 0) + h =
          (if isCloseTok (Token.Symbol s) then 1 else 0) + h := by rfl
      simp only [balSpec]
      rw [ih h, noBad_cons _ sp rest he (by simp [isCloseTok]),
        count_cons _ sp rest he]
    | Comment =>
      have he : (if isOpenTok Token.Comment then 1 else 0) + h =
          (if isCloseTok Token.Comment then 1 else 0) + h := by rfl
      simp only [balSpec]
      rw [ih h, noBad_cons _ sp rest he (by simp [isCloseTok]),
        count_cons _ sp rest he]
    | Bool b =>
      have he : (if isOpenTok (Token.Bool b) then 1 else 0) + h =
          (if isCloseTok (Token.Bool b) then 1 else 0) + h := by rfl
      simp only [balSpec]
      rw [ih h, noBad_cons _ sp rest he (by simp [isCloseTok]),
        count_cons _ sp rest he]
    | Int i =>
      have he : (if isOpenTok (Token.Int i) then 1 else 0) + h =
          (if isCloseTok (Token.Int i) then 1 else 0) + h := by rfl
      simp only [balSpec]
      rw [ih h, noBad_cons _ sp rest he (by simp [isCloseTok]),
        count_cons _ sp rest he]
    | Float f =>
      have he : (if isOpenTok (Token.Float f) then 1 else 0) + h =
          (if isCloseTok (Token.Float f) then 1 else 0) + h := by rfl
      simp only [balSpec]
      rw [ih h, noBad_cons _ sp rest he (by simp [isCloseTok]),
        count_cons _ sp rest he]

/-- `balSpec` reports an unmatched closer exactly at the first position
where a `CloseList` meets an empty stack, carrying that closer's span. -/
theorem balSpec_close_iff (rest : List (Token × Span)) :
    ∀ (h : Nat) (s : Span),
      balSpec rest h = .error (.UnexpectedClose s) ↔ FirstBad rest h s := by
  induction rest with
  | nil =>
    intro h s
    unfold FirstBad
    cases h with
    | zero => simp [balSpec]
    | succ h => simp [balSpec]
  | cons x rest ih =>
    intro h s
    obtain ⟨t, sp⟩ := x
    cases t with
    | CloseList =>
      cases h with
      | zero =>
        simp only [balSpec]
        constructor
        · intro hc
          injection hc with hc
          injection hc with hc
          subst hc
          exact ⟨0, by simp, by simp [countOpen, countClose],
            fun j hj => absurd hj (Nat.not_lt_zero j)⟩
        · rintro ⟨i, hi, hcnt, hmin⟩
          cases i with
          | zero =>
            simp only [List.getElem?_cons_zero, Option.some_inj,
              Prod.mk.injEq] at hi
            rw [hi.2]
          | succ j =>
            exact absurd ((badClose_zero Token.CloseList sp rest 0).mpr
              ⟨rfl, rfl⟩) (hmin 0 (Nat.succ_pos j))
      | succ h' =>
        have he : (if isOpenTok Token.CloseList then 1 else 0) + (h' + 1) =
            (if isCloseTok Token.CloseList then 1 else 0) + h' := by
          show 0 + (h' + 1) = 1 + h'
          omega
        simp only [balSpec]
        rw [ih h' s, firstBad_cons _ sp rest s he (by simp)]
    | OpenList k =>
      have he : (if isOpenTok (Token.OpenList k) then 1 else 0) + h =
          (if isCloseTok (Token.OpenList k) then 1 else 0) + (h + 1) := by
        show 1 + h = 0 + (h + 1)
        omega
      simp only [balSpec]
      rw [ih (h + 1) s, firstBad_cons _ sp rest s he (by simp [isCloseTok])]
    | String str =>
      simp only [balSpec]
      rw [ih h s, firstBad_cons _ sp rest s rfl (by simp [isCloseTok])]
    | Symbol sym =>
      simp only [balSpec]
      rw [ih h s, firstBad_cons _ sp rest s rfl (by simp [isCloseTok])]
    | Comment =>
      simp only [balSpec]
      rw [ih h s, firstBad_cons _ sp rest s rfl (by simp [isCloseTok])]
    | Bool b =>
      simp only [balSpec]
      rw [ih h s, firstBad_cons _ sp rest s rfl (by simp [isCloseTok])]
    | Int i =>
      simp only [balSpec]
      rw [ih h s, firstBad_cons _ sp rest s rfl (by simp [isCloseTok])]
    | Float f =>
      simp only [balSpec]
      rw [ih h s, firstBad_cons _ sp rest s rfl (by simp [isCloseTok])]

/-- `balSpec` reports end-of-file exactly when no unmatched closer exists
but the openers outnumber the closers. -/
theorem balSpec_eof_iff (rest : List (Token × Span)) :
    ∀ h : Nat, balSpec rest h = .error .EndOfFile ↔
      (∀ i, ¬ BadClose rest h i) ∧
      countClose rest ≠ countOpen rest + h := by
  induction rest with
  | nil =>
    intro h
    unfold BadClose
    cases h with
    | zero => simp [balSpec, countOpen, countClose]
    | succ h => simp [balSpec, countOpen, countClose]
  | cons x rest ih =>
    intro h
    obtain ⟨t, sp⟩ := x
    cases t with
    | CloseList =>
      cases h with
      | zero =>
        simp only [balSpec]
        constructor
        · intro hc; cases hc
        · rintro ⟨hall, _⟩
          exact absurd ((badClose_zero Token.CloseList sp rest 0).mpr
            ⟨rfl, rfl⟩) (hall 0)
      | succ h' =>
        have he : (if isOpenTok Token.CloseList then 1 else 0) + (h' + 1) =
            (if isCloseTok Token.CloseList then 1 else 0) + h' := by
          show 0 + (h' + 1) = 1 + h'
          omega
        simp only [balSpec]
        rw [ih h', noBad_cons _ sp rest he (by simp)]
        simp only [ne_eq]
        rw [not_congr (count_cons _ sp rest he)]
    | OpenList k =>
      have he : (if isOpenTok (Token.OpenList k) then 1 else 0) + h =
          (if isCloseTok (Token.OpenList k) then 1 else 0) + (h + 1) := by
        show 1 + h = 0 + (h + 1)
        omega
      simp only [balSpec]
      rw [ih (h + 1), noBad_cons _ sp rest he (by simp [isCloseTok])]
      simp only [ne_eq]
      rw [not_congr (count_cons _ sp rest he)]
    | String str =>
      simp only [balSpec]
      rw [ih h, noBad_cons _ sp rest rfl (by simp [isCloseTok])]
      simp only [ne_eq]
      rw [not_congr (count_cons _ sp rest rfl)]
    | Symbol sym =>
      simp only [balSpec]
      rw [ih h, noBad_cons _ sp rest rfl (by simp [isCloseTok])]
      simp only [ne_eq]
      rw [not_congr (count_cons _ sp rest rfl)]
    | Comment =>
      simp only [balSpec]
      rw [ih h, noBad_cons _ sp rest rfl (by simp [isCloseTok])]
      simp only [ne_eq]
      rw [not_congr (count_cons _ sp rest rfl)]
    | Bool b =>
      simp only [balSpec]
      rw [ih h, noBad_cons _ sp rest rfl (by simp [isCloseTok])]
      simp only [ne_eq]
      rw [not_congr (count_cons _ sp rest rfl)]
    | Int i =>
      simp only [balSpec]
      rw [ih h, noBad_cons _ sp rest rfl (by simp [isCloseTok])]
      simp only [ne_eq]
      rw [not_congr (count_cons _ sp rest rfl)]
    | Float f =>
      simp only [balSpec]
      rw [ih h, noBad_cons _ sp rest rfl (by simp [isCloseTok])]
      simp only [ne_eq]
      rw [not_congr (count_cons _ sp rest rfl)]

theorem except_map_unit_ok (x : Except ReadError (List (Token × Span))) :
    x.map (fun _ => ()) = .ok () ↔ ∃ out, x = .ok out := by
  cases x <;> simp [Except.map]

theorem except_map_unit_error (x : Except ReadError (List (Token × Span)))
    (e : ReadError) : x.map (fun _ => ()) = .error e ↔ x = .error e := by
  cases x <;> simp [Except.map]

/-- Claim C6: the balancing pass maintains a stack of unmatched opener
indices, whose height at position `i` is the opener surplus of the prefix;
it fails with `UnexpectedClose` carrying the closer's span at the first
`CloseList` met with an empty stack, fails with the end-of-file error when
the input ends with a non-empty stack (no unmatched closer, but openers
outnumber closers), and succeeds otherwise. -/
theorem c6_balance_errors (ts : List (Token × Span)) :
    ((∃ out, balance_lists ts = .ok out) ↔
      (∀ i, ¬ BadClose ts 0 i) ∧ countClose ts = countOpen ts) ∧
    (∀ s, balance_lists ts = .error (.UnexpectedClose s) ↔ FirstBad ts 0 s) ∧
    (balance_lists ts = .error .EndOfFile ↔
      (∀ i, ¬ BadClose ts 0 i) ∧ countClose ts ≠ countOpen ts) := by
  have hmap := balanceGo_toUnit ts [] []
  simp only [List.length_nil] at hmap
  refine ⟨?_, ?_, ?_⟩
  · rw [← except_map_unit_ok, balance_lists, hmap, balSpec_ok_iff]
    simp
  · intro s
    rw [← except_map_unit_error, balance_lists, hmap, balSpec_close_iff]
  · rw [← except_map_unit_error, balance_lists, hmap, balSpec_eof_iff]
    simp

/-! ### Span behavior of the balancing pass (claim C7) -/

theorem setTok_map_snd (ts : List (Token × Span)) :
    ∀ (j : Nat) (t : Token),
      (setTok ts j t).map Prod.snd = ts.map Prod.snd := by
  induction ts with
  | nil => intro j t; rfl
  | cons x ts ih =>
    intro j t
    cases j with
    | zero =>
      obtain ⟨t0, sp0⟩ := x
      simp [setTok, List.set]
    | succ j =>
      simp only [setTok, List.getElem?_cons_succ]
      cases h : ts[j]? with
      | none => rfl
      | some p =>
        obtain ⟨t0, sp0⟩ := p
        have := ih j t
        simp only [setTok, h] at this
        simp [List.set, this]

theorem balanceGo_spans (rest : List (Token × Span)) :
    ∀ (acc : List (Token × Span)) (stack : List Nat)
      (out : List (Token × Span)),
      balanceGo rest acc stack = .ok out →
      out.map Prod.snd = acc.map Prod.snd ++ rest.map Prod.snd := by
  induction rest with
  | nil =>
    intro acc stack out h
    by_cases hs : stack = []
    · subst hs
      simp only [balanceGo, if_pos rfl] at h
      cases h
      simp
    · simp [balanceGo, hs] at h
  | cons x rest ih =>
    intro acc stack out h
    obtain ⟨t, sp⟩ := x
    cases t with
    | OpenList k =>
      simp only [balanceGo] at h
      simpa [List.append_assoc] using ih _ _ _ h
    | CloseList =>
      cases stack with
      | nil => simp [balanceGo] at h
      | cons j js =>
        simp only [balanceGo] at h
        have := ih _ _ _ h
        rw [this]
        simp [setTok_map_snd]
    | String s =>
      simp only [balanceGo] at h
      simpa [List.append_assoc] using ih _ _ _ h
    | Symbol s =>
      simp only [balanceGo] at h
      simpa [List.append_assoc] using ih _ _ _ h
    | Comment =>
      simp only [balanceGo] at h
      simpa [List.append_assoc] using ih _ _ _ h
    | Bool b =>
      simp only [balanceGo] at h
      simpa [List.append_assoc] using ih _ _ _ h
    | Int i =>
      simp only [balanceGo] at h
      simpa [List.append_assoc] using ih _ _ _ h
    | Float f =>
      simp only [balanceGo] at h
      simpa [List.append_assoc] using ih _ _ _ h

/-- Claim C7, counterexample: on the token sequence of `()`, balancing
rewrites the opener's skip to 1 but leaves its recorded span `0..1`
unchanged; the span's end offset is 1, not the closer's end offset 2, so
the opener's span is not extended by `balance_lists`. -/
theorem c7_counterexample :
    balance_lists [(.OpenList 0, ⟨0, 1⟩), (.CloseList, ⟨1, 2⟩)] =
      .ok [(.OpenList 1, ⟨0, 1⟩), (.CloseList, ⟨1, 2⟩)] ∧
    (Span.mk 0 1).stop ≠ (Span.mk 1 2).stop :=
  ⟨rfl, by decide⟩

/-- Claim C7 (amended): on successful balancing every `OpenList` token is
rewritten with its skip distance — the token at `i + skip` is the
matching `CloseList` — while all recorded spans are left unchanged; the
closing delimiter's end offset is attached only when `ReaderStream::peek`
builds the view of a list, whose parent span ends at the matching
closer's end offset. -/
theorem c7_skip_and_spans (ts ts' : List (Token × Span))
    (h : balance_lists ts = .ok ts') :
    (∀ i k, (ts'.map Prod.fst)[i]? = some (Token.OpenList k) →
      (ts'.map Prod.fst)[i + k]? = some Token.CloseList) ∧
    ts'.map Prod.snd = ts.map Prod.snd ∧
    (∀ k sp cur par, ts'.head? = some (Token.OpenList k, sp) →
      ∃ inner spc, (ReaderStream.mk ts' cur par).peek =
          some (TokenTree.List inner) ∧
        ts'[k]? = some (Token.CloseList, spc) ∧
        inner.parent_span.stop = spc.stop) := by
  have hok := balance_lists_okay h
  refine ⟨fun i k hik => (hok.open_spec i k hik).1, ?_, ?_⟩
  · simpa using balanceGo_spans ts [] [] ts' h
  · intro k sp cur par hhead
    rw [List.head?_eq_getElem?] at hhead
    have hfst : (ts'.map Prod.fst)[0]? = some (.OpenList k) := by
      rw [List.getElem?_map, hhead]
      rfl
    have hclose := (hok.open_spec 0 k hfst).1
    rw [Nat.zero_add, List.getElem?_map] at hclose
    cases hk : ts'[k]? with
    | none => rw [hk] at hclose; cases hclose
    | some p =>
      obtain ⟨tc, spc⟩ := p
      rw [hk] at hclose
      simp only [Option.map_some', Option.some_inj] at hclose
      subst hclose
      cases ts' with
      | nil => cases hhead
      | cons x restl =>
        simp only [List.getElem?_cons_zero, Option.some_inj] at hhead
        subst hhead
        refine ⟨_, spc, rfl, rfl, ?_⟩
        show closerStop ((Token.OpenList k, sp) :: restl) k = spc.stop
        unfold closerStop
        rw [hk]

/-- Witness for claim C7 (amended): the token sequence of `()`. -/
theorem c7_skip_and_spans_witness :
    (∀ i k, (([(Token.OpenList 1, (⟨0, 1⟩ : Span)),
        (Token.CloseList, ⟨1, 2⟩)]).map Prod.fst)[i]? =
        some (Token.OpenList k) →
      (([(Token.OpenList 1, (⟨0, 1⟩ : Span)),
        (Token.CloseList, ⟨1, 2⟩)]).map Prod.fst)[i + k]? =
        some Token.CloseList) ∧
    ([(Token.OpenList 1, (⟨0, 1⟩ : Span)),
      (Token.CloseList, ⟨1, 2⟩)]).map Prod.snd =
      ([(Token.OpenList 0, (⟨0, 1⟩ : Span)),
        (Token.CloseList, ⟨1, 2⟩)]).map Prod.snd ∧
    (∀ k sp cur par,
      ([(Token.OpenList 1, (⟨0, 1⟩ : Span)),
        (Token.CloseList, ⟨1, 2⟩)]).head? = some (Token.OpenList k, sp) →
      ∃ inner spc,
        (ReaderStream.mk [(Token.OpenList 1, (⟨0, 1⟩ : Span)),
          (Token.CloseList, ⟨1, 2⟩)] cur par).peek =
            some (TokenTree.List inner) ∧
        ([(Token.OpenList 1, (⟨0, 1⟩ : Span)),
          (Token.CloseList, ⟨1, 2⟩)])[k]? = some (Token.CloseList, spc) ∧
        inner.parent_span.stop = spc.stop) :=
  c7_skip_and_spans
    [(.OpenList 0, ⟨0, 1⟩), (.CloseList, ⟨1, 2⟩)]
    [(.OpenList 1, ⟨0, 1⟩), (.CloseList, ⟨1, 2⟩)] rfl

/-- Claim C3: for the schema with the single required slot `field`, the
input with two tagged `field` forms fails with a duplicate-field error,
the input with none fails with a missing-field error, and exactly one
occurrence succeeds and binds the inner string. -/
theorem c3_required_field_binder :
    from_str_required "(field \"string\") (field \"another\")" =
      .error (.Parse (.DuplicateField "field")) ∧
    from_str_required "" = .error (.Parse (.MissingField "field")) ∧
    from_str_required "(field \"string\")" = .ok "string" :=
  ⟨rfl, rfl, rfl⟩

/-- Claim C4, counterexample: the claim exempts a touching pair whenever
one side is a list delimiter, but on `()()` the touching middle pair is a
`CloseList` followed by an `OpenList` — both list delimiters — and
parsing nevertheless rejects the input with `ExpectedWhitespace` on
exactly that pair. -/
theorem c4_counterexample :
    from_str_values "()()" = .error (.ExpectedWhitespace ⟨1, 2⟩ ⟨2, 3⟩) ∧
    collectTokens (lexAll "()()".toList) =
      .ok [(.OpenList 0, ⟨0, 1⟩), (.CloseList, ⟨1, 2⟩),
           (.OpenList 0, ⟨2, 3⟩), (.CloseList, ⟨3, 4⟩)] :=
  ⟨rfl, rfl⟩

/-- Claim C4 (amended): the surface-syntax check rejects two adjacent
tokens whose spans touch unless the earlier one is an opening list
delimiter (or comment) or the later one is a closing list delimiter (or
comment); in particular, `+#f`, `++inf.0` and `()()` each fail to parse
as a sequence of values. -/
theorem c4_adjacency_rejection :
    (∀ ts : List (Token × Span),
      check_whitespace ts = .ok () ↔ ts.Chain' windowOk) ∧
    from_str_values "+#f" = .error (.ExpectedWhitespace ⟨0, 1⟩ ⟨1, 3⟩) ∧
    from_str_values "++inf.0" = .error (.ExpectedWhitespace ⟨0, 1⟩ ⟨1, 7⟩) ∧
    from_str_values "()()" = .error (.ExpectedWhitespace ⟨1, 2⟩ ⟨2, 3⟩) :=
  ⟨check_whitespace_ok_iff, rfl, rfl, rfl⟩

/-! ### The reader stream (claim C8) -/

/-- Claim C8: `next` returns exactly what `peek` returns; a non-list
result advances the stream by one flat token, and a list result advances
past the opener, the skip-bounded contents and the matching closer — for
an opener with skip `k` (in range), `k + 1` flat tokens in the parent
view. -/
theorem c8_next_peek (s : ReaderStream) :
    Option.map Prod.fst s.next = s.peek ∧
    (∀ tt s', s.next = some (tt, s') →
      (∀ inner, tt = TokenTree.List inner →
        s'.tokens = s.tokens.drop (inner.tokens.length + 2)) ∧
      ((∀ inner, tt ≠ TokenTree.List inner) →
        s'.tokens = s.tokens.drop 1)) ∧
    (∀ k sp, s.tokens.head? = some (Token.OpenList k, sp) → 1 ≤ k →
      k < s.tokens.length →
      ∃ inner, s.peek = some (TokenTree.List inner) ∧
        inner.tokens.length = k - 1 ∧
        Option.map (fun p => p.2.tokens) s.next =
          some (s.tokens.drop (k + 1))) := by
  refine ⟨?_, ?_, ?_⟩
  · cases hp : s.peek with
    | none => simp [ReaderStream.next, hp]
    | some tt => cases tt <;> simp [ReaderStream.next, hp]
  · intro tt s' h
    cases hp : s.peek with
    | none => simp [ReaderStream.next, hp] at h
    | some tt0 =>
      cases tt0 with
      | List inner0 =>
        simp only [ReaderStream.next, hp] at h
        obtain ⟨rfl, rfl⟩ := Prod.mk.inj (Option.some_inj.mp h)
        constructor
        · intro inner heq
          cases heq
          rfl
        · intro hne
          exact absurd rfl (hne inner0)
      | String str =>
        simp only [ReaderStream.next, hp] at h
        obtain ⟨rfl, rfl⟩ := Prod.mk.inj (Option.some_inj.mp h)
        exact ⟨fun inner heq => (by cases heq), fun _ => rfl⟩
      | Symbol sym =>
        simp only [ReaderStream.next, hp] at h
        obtain ⟨rfl, rfl⟩ := Prod.mk.inj (Option.some_inj.mp h)
        exact ⟨fun inner heq => (by cases heq), fun _ => rfl⟩
      | Bool b =>
        simp only [ReaderStream.next, hp] at h
        obtain ⟨rfl, rfl⟩ := Prod.mk.inj (Option.some_inj.mp h)
        exact ⟨fun inner heq => (by cases heq), fun _ => rfl⟩
      | Int i =>
        simp only [ReaderStream.next, hp] at h
        obtain ⟨rfl, rfl⟩ := Prod.mk.inj (Option.some_inj.mp h)
        exact ⟨fun inner heq => (by cases heq), fun _ => rfl⟩
      | Float f =>
        simp only [ReaderStream.next, hp] at h
        obtain ⟨rfl, rfl⟩ := Prod.mk.inj (Option.some_inj.mp h)
        exact ⟨fun inner heq => (by cases heq), fun _ => rfl⟩
  · intro k sp hhead h1 hklen
    obtain ⟨stoks, cur, par⟩ := s
    cases stoks with
    | nil => cases hhead
    | cons x restl =>
      simp only [List.head?_cons, Option.some_inj] at hhead
      subst hhead
      have hlen : (restl.take (k - 1)).length = k - 1 := by
        rw [List.length_take]
        simp only [List.length_cons] at hklen
        omega
      refine ⟨_, rfl, ?_, ?_⟩
      · simpa [ReaderStream.peek] using hlen
      · show Option.map _ (ReaderStream.next _) = _
        simp only [ReaderStream.next, ReaderStream.peek, Option.map_some']
        congr 1
        show List.drop ((List.take (k - 1) restl).length + 2) _ = _
        rw [hlen]
        have : k - 1 + 2 = k + 1 := by omega
        rw [this]

/-- Witness for claim C8: a stream positioned at `(#t)` followed by an
integer; the opener's skip is 2 and `next` jumps 3 flat tokens. -/
theorem c8_next_peek_witness :
    ∃ inner,
      (ReaderStream.mk
        [(Token.OpenList 2, ⟨0, 1⟩), (Token.Bool true, ⟨1, 3⟩),
         (Token.CloseList, ⟨3, 4⟩), (Token.Int 5, ⟨5, 6⟩)]
        ⟨0, 0⟩ ⟨0, 6⟩).peek = some (TokenTree.List inner) ∧
      inner.tokens.length = 2 - 1 ∧
      Option.map (fun p => p.2.tokens)
        (ReaderStream.mk
          [(Token.OpenList 2, ⟨0, 1⟩), (Token.Bool true, ⟨1, 3⟩),
           (Token.CloseList, ⟨3, 4⟩), (Token.Int 5, ⟨5, 6⟩)]
          ⟨0, 0⟩ ⟨0, 6⟩).next =
        some ((ReaderStream.mk
          [(Token.OpenList 2, ⟨0, 1⟩), (Token.Bool true, ⟨1, 3⟩),
           (Token.CloseList, ⟨3, 4⟩), (Token.Int 5, ⟨5, 6⟩)]
          ⟨0, 0⟩ ⟨0, 6⟩).tokens.drop (2 + 1)) :=
  (c8_next_peek _).2.2 2 ⟨0, 1⟩ rfl (by decide) (by decide)

/-! ### Unreachability of the comment arm (claim C10) -/

/-- No `Comment` token occurs in the list. -/
def NoComments (l : List (Token × Span)) : Prop :=
  ∀ p ∈ l, p.1 ≠ Token.Comment

/-- The reader streams reachable from `s₀`: `s₀` itself, the stream after
any `next`, and the child view of any list returned by `peek` — exactly
the streams `from_str` can hand to a `FromParens` implementation. -/
inductive ReachableFrom : ReaderStream → ReaderStream → Prop where
  | refl (s : ReaderStream) : ReachableFrom s s
  | step {s₀ s s' : ReaderStream} {t : TokenTree} :
      ReachableFrom s₀ s → s.next = some (t, s') → ReachableFrom s₀ s'
  | descend {s₀ s inner : ReaderStream} :
      ReachableFrom s₀ s → s.peek = some (.List inner) →
      ReachableFrom s₀ inner

theorem collectTokens_noComments (raw : List (Option Token × Span)) :
    ∀ ts, collectTokens raw = .ok ts → NoComments ts := by
  induction raw with
  | nil =>
    intro ts h
    cases h
    intro p hp
    cases hp
  | cons x raw ih =>
    intro ts h
    obtain ⟨ot, sp⟩ := x
    cases ot with
    | none => simp [collectTokens] at h
    | some t =>
      cases t with
      | Comment => exact ih ts (by simpa [collectTokens] using h)
      | OpenList k =>
        simp only [collectTokens] at h
        cases hr : collectTokens raw with
        | error e => rw [hr] at h; cases h
        | ok ts' =>
          rw [hr] at h
          cases h
          intro p hp
          rcases List.mem_cons.mp hp with rfl | hmem
          · simp
          · exact ih ts' hr p hmem
      | CloseList =>
        simp only [collectTokens] at h
        cases hr : collectTokens raw with
        | error e => rw [hr] at h; cases h
        | ok ts' =>
          rw [hr] at h
          cases h
          intro p hp
          rcases List.mem_cons.mp hp with rfl | hmem
          · simp
          · exact ih ts' hr p hmem
      | String s =>
        simp only [collectTokens] at h
        cases hr : collectTokens raw with
        | error e => rw [hr] at h; cases h
        | ok ts' =>
          rw [hr] at h
          cases h
          intro p hp
          rcases List.mem_cons.mp hp with rfl | hmem
          · simp
          · exact ih ts' hr p hmem
      | Symbol s =>
        simp only [collectTokens] at h
        cases hr : collectTokens raw with
        | error e => rw [hr] at h; cases h
        | ok ts' =>
          rw [hr] at h
          cases h
          intro p hp
          rcases List.mem_cons.mp hp with rfl | hmem
          · simp
          · exact ih ts' hr p hmem
      | Bool b =>
        simp only [collectTokens] at h
        cases hr : collectTokens raw with
        | error e => rw [hr] at h; cases h
        | ok ts' =>
          rw [hr] at h
          cases h
          intro p hp
          rcases List.mem_cons.mp hp with rfl | hmem
          · simp
          · exact ih ts' hr p hmem
      | Int i =>
        simp only [collectTokens] at h
        cases hr : collectTokens raw with
        | error e => rw [hr] at h; cases h
        | ok ts' =>
          rw [hr] at h
          cases h
          intro p hp
          rcases List.mem_cons.mp hp with rfl | hmem
          · simp
          · exact ih ts' hr p hmem
      | Float f =>
        simp only [collectTokens] at h
        cases hr : collectTokens raw with
        | error e => rw [hr] at h; cases h
        | ok ts' =>
          rw [hr] at h
          cases h
          intro p hp
          rcases List.mem_cons.mp hp with rfl | hmem
          · simp
          · exact ih ts' hr p hmem

theorem setTok_noComments {ts : List (Token × Span)} {j : Nat} {t : Token}
    (h : NoComments ts) (ht : t ≠ Token.Comment) :
    NoComments (setTok ts j t) := by
  unfold setTok
  cases hj : ts[j]? with
  | none => exact h
  | some p =>
    obtain ⟨t0, sp0⟩ := p
    intro q hq
    rcases List.mem_or_eq_of_mem_set hq with hmem | rfl
    · exact h q hmem
    · exact ht

theorem noComments_append {a b : List (Token × Span)}
    (ha : NoComments a) (hb : NoComments b) : NoComments (a ++ b) := by
  intro p hp
  rcases List.mem_append.mp hp with hmem | hmem
  · exact ha p hmem
  · exact hb p hmem

theorem balanceGo_noComments (rest : List (Token × Span)) :
    ∀ acc stack out, NoComments acc → NoComments rest →
      balanceGo rest acc stack = .ok out → NoComments out := by
  induction rest with
  | nil =>
    intro acc stack out hacc _ h
    by_cases hs : stack = []
    · subst hs
      simp only [balanceGo, if_pos rfl] at h
      cases h
      exact hacc
    · simp [balanceGo, hs] at h
  | cons x rest ih =>
    intro acc stack out hacc hrest h
    obtain ⟨t, sp⟩ := x
    have hrest' : NoComments rest := fun p hp =>
      hrest p (List.mem_cons_of_mem _ hp)
    cases t with
    | OpenList k =>
      simp only [balanceGo] at h
      refine ih _ _ _ (noComments_append hacc ?_) hrest' h
      intro p hp
      rcases List.mem_singleton.mp hp with rfl
      simp
    | CloseList =>
      cases stack with
      | nil => simp [balanceGo] at h
      | cons j js =>
        simp only [balanceGo] at h
        refine ih _ _ _ (noComments_append (setTok_noComments hacc (by simp)) ?_) hrest' h
        intro p hp
        rcases List.mem_singleton.mp hp with rfl
        simp
    | Comment =>
      exact absurd rfl (hrest (Token.Comment, sp) (List.mem_cons_self _ _))
    | String s =>
      simp only [balanceGo] at h
      refine ih _ _ _ (noComments_append hacc ?_) hrest' h
      intro p hp
      rcases List.mem_singleton.mp hp with rfl
      simp
    | Symbol s =>
      simp only [balanceGo] at h
      refine ih _ _ _ (noComments_append hacc ?_) hrest' h
      intro p hp
      rcases List.mem_singleton.mp hp with rfl
      simp
    | Bool b =>
      simp only [balanceGo] at h
      refine ih _ _ _ (noComments_append hacc ?_) hrest' h
      intro p hp
      rcases List.mem_singleton.mp hp with rfl
      simp
    | Int i =>
      simp only [balanceGo] at h
      refine ih _ _ _ (noComments_append hacc ?_) hrest' h
      intro p hp
      rcases List.mem_singleton.mp hp with rfl
      simp
    | Float f =>
      simp only [balanceGo] at h
      refine ih _ _ _ (noComments_append hacc ?_) hrest' h
      intro p hp
      rcases List.mem_singleton.mp hp with rfl
      simp

/-- `next` and the list views of `peek` stay within (segments of) the
parent's token array, so comment-freeness is preserved. -/
theorem noComments_next {s s' : ReaderStream} {t : TokenTree}
    (h : NoComments s.tokens) (hn : s.next = some (t, s')) :
    NoComments s'.tokens := by
  cases hp : s.peek with
  | none => simp [ReaderStream.next, hp] at hn
  | some tt0 =>
    cases tt0 with
    | List inner0 =>
      simp only [ReaderStream.next, hp] at hn
      obtain ⟨rfl, rfl⟩ := Prod.mk.inj (Option.some_inj.mp hn)
      intro p hp'
      exact h p (List.drop_subset _ _ hp')
    | String str =>
      simp only [ReaderStream.next, hp] at hn
      obtain ⟨rfl, rfl⟩ := Prod.mk.inj (Option.some_inj.mp hn)
      intro p hp'
      exact h p (List.drop_subset _ _ hp')
    | Symbol sym =>
      simp only [ReaderStream.next, hp] at hn
      obtain ⟨rfl, rfl⟩ := Prod.mk.inj (Option.some_inj.mp hn)
      intro p hp'
      exact h p (List.drop_subset _ _ hp')
    | Bool b =>
      simp only [ReaderStream.next, hp] at hn
      obtain ⟨rfl, rfl⟩ := Prod.mk.inj (Option.some_inj.mp hn)
      intro p hp'
      exact h p (List.drop_subset _ _ hp')
    | Int i =>
      simp only [ReaderStream.next, hp] at hn
      obtain ⟨rfl, rfl⟩ := Prod.mk.inj (Option.some_inj.mp hn)
      intro p hp'
      exact h p (List.drop_subset _ _ hp')
    | Float f =>
      simp only [ReaderStream.next, hp] at hn
      obtain ⟨rfl, rfl⟩ := Prod.mk.inj (Option.some_inj.mp hn)
      intro p hp'
      exact h p (List.drop_subset _ _ hp')

theorem noComments_descend {s inner : ReaderStream}
    (h : NoComments s.tokens) (hp : s.peek = some (.List inner)) :
    NoComments inner.tokens := by
  obtain ⟨stoks, cur, par⟩ := s
  cases stoks with
  | nil => cases hp
  | cons x restl =>
    obtain ⟨t, sp⟩ := x
    cases t with
    | OpenList k =>
      simp only [ReaderStream.peek, Option.some_inj] at hp
      cases hp
      intro p hp'
      exact h p (List.drop_subset _ _ (List.take_subset _ _ hp'))
    | CloseList => cases hp
    | Comment => cases hp
    | String str => cases hp
    | Symbol sym => cases hp
    | Bool b => cases hp
    | Int i => cases hp
    | Float f => cases hp

theorem noComments_peekPanics {s : ReaderStream}
    (h : NoComments s.tokens) : s.peekPanics = false := by
  obtain ⟨stoks, cur, par⟩ := s
  cases stoks with
  | nil => rfl
  | cons x restl =>
    obtain ⟨t, sp⟩ := x
    cases t with
    | Comment =>
      exact absurd rfl (h (Token.Comment, sp) (List.mem_cons_self _ _))
    | OpenList k => rfl
    | CloseList => rfl
    | String str => rfl
    | Symbol sym => rfl
    | Bool b => rfl
    | Int i => rfl
    | Float f => rfl

/-- Claim C10: for every reader stream constructed by `from_str` — the
top stream over the comment-filtered, balanced token array, and every
stream reachable from it by `next` or by descending into a list view —
the `Comment` arm of `peek` (an `unreachable!` panic in Rust) is never
taken, because `from_str` filters all comments out before building the
stream and every derived view ranges over a segment of the same array. -/
theorem c10_comment_unreachable (raw : List (Option Token × Span))
    (ts ts' : List (Token × Span)) (cur par : Span) (s : ReaderStream)
    (hcollect : collectTokens raw = .ok ts)
    (hbal : balance_lists ts = .ok ts')
    (hreach : ReachableFrom ⟨ts', cur, par⟩ s) :
    s.peekPanics = false := by
  have hts : NoComments ts := collectTokens_noComments raw ts hcollect
  have hts' : NoComments ts' :=
    balanceGo_noComments ts [] [] ts' (fun p hp => by cases hp) hts hbal
  have hinv : NoComments s.tokens := by
    induction hreach with
    | refl => exact hts'
    | step _ hn ih => exact noComments_next ih hn
    | descend _ hp ih => exact noComments_descend ih hp
  exact noComments_peekPanics hinv

/-- Witness for claim C10: a raw lexer output containing a comment token,
filtered by collection; the top stream does not take the comment arm. -/
theorem c10_comment_unreachable_witness :
    (ReaderStream.mk [(Token.Bool true, ⟨10, 12⟩)] ⟨0, 0⟩
      ⟨0, 12⟩).peekPanics = false :=
  c10_comment_unreachable
    [(some Token.Comment, ⟨0, 10⟩), (some (Token.Bool true), ⟨10, 12⟩)]
    [(Token.Bool true, ⟨10, 12⟩)] [(Token.Bool true, ⟨10, 12⟩)]
    ⟨0, 0⟩ ⟨0, 12⟩ _ rfl rfl (ReachableFrom.refl _)

/-! ### The output streams (claims C9, C5)

`to_parens.rs` defines the `OutputStream` trait and the `Value`-collecting
stream; `pretty.rs` defines the document-building stream.  Both have
`Infallible` as their error type, modelled as `Except Empty`.  The
`pretty` crate's `BoxDoc` document algebra is modelled by `Doc`. -/

/-- The document algebra of the `pretty` crate as used by pretty.rs:
text, soft line break, nesting, grouping and concatenation. -/
inductive Doc where
  | nil
  | text (s : List Char)
  | line
  | cat (a b : Doc)
  | nest (n : Nat) (d : Doc)
  | group (d : Doc)
deriving DecidableEq, Repr

/-- `BoxDoc::intersperse(docs, BoxDoc::line())`. -/
def intersperseDocs : List Doc → Doc
  | [] => .nil
  | [d] => d
  | d :: rest => .cat d (.cat .line (intersperseDocs rest))

/-- Modelled from the spec: `escape_string` from escape.rs (not among the
given sources): escape the double quote, the backslash and the three named
control characters; all other characters are emitted unchanged (the string
token's `[^"\\]` class accepts them). -/
def escStringChar (c : Char) : List Char :=
  if c = '"' then ['\\', '"']
  else if c = '\\' then ['\\', '\\']
  else if c = '\t' then ['\\', 't']
  else if c = '\n' then ['\\', 'n']
  else if c = '\r' then ['\\', 'r']
  else [c]

/-- See `escStringChar`. -/
def escape_string (s : List Char) : List Char :=
  s.flatMap escStringChar

/-- A symbol text that the bare-symbol grammar accepts verbatim: an
initial-class character followed by continuation characters, or `+`/`-`
optionally followed by such a bare symbol. -/
def isBareSymbol : List Char → Bool
  | [] => false
  | c :: rest =>
    if symInit c then rest.all symCont
    else if c = '+' || c = '-' then
      match rest with
      | [] => true
      | d :: rest' => symInit d && rest'.all symCont
    else false

/-- Escape for the piped symbol form: only the pipe and the backslash need
escaping, every other character is accepted raw by `[^|\\]`. -/
def escPipeChar (c : Char) : List Char :=
  if c = '|' then ['\\', '|']
  else if c = '\\' then ['\\', '\\']
  else [c]

/-- Modelled from the spec: `escape_symbol` from escape.rs (not among the
given sources): a bare-grammar symbol is emitted verbatim, anything else
is wrapped in pipes with pipe-escaping. -/
def escape_symbol (s : List Char) : List Char :=
  if isBareSymbol s then s else '|' :: s.flatMap escPipeChar ++ ['|']

/-- Least `k` with `d ∣ 10^k`, by linear search (for the dyadic
denominators of floats, `k` is the 2-exponent, which is at most `d`);
returns the fuel bound if no such `k` exists. -/
def findExpGo : Nat → Nat → Nat → Nat
  | 0, _, k => k
  | fuel + 1, d, k => if 10 ^ k % d = 0 then k else findExpGo fuel d (k + 1)

/-- See `findExpGo`. -/
def findExp (d : Nat) : Nat :=
  findExpGo d d 0

/-- Zero-padded `k`-digit decimal rendering of `fp < 10^k`. -/
def padDigits (k fp : Nat) : List Char :=
  List.replicate (k - (natToString fp).length) '0' ++ natToString fp

/-- Modelled from Rust's `Display for f64` (std, outside the sources): a
plain decimal rendering without exponent.  The model prints the exact
decimal expansion of the (dyadic) rational; Rust prints the shortest
decimal that reads back to the same double.  The two differ in digits for
some values, but each reads back to the argument, which is the only
property the claims rely on. -/
def f64Display : F64 → List Char
  | .nan => ['N', 'a', 'N']
  | .inf => ['i', 'n', 'f']
  | .neginf => ['-', 'i', 'n', 'f']
  | .finite q =>
    let sgn : List Char := if q < 0 then ['-'] else []
    let n := q.num.natAbs
    let d := q.den
    let k := findExp d
    let m := n * 10 ^ k / d
    if k = 0 then sgn ++ natToString m
    else sgn ++ natToString (m / 10 ^ k) ++ '.' :: padDigits k (m % 10 ^ k)

/-- The text pushed by `Pretty::float` (pretty.rs): `#nan`, `#+inf`,
`#-inf` for the non-finite values, and the `Display` rendering with a
forced trailing `.0` when the float equals its own ceiling. -/
def prettyFloatText (f : F64) : List Char :=
  if f.isNan then ['#', 'n', 'a', 'n']
  else if F64.ieeeEq f .inf then ['#', '+', 'i', 'n', 'f']
  else if F64.ieeeEq f .neginf then ['#', '-', 'i', 'n', 'f']
  else if F64.ieeeEq f f.ceil then f64Display f ++ ['.', '0']
  else f64Display f

/-- The text pushed by `Pretty::bool`. -/
def prettyBoolText (b : Bool) : List Char :=
  if b then ['#', 't'] else ['#', 'f']

/-- `Pretty` (pretty.rs): the document-building output stream, a stack of
buffers of documents. -/
structure Pretty where
  stack : List (List Doc)
  current : List Doc
deriving DecidableEq, Repr

/-- The document built by `Pretty`'s `list` for a buffer of child
documents: `"(" ++ group (nest 2 (intersperse children line)) ++ ")"`,
with `append` associating to the left as in the Rust source. -/
def listDoc (docs : List Doc) : Doc :=
  .cat (.cat (.text ['(']) (.group (.nest 2 (intersperseDocs docs))))
    (.text [')'])

/-- `ValueOutputStream` (to_parens.rs): the `Value`-collecting output
stream, a stack of buffers of values. -/
structure ValueOutputStream where
  stack : List (List Value)
  current : List Value
deriving Repr

mutual

/-- `ToParens for Value` writing into `ValueOutputStream`
(to_parens.rs): dispatch on the value shape; the list arm pushes the
current buffer, writes the children into a fresh buffer, then pops and
wraps (`OutputStream::list`).  The error type is `Infallible` (`Empty`);
the `e.elim` arms are the impossible error paths. -/
def valueToParens : Value → ValueOutputStream → Except Empty ValueOutputStream
  | .List l, s =>
    match valuesToParens l { stack := s.current :: s.stack, current := [] } with
    | .ok s' =>
      match s'.stack with
      | prev :: stackRest =>
        .ok { stack := stackRest, current := prev ++ [Value.List s'.current] }
      | [] => .ok { stack := [], current := [Value.List s'.current] }
    | .error e => e.elim
  | .String str, s =>
    .ok { s with current := s.current ++ [Value.String str] }
  | .Symbol sym, s =>
    .ok { s with current := s.current ++ [Value.Symbol sym] }
  | .Bool b, s => .ok { s with current := s.current ++ [Value.Bool b] }
  | .Int i, s => .ok { s with current := s.current ++ [Value.Int i] }
  | .Float f, s => .ok { s with current := s.current ++ [Value.Float f] }

/-- `ToParens for Vec<Value>`: write each element in order, `?`
propagating the first failure. -/
def valuesToParens : List Value → ValueOutputStream →
    Except Empty ValueOutputStream
  | [], s => .ok s
  | v :: vs, s =>
    match valueToParens v s with
    | .ok s' => valuesToParens vs s'
    | .error e => e.elim

end

/-- `to_values` (to_parens.rs): run the value into a fresh stream and
return the collected buffer. -/
def to_values (v : Value) : List Value :=
  match valueToParens v { stack := [], current := [] } with
  | .ok s => s.current
  | .error e => e.elim

mutual

/-- `ToParens for Value` writing into `Pretty` (pretty.rs): the same
dispatch, building documents. -/
def prettyValueToParens : Value → Pretty → Except Empty Pretty
  | .List l, p =>
    match prettyValuesToParens l
        { stack := p.current :: p.stack, current := [] } with
    | .ok p' =>
      match p'.stack with
      | prev :: stackRest =>
        .ok { stack := stackRest, current := prev ++ [listDoc p'.current] }
      | [] => .ok { stack := [], current := [listDoc p'.current] }
    | .error e => e.elim
  | .String str, p =>
    .ok { p with current :=
      p.current ++ [Doc.text ('"' :: escape_string str.toList ++ ['"'])] }
  | .Symbol sym, p =>
    .ok { p with current :=
      p.current ++ [Doc.text (escape_symbol sym.toList)] }
  | .Bool b, p =>
    .ok { p with current := p.current ++ [Doc.text (prettyBoolText b)] }
  | .Int i, p =>
    .ok { p with current := p.current ++ [Doc.text (intToString i)] }
  | .Float f, p =>
    .ok { p with current := p.current ++ [Doc.text (prettyFloatText f)] }

/-- `ToParens for Vec<Value>` into `Pretty`. -/
def prettyValuesToParens : List Value → Pretty → Except Empty Pretty
  | [], p => .ok p
  | v :: vs, p =>
    match prettyValueToParens v p with
    | .ok p' => prettyValuesToParens vs p'
    | .error e => e.elim

end

/-- `ToParens for Vec<V>` over an arbitrary output stream with error type
`E`, abstracted by the per-element writer `f`: write each element in
order; the `?` operator returns the first failure to the caller
unchanged. -/
def seqToParens {S E A : Type} (f : A → S → Except E S) :
    List A → S → Except E S
  | [], s => .ok s
  | x :: xs, s =>
    match f x s with
    | .ok s' => seqToParens f xs s'
    | .error e => .error e

theorem exceptEmpty_ok {α : Type} (x : Except Empty α) : ∃ a, x = .ok a :=
  match x with
  | .ok a => ⟨a, rfl⟩
  | .error e => e.elim

/-- Claim C9: the `Value`-collecting and pretty-printing output streams
are infallible — their error type is `Infallible` (`Empty`), so writing
any `Value` always returns `Ok` (hence `to_values` and
`to_string_pretty` always produce a result) — and for a stream with an
arbitrary error type, the sequence writer propagates the first element
failure to the caller unchanged, never retrying: later elements are not
written. -/
theorem c9_infallible :
    (∀ (v : Value) (s : ValueOutputStream),
      ∃ s', valueToParens v s = .ok s') ∧
    (∀ (v : Value) (p : Pretty), ∃ p', prettyValueToParens v p = .ok p') ∧
    (∀ (S E A : Type) (f : A → S → Except E S) (xs : List A) (y : A)
      (ys : List A) (s s₁ : S) (e : E),
      seqToParens f xs s = .ok s₁ → f y s₁ = .error e →
      seqToParens f (xs ++ y :: ys) s = .error e) := by
  refine ⟨fun v s => exceptEmpty_ok _, fun v p => exceptEmpty_ok _, ?_⟩
  intro S E A f xs
  induction xs with
  | nil =>
    intro y ys s s₁ e hok hf
    cases hok
    simp only [List.nil_append, seqToParens, hf]
  | cons x xs ih =>
    intro y ys s s₁ e hok hf
    simp only [seqToParens] at hok
    cases hx : f x s with
    | error e0 => rw [hx] at hok; cases hok
    | ok s' =>
      rw [hx] at hok
      simp only [List.cons_append, seqToParens, hx]
      exact ih y ys s' s₁ e hok hf

/-- Witness for claim C9: a concrete three-element write whose third
element fails; the failure is returned unchanged and the trailing element
is never written. -/
theorem c9_infallible_witness :
    seqToParens
      (fun (a s : Nat) => if a = 0 then Except.error 7 else Except.ok (s + a))
      ([1, 2] ++ 0 :: [3]) 0 = .error 7 :=
  c9_infallible.2.2 Nat Nat Nat
    (fun a s => if a = 0 then Except.error 7 else Except.ok (s + a))
    [1, 2] 0 [3] 0 3 7 rfl rfl

/-! ### Float canonicalization (claim C5) -/

/-- A finite float equals its own ceiling exactly when it is integral
(denominator 1). -/
theorem ieeeEq_ceil_iff (q : Rat) :
    F64.ieeeEq (.finite q) ((F64.finite q).ceil) = true ↔ q.den = 1 := by
  show (q == ((Int.ceil q : Int) : Rat)) = true ↔ q.den = 1
  rw [beq_iff_eq]
  constructor
  · intro h
    rw [h]
    exact Rat.den_intCast _
  · intro h
    have hq : ((q.num : Int) : Rat) = q := by
      rw [← Rat.den_eq_one_iff]
      exact h
    rw [← hq, Int.ceil_intCast]

/-- Claim C5: `Pretty::float` renders NaN as `#nan`, the infinities as
`#+inf`/`#-inf`, and every finite float equal to its own ceiling with a
forced trailing `.0`; lexing the rendered non-finite text recovers the
same classification (NaN as NaN, infinity with the same sign). -/
theorem c5_float_canonical :
    prettyFloatText F64.nan = ['#', 'n', 'a', 'n'] ∧
    prettyFloatText F64.inf = ['#', '+', 'i', 'n', 'f'] ∧
    prettyFloatText F64.neginf = ['#', '-', 'i', 'n', 'f'] ∧
    (∀ q : Rat, F64.ieeeEq (.finite q) ((F64.finite q).ceil) = true →
      prettyFloatText (.finite q) = f64Display (.finite q) ++ ['.', '0']) ∧
    (∀ q : Rat,
      F64.ieeeEq (.finite q) ((F64.finite q).ceil) = true ↔ q.den = 1) ∧
    lexAll (prettyFloatText F64.nan) =
      [(some (Token.Float F64.nan), ⟨0, 4⟩)] ∧
    lexAll (prettyFloatText F64.inf) =
      [(some (Token.Float F64.inf), ⟨0, 5⟩)] ∧
    lexAll (prettyFloatText F64.neginf) =
      [(some (Token.Float F64.neginf), ⟨0, 5⟩)] := by
  refine ⟨rfl, rfl, rfl, ?_, ieeeEq_ceil_iff, rfl, rfl, rfl⟩
  intro q h
  unfold prettyFloatText
  rw [h]
  rfl

/-- Witness for claim C5: the integral float 2 renders with a trailing
`.0`. -/
theorem c5_float_canonical_witness :
    prettyFloatText (.finite 2) = f64Display (.finite 2) ++ ['.', '0'] :=
  c5_float_canonical.2.2.2.1 2 (by decide)

/-! ### Round trip (claim C1)

The remaining sections assemble the round-trip proof: the pretty-printed
rendering of any well-formed `Value`, at any width, lexes back to the
value's flat token sequence, balances to the canonical skip annotations,
and reads back to the same value. -/

/-- The in-memory well-formedness that Rust's types guarantee: integer
payloads are in the `i64` range and finite float payloads are dyadic
rationals (every finite `f64` is one). -/
inductive WFValue : Value → Prop where
  | str (s : String) : WFValue (.String s)
  | sym (s : String) : WFValue (.Symbol s)
  | bool (b : Bool) : WFValue (.Bool b)
  | int (i : Int) : -(2 ^ 63) ≤ i → i ≤ 2 ^ 63 - 1 → WFValue (.Int i)
  | floatNan : WFValue (.Float .nan)
  | floatInf : WFValue (.Float .inf)
  | floatNegInf : WFValue (.Float .neginf)
  | floatFin (q : Rat) (e : Nat) : q.den = 2 ^ e →
      WFValue (.Float (.finite q))
  | list (l : List Value) : (∀ v ∈ l, WFValue v) → WFValue (.List l)

mutual

/-- The flat token sequence of a value with canonical skip annotations
(the lexer produces the same sequence with all skips 0, and
`balance_lists` rewrites them to these values). -/
def flatTokens : Value → List Token
  | .List l =>
    .OpenList ((flatTokensList l).length + 1) ::
      flatTokensList l ++ [Token.CloseList]
  | .String s => [.String s]
  | .Symbol s => [.Symbol s]
  | .Bool b => [.Bool b]
  | .Int i => [.Int i]
  | .Float f => [.Float f]

/-- Concatenated flat tokens of a sibling run. -/
def flatTokensList : List Value → List Token
  | [] => []
  | v :: vs => flatTokens v ++ flatTokensList vs

end

/-- Zero all skip annotations (the lexer's raw output form). -/
def zeroSkips : List Token → List Token :=
  List.map fun t =>
    match t with
    | Token.OpenList _ => Token.OpenList 0
    | t => t

mutual

/-- The document that `prettyValueToParens` pushes for a value. -/
def valueDoc : Value → Doc
  | .List l => listDoc (valueDocList l)
  | .String s => .text ('"' :: escape_string s.toList ++ ['"'])
  | .Symbol s => .text (escape_symbol s.toList)
  | .Bool b => .text (prettyBoolText b)
  | .Int i => .text (intToString i)
  | .Float f => .text (prettyFloatText f)

/-- The documents pushed for a sibling run. -/
def valueDocList : List Value → List Doc
  | [] => []
  | v :: vs => valueDoc v :: valueDocList vs

end

/-- The lexer with the canonical fuel. -/
def lexAllFrom (cs : List Char) (pos : Nat) : List (Option Token × Span) :=
  lexGo cs.length cs pos

theorem lexGo_nil (f pos : Nat) : lexGo f [] pos = [] := by
  cases f <;> rfl

/-- Any fuel at least the input length computes the lexer's meaning. -/
theorem lexGo_fuel : ∀ (n : Nat) (cs : List Char) (f pos : Nat),
    cs.length ≤ n → cs.length ≤ f →
    lexGo f cs pos = lexAllFrom cs pos := by
  intro n
  induction n with
  | zero =>
    intro cs f pos hn _
    have : cs = [] := List.length_eq_zero.mp (Nat.le_zero.mp hn)
    subst this
    rw [lexGo_nil, lexAllFrom, lexGo_nil]
  | succ n ih =>
    intro cs f pos hn hf
    cases cs with
    | nil => rw [lexGo_nil, lexAllFrom, lexGo_nil]
    | cons c rest =>
      cases f with
      | zero => simp at hf
      | succ f' =>
        simp only [List.length_cons] at hn hf
        show lexGo (f' + 1) (c :: rest) pos = lexGo (rest.length + 1) (c :: rest) pos
        simp only [lexGo]
        have hdlen : ∀ k, ((c :: rest).drop (k + 1)).length ≤ rest.length := by
          intro k
          simp only [List.drop_succ_cons]
          exact (List.length_drop ..).le.trans (Nat.sub_le _ _) |>.trans (le_refl _)
        have hrec : ∀ k p', lexGo f' ((c :: rest).drop (k + 1)) p' =
            lexGo rest.length ((c :: rest).drop (k + 1)) p' := by
          intro k p'
          rw [ih _ f' p' ((hdlen k).trans (by omega)) ((hdlen k).trans (by omega)),
            ih _ rest.length p' ((hdlen k).trans (by omega)) (hdlen k)]
        rw [hrec]

theorem runLen_append_of_all (p : Char → Bool) (xs ys : List Char)
    (h : ∀ c ∈ xs, p c = true) :
    runLen p (xs ++ ys) = xs.length + runLen p ys := by
  induction xs with
  | nil => simp
  | cons x xs ih =>
    have hx := h x (List.mem_cons_self _ _)
    simp only [List.cons_append, runLen, hx, if_true, List.length_cons,
      List.append_eq]
    rw [ih (fun c hc => h c (List.mem_cons_of_mem _ hc))]
    omega

theorem runLen_cons_false (p : Char → Bool) (c : Char) (rest : List Char)
    (h : p c = false) : runLen p (c :: rest) = 0 := by
  simp [runLen, h]

/-- Unfold one lexer step with canonical fuel on a nonempty input. -/
theorem lexAllFrom_cons (c : Char) (rest : List Char) (pos : Nat) :
    lexAllFrom (c :: rest) pos =
      (match (lexStep (c :: rest) pos).1 with
       | some e => e :: lexAllFrom ((c :: rest).drop ((lexStep (c :: rest) pos).2 + 1))
           (pos + ((lexStep (c :: rest) pos).2 + 1))
       | none => lexAllFrom ((c :: rest).drop ((lexStep (c :: rest) pos).2 + 1))
           (pos + ((lexStep (c :: rest) pos).2 + 1))) := by
  show lexGo (rest.length + 1) (c :: rest) pos = _
  simp only [lexGo]
  have hdlen : ((c :: rest).drop ((lexStep (c :: rest) pos).2 + 1)).length ≤
      rest.length := by
    simp only [List.drop_succ_cons]
    exact (List.length_drop ..).le.trans (Nat.sub_le _ _)
  rw [lexGo_fuel rest.length _ _ _ hdlen hdlen]

/-- Lexing skips over a leading whitespace run. -/
theorem lexAllFrom_ws (ws rest : List Char) (pos : Nat)
    (hne : ws ≠ []) (hall : ∀ c ∈ ws, isWs c = true) :
    lexAllFrom (ws ++ rest) pos = lexAllFrom rest (pos + ws.length) := by
  cases ws with
  | nil => exact absurd rfl hne
  | cons w ws' =>
    rw [List.cons_append, lexAllFrom_cons]
    have hrun : runLen isWs (w :: (ws' ++ rest)) =
        (w :: ws').length + runLen isWs rest := by
      have := runLen_append_of_all isWs (w :: ws') rest hall
      simpa using this
    set k := runLen isWs rest with hk
    have hstep : lexStep (w :: (ws' ++ rest)) pos =
        (none, (w :: ws').length + k - 1) := by
      unfold lexStep
      rw [hrun]
      simp
    rw [hstep]
    simp only
    have hlen1 : (w :: ws').length + k - 1 + 1 = (w :: ws').length + k := by
      simp only [List.length_cons]
      omega
    rw [hlen1]
    have hdrop : (w :: (ws' ++ rest)).drop ((w :: ws').length + k) =
        rest.drop k := by
      have : w :: (ws' ++ rest) = (w :: ws') ++ rest := rfl
      rw [this]
      exact @List.drop_append _ (w :: ws') rest k
    rw [hdrop]
    cases hrest : rest with
    | nil =>
      have hk0 : k = 0 := by rw [hk, hrest]; rfl
      rw [hk0]
      simp [lexAllFrom, lexGo_nil]
    | cons c r' =>
      by_cases hc : isWs c = true
      · have hkpos : k = runLen isWs (c :: r') := by rw [hk, hrest]
        rw [lexAllFrom_cons]
        have hrun2 : runLen isWs (c :: r') ≠ 0 := by
          simp only [runLen, hc, if_true]
          omega
        have hstep2 : lexStep (c :: r') (pos + (w :: ws').length) =
            (none, runLen isWs (c :: r') - 1) := by
          unfold lexStep
          simp [hrun2]
        rw [hstep2]
        simp only
        have hrpos : runLen isWs (c :: r') - 1 + 1 = runLen isWs (c :: r') := by
          have : 0 < runLen isWs (c :: r') := Nat.pos_of_ne_zero hrun2
          omega
        rw [hrpos, ← hkpos]
        have harith : pos + (w :: ws').length + k =
            pos + ((w :: ws').length + k) := by omega
        rw [harith]
      · have hk0 : k = 0 := by
          rw [hk, hrest]
          exact runLen_cons_false _ _ _ (Bool.eq_false_iff.mpr hc)
        rw [hk0]
        simp

theorem ne_of_class {p : Char → Bool} {c d : Char} (hc : p c = true)
    (hd : p d = false) : c ≠ d := by
  intro h
  subst h
  rw [hc] at hd
  cases hd

theorem alpha_not_digit (c : Char) (h : c.isAlpha = true) :
    c.isDigit = false := by
  simp only [Char.isAlpha, Char.isUpper, Char.isLower, Char.isDigit,
    Bool.or_eq_true, Bool.and_eq_true, decide_eq_true_eq, UInt32.le_def,
    BitVec.le_def] at *
  simp only [Bool.and_eq_false_iff, decide_eq_false_iff_not, not_le,
    UInt32.le_def, BitVec.le_def, BitVec.lt_def]
  simp only [show ((48 : UInt32).toBitVec).toNat = 48 from rfl,
    show ((57 : UInt32).toBitVec).toNat = 57 from rfl,
    show ((65 : UInt32).toBitVec).toNat = 65 from rfl,
    show ((90 : UInt32).toBitVec).toNat = 90 from rfl,
    show ((97 : UInt32).toBitVec).toNat = 97 from rfl,
    show ((122 : UInt32).toBitVec).toNat = 122 from rfl] at *
  omega

theorem digit_not_alpha (c : Char) (h : c.isDigit = true) :
    c.isAlpha = false := by
  cases ha : c.isAlpha with
  | false => rfl
  | true => rw [alpha_not_digit c ha] at h; cases h

theorem symInit_not_digit (c : Char) (h : symInit c = true) :
    c.isDigit = false := by
  unfold symInit at h
  simp only [Bool.or_eq_true, decide_eq_true_eq] at h
  rcases h with ((((((((((((((((h | h) | h) | h) | h) | h) | h) | h) | h) |
    h) | h) | h) | h) | h) | h) | h) | h)
  · exact alpha_not_digit c h
  all_goals (subst h; decide)

theorem isWs_false_of (c : Char) (h1 : c ≠ ' ') (h2 : c ≠ '\t')
    (h3 : c ≠ '\n') (h4 : c ≠ Char.ofNat 12) : isWs c = false := by
  simp [isWs, h1, h2, h3, h4]

theorem symInit_not_ws (c : Char) (h : symInit c = true) : isWs c = false :=
  isWs_false_of c (ne_of_class h (by decide)) (ne_of_class h (by decide))
    (ne_of_class h (by decide)) (ne_of_class h (by decide))

theorem digit_not_ws (c : Char) (h : c.isDigit = true) : isWs c = false :=
  isWs_false_of c (ne_of_class h (by decide)) (ne_of_class h (by decide))
    (ne_of_class h (by decide)) (ne_of_class h (by decide))

theorem digit_not_symInit (c : Char) (h : c.isDigit = true) :
    symInit c = false := by
  unfold symInit
  simp only [Bool.or_eq_false_iff, decide_eq_false_iff_not]
  refine ⟨⟨⟨⟨⟨⟨⟨⟨⟨⟨⟨⟨⟨⟨⟨⟨digit_not_alpha c h, ne_of_class h (by decide)⟩,
    ne_of_class h (by decide)⟩, ne_of_class h (by decide)⟩,
    ne_of_class h (by decide)⟩, ne_of_class h (by decide)⟩,
    ne_of_class h (by decide)⟩, ne_of_class h (by decide)⟩,
    ne_of_class h (by decide)⟩, ne_of_class h (by decide)⟩,
    ne_of_class h (by decide)⟩, ne_of_class h (by decide)⟩,
    ne_of_class h (by decide)⟩, ne_of_class h (by decide)⟩,
    ne_of_class h (by decide)⟩, ne_of_class h (by decide)⟩,
    ne_of_class h (by decide)⟩

/-- The characters that may legally follow a token in a rendering: the
rendering either ends, or continues with whitespace or a list
delimiter. -/
def BoundaryChar (c : Char) : Prop :=
  isWs c = true ∨ c = '(' ∨ c = ')'

/-- See `BoundaryChar`. -/
def Boundary : List Char → Prop
  | [] => True
  | c :: _ => BoundaryChar c

theorem boundary_not_digit {c : Char} (h : BoundaryChar c) :
    c.isDigit = false := by
  rcases h with h | h | h
  · cases hd : c.isDigit with
    | false => rfl
    | true => rw [digit_not_ws c hd] at h; cases h
  · subst h; decide
  · subst h; decide

theorem boundary_not_symCont {c : Char} (h : BoundaryChar c) :
    symCont c = false := by
  rcases h with h | h | h
  · unfold isWs at h
    simp only [Bool.or_eq_true, decide_eq_true_eq] at h
    rcases h with ((h | h) | h) | h <;> (subst h; decide)
  · subst h; decide
  · subst h; decide

theorem boundary_not_dot {c : Char} (h : BoundaryChar c) : c ≠ '.' := by
  rcases h with h | h | h
  · exact ne_of_class h (by decide)
  · subst h; decide
  · subst h; decide

theorem boundary_not_exp {c : Char} (h : BoundaryChar c) :
    c ≠ 'e' ∧ c ≠ 'E' := by
  rcases h with h | h | h
  · exact ⟨ne_of_class h (by decide), ne_of_class h (by decide)⟩
  · subst h; exact ⟨by decide, by decide⟩
  · subst h; exact ⟨by decide, by decide⟩

/-! Evaluation lemmas for the individual token matchers, conditioned on
the first character's class. -/

theorem kindMatch_openL_ne {c : Char} (l : List Char) (h : c ≠ '(') :
    kindMatch .openL (c :: l) = none := by
  simp [kindMatch, List.take_succ_cons, h]

theorem kindMatch_closeL_ne {c : Char} (l : List Char) (h : c ≠ ')') :
    kindMatch .closeL (c :: l) = none := by
  simp [kindMatch, List.take_succ_cons, h]

theorem kindMatch_str_ne {c : Char} (l : List Char) (h : c ≠ '"') :
    kindMatch .str (c :: l) = none := by
  simp [kindMatch, stringMatch, h]

theorem kindMatch_comment_ne {c : Char} (l : List Char) (h : c ≠ ';') :
    kindMatch .comment (c :: l) = none := by
  simp [kindMatch, commentMatch, h]

theorem kindMatch_boolean_ne {c : Char} (l : List Char) (h : c ≠ '#') :
    kindMatch .boolean (c :: l) = none := by
  simp [kindMatch, boolMatch, List.take_succ_cons, h]

theorem kindMatch_integer_ne {c : Char} (l : List Char) (h1 : c ≠ '+')
    (h2 : c ≠ '-') (h3 : c.isDigit = false) :
    kindMatch .integer (c :: l) = none := by
  simp [kindMatch, intMatch, h1, h2, runLen, h3]

theorem kindMatch_floating_ne {c : Char} (l : List Char) (h0 : c ≠ '#')
    (h1 : c ≠ '+') (h2 : c ≠ '-') (h3 : c.isDigit = false) :
    kindMatch .floating (c :: l) = none := by
  simp only [kindMatch, floatMatch, List.take_succ_cons]
  rw [if_neg (by simp [h0]), if_neg (by simp [h0]), if_neg (by simp [h0])]
  simp only [floatRegexMatch]
  rw [show (if (c = '+' || c = '-') = true then 1 else 0) = 0 by simp [h1, h2]]
  simp [runLen_cons_false _ _ _ h3]

theorem kindMatch_sym_ne {c : Char} (l : List Char) (h0 : symInit c = false)
    (h1 : c ≠ '+') (h2 : c ≠ '-') (h3 : c ≠ '|') :
    kindMatch .sym (c :: l) = none := by
  simp [kindMatch, symMatch, h0, h1, h2, h3]

theorem kindMatch_sym_init {c : Char} (l : List Char)
    (h : symInit c = true) :
    kindMatch .sym (c :: l) = some (1 + runLen symCont l) := by
  simp [kindMatch, symMatch, h]

theorem kindMatch_sym_sign_init {c d : Char} (l : List Char)
    (hc : c = '+' ∨ c = '-') (hd : symInit d = true) :
    kindMatch .sym (c :: d :: l) = some (2 + runLen symCont l) := by
  have h0 : symInit c = false := by rcases hc with rfl | rfl <;> decide
  simp [kindMatch, symMatch, h0, hd]
  rcases hc with rfl | rfl <;> simp

theorem kindMatch_sym_sign_nil {c : Char} (hc : c = '+' ∨ c = '-') :
    kindMatch .sym [c] = some 1 := by
  have h0 : symInit c = false := by rcases hc with rfl | rfl <;> decide
  simp [kindMatch, symMatch, h0]
  rcases hc with rfl | rfl <;> simp

theorem kindMatch_sym_sign_stop {c d : Char} (l : List Char)
    (hc : c = '+' ∨ c = '-') (hd : symInit d = false) :
    kindMatch .sym (c :: d :: l) = some 1 := by
  have h0 : symInit c = false := by rcases hc with rfl | rfl <;> decide
  simp [kindMatch, symMatch, h0, hd]
  rcases hc with rfl | rfl <;> simp

/-! Evaluation of the winning candidate in the scenarios that actually
occur when lexing a rendered token. -/

theorem lexBest_only_str (cs : List Char) (L : Nat)
    (h1 : kindMatch .openL cs = none) (h2 : kindMatch .closeL cs = none)
    (h3 : kindMatch .str cs = some L) (h4 : kindMatch .sym cs = none)
    (h5 : kindMatch .comment cs = none) (h6 : kindMatch .boolean cs = none)
    (h7 : kindMatch .integer cs = none) (h8 : kindMatch .floating cs = none) :
    lexBest cs = some (.str, L) := by
  simp [lexBest, lexKinds, h1, h2, h3, h4, h5, h6, h7, h8]

theorem lexBest_only_sym (cs : List Char) (L : Nat)
    (h1 : kindMatch .openL cs = none) (h2 : kindMatch .closeL cs = none)
    (h3 : kindMatch .str cs = none) (h4 : kindMatch .sym cs = some L)
    (h5 : kindMatch .comment cs = none) (h6 : kindMatch .boolean cs = none)
    (h7 : kindMatch .integer cs = none) (h8 : kindMatch .floating cs = none) :
    lexBest cs = some (.sym, L) := by
  simp [lexBest, lexKinds, h1, h2, h3, h4, h5, h6, h7, h8]

theorem lexBest_only_int (cs : List Char) (L : Nat)
    (h1 : kindMatch .openL cs = none) (h2 : kindMatch .closeL cs = none)
    (h3 : kindMatch .str cs = none) (h4 : kindMatch .sym cs = none)
    (h5 : kindMatch .comment cs = none) (h6 : kindMatch .boolean cs = none)
    (h7 : kindMatch .integer cs = some L) (h8 : kindMatch .floating cs = none) :
    lexBest cs = some (.integer, L) := by
  simp [lexBest, lexKinds, h1, h2, h3, h4, h5, h6, h7, h8]

theorem lexBest_sym_int (cs : List Char) (L : Nat)
    (h1 : kindMatch .openL cs = none) (h2 : kindMatch .closeL cs = none)
    (h3 : kindMatch .str cs = none) (h4 : kindMatch .sym cs = some 1)
    (h5 : kindMatch .comment cs = none) (h6 : kindMatch .boolean cs = none)
    (h7 : kindMatch .integer cs = some L) (h8 : kindMatch .floating cs = none)
    (hL : 1 < L) :
    lexBest cs = some (.integer, L) := by
  simp only [lexBest, lexKinds, List.filterMap_cons, h1, h2, h3, h4, h5, h6,
    h7, h8, Option.map_some', Option.map_none', List.filterMap_nil]
  simp only [List.foldl_cons, List.foldl_nil]
  simp [betterCand, kindPrio, hL]

theorem lexBest_int_float (cs : List Char) (Li Lf : Nat)
    (h1 : kindMatch .openL cs = none) (h2 : kindMatch .closeL cs = none)
    (h3 : kindMatch .str cs = none) (h4 : kindMatch .sym cs = none)
    (h5 : kindMatch .comment cs = none) (h6 : kindMatch .boolean cs = none)
    (h7 : kindMatch .integer cs = some Li) (h8 : kindMatch .floating cs = some Lf)
    (hL : Li < Lf) :
    lexBest cs = some (.floating, Lf) := by
  simp only [lexBest, lexKinds, List.filterMap_cons, h1, h2, h3, h4, h5, h6,
    h7, h8, Option.map_some', Option.map_none', List.filterMap_nil]
  simp only [List.foldl_cons, List.foldl_nil]
  simp [betterCand, kindPrio, hL]

theorem lexBest_sym_int_float (cs : List Char) (Li Lf : Nat)
    (h1 : kindMatch .openL cs = none) (h2 : kindMatch .closeL cs = none)
    (h3 : kindMatch .str cs = none) (h4 : kindMatch .sym cs = some 1)
    (h5 : kindMatch .comment cs = none) (h6 : kindMatch .boolean cs = none)
    (h7 : kindMatch .integer cs = some Li) (h8 : kindMatch .floating cs = some Lf)
    (hL : Li < Lf) (hL1 : 1 < Lf) :
    lexBest cs = some (.floating, Lf) := by
  simp only [lexBest, lexKinds, List.filterMap_cons, h1, h2, h3, h4, h5, h6,
    h7, h8, Option.map_some', Option.map_none', List.filterMap_nil]
  simp only [List.foldl_cons, List.foldl_nil]
  by_cases hi : 1 < Li
  · simp [betterCand, kindPrio, hi, hL]
  · simp [betterCand, kindPrio, hi, hL, hL1]

/-- Rendering mode of the Wadler/Lindig algorithm implemented by the
`pretty` crate: a group chosen to fit on the current line is laid out
flat, otherwise its soft lines break. -/
inductive Mode where
  | flat
  | brk
deriving DecidableEq, Repr

/-- Structural size of a document, the fuel measure of the renderer. -/
def docSize : Doc → Nat
  | .nil => 1
  | .text _ => 1
  | .line => 1
  | .cat a b => docSize a + docSize b + 1
  | .nest _ d => docSize d + 1
  | .group d => docSize d + 1

/-- Fuel measure of a renderer work list. -/
def workSize (z : List (Nat × Mode × Doc)) : Nat :=
  (z.map (fun e => docSize e.2.2)).sum

/-- Modelled from the `pretty` crate (outside the given sources): the
fitting test of the rendering algorithm — scan the work list treating
every group as flat until the current line ends, failing when the
remaining width is exhausted.  The fuel is a structural-recursion device;
`workSize z` suffices.  (The round-trip theorems hold for every outcome
of this test, so its exact behavior is never load-bearing.) -/
def fitsGo : Nat → Int → List (Nat × Mode × Doc) → Bool
  | 0, r, _ => decide (0 ≤ r)
  | fuel + 1, r, z =>
    if r < 0 then false
    else
      match z with
      | [] => true
      | (i, m, d) :: rest =>
        match d with
        | .nil => fitsGo fuel r rest
        | .text s => fitsGo fuel (r - s.length) rest
        | .line =>
          match m with
          | .flat => fitsGo fuel (r - 1) rest
          | .brk => true
        | .cat a b => fitsGo fuel r ((i, m, a) :: (i, m, b) :: rest)
        | .nest j d' => fitsGo fuel r ((i + j, m, d') :: rest)
        | .group d' => fitsGo fuel r ((i, .flat, d') :: rest)

/-- Modelled from the `pretty` crate (outside the given sources): the
best-fit renderer behind `render_fmt` — `w` is the width, `k` the current
column, and each work item carries its indentation and mode.  The fuel is
a structural-recursion device; `workSize z` suffices (`beGo_layout`). -/
def beGo : Nat → Nat → Nat → List (Nat × Mode × Doc) → List Char
  | 0, _, _, _ => []
  | fuel + 1, w, k, z =>
    match z with
    | [] => []
    | (i, m, d) :: rest =>
      match d with
      | .nil => beGo fuel w k rest
      | .text s => s ++ beGo fuel w (k + s.length) rest
      | .line =>
        match m with
        | .flat => ' ' :: beGo fuel w (k + 1) rest
        | .brk => '\n' :: (List.replicate i ' ' ++ beGo fuel w i rest)
      | .cat a b => beGo fuel w k ((i, m, a) :: (i, m, b) :: rest)
      | .nest j d' => beGo fuel w k ((i + j, m, d') :: rest)
      | .group d' =>
        if fitsGo (workSize ((i, Mode.flat, d') :: rest)) ((w : Int) - k)
            ((i, .flat, d') :: rest) then
          beGo fuel w k ((i, .flat, d') :: rest)
        else beGo fuel w k ((i, .brk, d') :: rest)

/-- `doc.render_fmt(width)`: render with the canonical fuel, starting in
break mode at indentation 0 and column 0. -/
def renderDoc (w : Nat) (d : Doc) : List Char :=
  beGo (docSize d) w 0 [(0, .brk, d)]

/-- `to_string_pretty` (pretty.rs): write the value into a fresh `Pretty`
stream, `finish` it into the document interspersing the collected buffer
with soft lines, and render at the given width. -/
def to_string_pretty (v : Value) (w : Nat) : String :=
  match prettyValueToParens v ⟨[], []⟩ with
  | .ok p => String.mk (renderDoc w (intersperseDocs p.current))
  | .error e => e.elim

/-- The layout relation: `LayOut z o` holds when `o` is a possible
rendering of the work list `z` for some resolution of the group choices.
The renderer's fitting decisions pick one member; the round-trip holds
for every member, which is why the width never matters. -/
inductive LayOut : List (Nat × Mode × Doc) → List Char → Prop where
  | done : LayOut [] []
  | nilD {i : Nat} {m : Mode} {z : List (Nat × Mode × Doc)} {o : List Char} :
      LayOut z o → LayOut ((i, m, .nil) :: z) o
  | text {i : Nat} {m : Mode} {z : List (Nat × Mode × Doc)} {o : List Char}
      (s : List Char) : LayOut z o → LayOut ((i, m, .text s) :: z) (s ++ o)
  | lineFlat {i : Nat} {z : List (Nat × Mode × Doc)} {o : List Char} :
      LayOut z o → LayOut ((i, .flat, .line) :: z) (' ' :: o)
  | lineBrk {i : Nat} {z : List (Nat × Mode × Doc)} {o : List Char} :
      LayOut z o →
      LayOut ((i, .brk, .line) :: z) ('\n' :: (List.replicate i ' ' ++ o))
  | cat {i : Nat} {m : Mode} {a b : Doc} {z : List (Nat × Mode × Doc)}
      {o : List Char} : LayOut ((i, m, a) :: (i, m, b) :: z) o →
      LayOut ((i, m, .cat a b) :: z) o
  | nest {i : Nat} {m : Mode} {j : Nat} {d : Doc}
      {z : List (Nat × Mode × Doc)} {o : List Char} :
      LayOut ((i + j, m, d) :: z) o → LayOut ((i, m, .nest j d) :: z) o
  | group {i : Nat} {m m' : Mode} {d : Doc} {z : List (Nat × Mode × Doc)}
      {o : List Char} : LayOut ((i, m', d) :: z) o →
      LayOut ((i, m, .group d) :: z) o

theorem docSize_pos (d : Doc) : 1 ≤ docSize d := by
  cases d <;> simp [docSize]

theorem workSize_cons (i : Nat) (m : Mode) (d : Doc)
    (z : List (Nat × Mode × Doc)) :
    workSize ((i, m, d) :: z) = docSize d + workSize z := by
  simp [workSize]

/-- With sufficient fuel the renderer's output is a layout of its work
list. -/
theorem beGo_layout : ∀ (fuel : Nat) (z : List (Nat × Mode × Doc))
    (w k : Nat), workSize z ≤ fuel → LayOut z (beGo fuel w k z) := by
  intro fuel
  induction fuel with
  | zero =>
    intro z w k h
    cases z with
    | nil => exact .done
    | cons e z' =>
      obtain ⟨i, m, d⟩ := e
      rw [workSize_cons] at h
      have := docSize_pos d
      omega
  | succ fuel ih =>
    intro z w k h
    cases z with
    | nil => exact .done
    | cons e rest =>
      obtain ⟨i, m, d⟩ := e
      rw [workSize_cons] at h
      cases d with
      | nil =>
        exact .nilD (ih rest w k (by simp [docSize] at h; omega))
      | text s =>
        exact .text s (ih rest w (k + s.length) (by simp [docSize] at h; omega))
      | line =>
        cases m with
        | flat => exact .lineFlat (ih rest w (k + 1) (by simp [docSize] at h; omega))
        | brk => exact .lineBrk (ih rest w i (by simp [docSize] at h; omega))
      | cat a b =>
        refine .cat (ih _ w k ?_)
        simp only [workSize_cons, docSize] at h ⊢
        omega
      | nest j d' =>
        refine .nest (ih _ w k ?_)
        simp only [workSize_cons, docSize] at h ⊢
        omega
      | group d' =>
        show LayOut _ (if _ then _ else _)
        split
        · refine .group (ih _ w k ?_)
          simp only [workSize_cons, docSize] at h ⊢
          omega
        · refine .group (ih _ w k ?_)
          simp only [workSize_cons, docSize] at h ⊢
          omega

/-- Lexing a token text whose winning match spans exactly that text emits
one token entry and continues after it. -/
theorem lexAllFrom_token (c : Char) (frag' rest : List Char) (pos : Nat)
    (kind : LexKind) (tok : Token)
    (hcw : isWs c = false)
    (hbest : lexBest ((c :: frag') ++ rest) = some (kind, (c :: frag').length))
    (hbuild : buildToken kind (c :: frag') = some tok) :
    lexAllFrom ((c :: frag') ++ rest) pos =
      (some tok, ⟨pos, pos + (c :: frag').length⟩) ::
        lexAllFrom rest (pos + (c :: frag').length) := by
  rw [List.cons_append, lexAllFrom_cons]
  have hrun : runLen isWs (c :: (frag' ++ rest)) = 0 :=
    runLen_cons_false _ _ _ hcw
  have htake : (c :: (frag' ++ rest)).take (c :: frag').length = c :: frag' := by
    have : c :: (frag' ++ rest) = (c :: frag') ++ rest := rfl
    rw [this]
    exact List.take_left _ _
  have hstep : lexStep (c :: (frag' ++ rest)) pos =
      (some (some tok, ⟨pos, pos + (c :: frag').length⟩),
        (c :: frag').length - 1) := by
    unfold lexStep
    rw [hrun]
    simp only [ne_eq, not_true_eq_false, if_false]
    have : c :: (frag' ++ rest) = (c :: frag') ++ rest := rfl
    rw [this, hbest]
    simp only
    rw [← this, htake, hbuild]
  rw [hstep]
  simp only
  have hlen : (c :: frag').length - 1 + 1 = (c :: frag').length := by
    simp only [List.length_cons]
    omega
  have hdrop : (c :: (frag' ++ rest)).drop ((c :: frag').length - 1 + 1) =
      rest := by
    rw [hlen]
    have heq : c :: (frag' ++ rest) = (c :: frag') ++ rest := rfl
    rw [heq]
    exact List.drop_left _ _
  rw [hdrop, hlen]

theorem boundary_runLen_symCont {r : List Char} (h : Boundary r) :
    runLen symCont r = 0 := by
  cases r with
  | nil => rfl
  | cons c r' => exact runLen_cons_false _ _ _ (boundary_not_symCont h)

theorem boundary_runLen_digit {r : List Char} (h : Boundary r) :
    runLen Char.isDigit r = 0 := by
  cases r with
  | nil => rfl
  | cons c r' => exact runLen_cons_false _ _ _ (boundary_not_digit h)

/-- Lexing at an opening parenthesis: one `OpenList` token, regardless of
what follows. -/
theorem lexFrag_open (rest : List Char) (pos : Nat) :
    lexAllFrom ('(' :: rest) pos =
      (some (Token.OpenList 0), ⟨pos, pos + 1⟩) :: lexAllFrom rest (pos + 1) := by
  simpa using lexAllFrom_token '(' [] rest pos .openL (.OpenList 0)
    (by decide) rfl rfl

/-- Lexing at a closing parenthesis: one `CloseList` token, regardless of
what follows. -/
theorem lexFrag_close (rest : List Char) (pos : Nat) :
    lexAllFrom (')' :: rest) pos =
      (some Token.CloseList, ⟨pos, pos + 1⟩) :: lexAllFrom rest (pos + 1) := by
  simpa using lexAllFrom_token ')' [] rest pos .closeL .CloseList
    (by decide) rfl rfl

/-- Lexing at a rendered boolean literal. -/
theorem lexFrag_bool (b : Bool) (rest : List Char) (pos : Nat) :
    lexAllFrom (prettyBoolText b ++ rest) pos =
      (some (Token.Bool b), ⟨pos, pos + (prettyBoolText b).length⟩) ::
        lexAllFrom rest (pos + (prettyBoolText b).length) := by
  cases b with
  | true =>
    simpa using lexAllFrom_token '#' ['t'] rest pos .boolean (.Bool true)
      (by decide) rfl rfl
  | false =>
    simpa using lexAllFrom_token '#' ['f'] rest pos .boolean (.Bool false)
      (by decide) rfl rfl

/-- Lexing at a rendered non-finite float literal. -/
theorem lexFrag_float_special (f : F64) (rest : List Char) (pos : Nat)
    (h : f = .nan ∨ f = .inf ∨ f = .neginf) :
    lexAllFrom (prettyFloatText f ++ rest) pos =
      (some (Token.Float f), ⟨pos, pos + (prettyFloatText f).length⟩) ::
        lexAllFrom rest (pos + (prettyFloatText f).length) := by
  rcases h with rfl | rfl | rfl
  · simpa using lexAllFrom_token '#' ['n', 'a', 'n'] rest pos .floating
      (.Float .nan) (by decide) rfl rfl
  · simpa using lexAllFrom_token '#' ['+', 'i', 'n', 'f'] rest pos .floating
      (.Float .inf) (by decide) rfl rfl
  · simpa using lexAllFrom_token '#' ['-', 'i', 'n', 'f'] rest pos .floating
      (.Float .neginf) (by decide) rfl rfl

theorem stringBody_raw (c : Char) (tail : List Char) (n : Nat)
    (h1 : ¬c = '"') (h2 : ¬c = '\\') :
    stringBody (c :: tail) n = stringBody tail (n + 1) := by
  rw [stringBody.eq_def]
  simp [h1, h2]

theorem stringBody_esc_step (c : Char) (tail : List Char) (n : Nat) :
    stringBody (escStringChar c ++ tail) n =
      stringBody tail (n + (escStringChar c).length) := by
  by_cases h1 : c = '"'
  · subst h1; simp [escStringChar, stringBody]
  · by_cases h2 : c = '\\'
    · subst h2; simp [escStringChar, stringBody]
    · by_cases h3 : c = '\t'
      · subst h3; simp [escStringChar, stringBody]
      · by_cases h4 : c = '\n'
        · subst h4; simp [escStringChar, stringBody]
        · by_cases h5 : c = '\r'
          · subst h5; simp [escStringChar, stringBody]
          · have he : escStringChar c = [c] := by
              simp [escStringChar, h1, h2, h3, h4, h5]
            rw [he]
            simpa using stringBody_raw c tail n h1 h2

/-- The string pattern consumes an escaped body up to the closing
quote. -/
theorem stringBody_escape (s : List Char) : ∀ (n : Nat) (r : List Char),
    stringBody (escape_string s ++ '"' :: r) n =
      some (n + (escape_string s).length + 2) := by
  induction s with
  | nil =>
    intro n r
    rw [show escape_string [] = [] from rfl, List.nil_append,
      stringBody.eq_def]
    simp
  | cons c s ih =>
    intro n r
    have hesc : escape_string (c :: s) = escStringChar c ++ escape_string s := by
      simp [escape_string]
    rw [hesc, List.append_assoc, stringBody_esc_step, ih]
    simp [List.length_append]
    omega

theorem unescapeGo_nil (fuel : Nat) : unescapeGo fuel [] = some [] := by
  cases fuel <;> rfl

theorem unescapeGo_raw (fuel : Nat) (c : Char) (tail : List Char)
    (h : ¬c = '\\') :
    unescapeGo (fuel + 1) (c :: tail) = (unescapeGo fuel tail).map (c :: ·) := by
  simp [unescapeGo, h]

/-- Unescaping inverts the string escape. -/
theorem unescapeGo_escape_string (s : List Char) : ∀ (fuel : Nat),
    (escape_string s).length ≤ fuel →
    unescapeGo fuel (escape_string s) = some s := by
  induction s with
  | nil => intro fuel _; simpa [escape_string] using unescapeGo_nil fuel
  | cons c s ih =>
    intro fuel hf
    have hesc : escape_string (c :: s) = escStringChar c ++ escape_string s := by
      simp [escape_string]
    rw [hesc] at hf ⊢
    by_cases h1 : c = '"'
    · subst h1
      rw [show escStringChar '"' = ['\\', '"'] from rfl] at hf ⊢
      simp only [List.length_append, List.length_cons, List.length_nil] at hf
      cases fuel with
      | zero => omega
      | succ fuel' =>
        rw [show (['\\', '"'] : List Char) ++ escape_string s =
          '\\' :: '"' :: escape_string s from rfl,
          show unescapeGo (fuel' + 1) ('\\' :: '"' :: escape_string s) =
            (unescapeGo fuel' (escape_string s)).map ('"' :: ·) from rfl,
          ih fuel' (by omega)]
        rfl
    · by_cases h2 : c = '\\'
      · subst h2
        rw [show escStringChar '\\' = ['\\', '\\'] from rfl] at hf ⊢
        simp only [List.length_append, List.length_cons, List.length_nil] at hf
        cases fuel with
        | zero => omega
        | succ fuel' =>
          rw [show (['\\', '\\'] : List Char) ++ escape_string s =
            '\\' :: '\\' :: escape_string s from rfl,
            show unescapeGo (fuel' + 1) ('\\' :: '\\' :: escape_string s) =
              (unescapeGo fuel' (escape_string s)).map ('\\' :: ·) from rfl,
            ih fuel' (by omega)]
          rfl
      · by_cases h3 : c = '\t'
        · subst h3
          rw [show escStringChar '\t' = ['\\', 't'] from rfl] at hf ⊢
          simp only [List.length_append, List.length_cons, List.length_nil] at hf
          cases fuel with
          | zero => omega
          | succ fuel' =>
            rw [show (['\\', 't'] : List Char) ++ escape_string s =
              '\\' :: 't' :: escape_string s from rfl,
              show unescapeGo (fuel' + 1) ('\\' :: 't' :: escape_string s) =
                (unescapeGo fuel' (escape_string s)).map ('\t' :: ·) from rfl,
              ih fuel' (by omega)]
            rfl
        · by_cases h4 : c = '\n'
          · subst h4
            rw [show escStringChar '\n' = ['\\', 'n'] from rfl] at hf ⊢
            simp only [List.length_append, List.length_cons,
              List.length_nil] at hf
            cases fuel with
            | zero => omega
            | succ fuel' =>
              rw [show (['\\', 'n'] : List Char) ++ escape_string s =
                '\\' :: 'n' :: escape_string s from rfl,
                show unescapeGo (fuel' + 1) ('\\' :: 'n' :: escape_string s) =
                  (unescapeGo fuel' (escape_string s)).map ('\n' :: ·) from rfl,
                ih fuel' (by omega)]
              rfl
          · by_cases h5 : c = '\r'
            · subst h5
              rw [show escStringChar '\r' = ['\\', 'r'] from rfl] at hf ⊢
              simp only [List.length_append, List.length_cons,
                List.length_nil] at hf
              cases fuel with
              | zero => omega
              | succ fuel' =>
                rw [show (['\\', 'r'] : List Char) ++ escape_string s =
                  '\\' :: 'r' :: escape_string s from rfl,
                  show unescapeGo (fuel' + 1) ('\\' :: 'r' :: escape_string s) =
                    (unescapeGo fuel' (escape_string s)).map ('\r' :: ·) from rfl,
                  ih fuel' (by omega)]
                rfl
            · have hesc1 : escStringChar c = [c] := by
                simp [escStringChar, h1, h2, h3, h4, h5]
              rw [hesc1] at hf ⊢
              simp only [List.length_append, List.length_cons,
                List.length_nil] at hf
              cases fuel with
              | zero => omega
              | succ fuel' =>
                rw [List.singleton_append, unescapeGo_raw fuel' c _ h2,
                  ih fuel' (by omega)]
                rfl

/-- Lexing at a rendered string literal: one `String` token carrying the
original text, regardless of what follows. -/
theorem lexFrag_string (s : String) (rest : List Char) (pos : Nat) :
    lexAllFrom (('"' :: escape_string s.toList ++ ['"']) ++ rest) pos =
      (some (Token.String s),
        ⟨pos, pos + ('"' :: escape_string s.toList ++ ['"']).length⟩) ::
        lexAllFrom rest (pos + ('"' :: escape_string s.toList ++ ['"']).length) := by
  set body := escape_string s.toList with hbody
  have hmatch : kindMatch .str (('"' :: body ++ ['"']) ++ rest) =
      some (body.length + 2) := by
    show stringMatch ('"' :: (body ++ ['"'] ++ rest)) = _
    simp only [stringMatch, if_pos rfl]
    have : body ++ ['"'] ++ rest = body ++ '"' :: rest := by simp
    rw [this, stringBody_escape]
    simp [hbody, String.toList, Nat.add_comm]
  have hbest : lexBest (('"' :: body ++ ['"']) ++ rest) =
      some (.str, ('"' :: body ++ ['"']).length) := by
    have hcons : ('"' :: body ++ ['"']) ++ rest =
        '"' :: (body ++ ['"'] ++ rest) := by simp
    rw [hcons] at hmatch ⊢
    have hlen : ('"' :: body ++ ['"']).length = body.length + 2 := by
      simp
    rw [hlen]
    exact lexBest_only_str _ _ rfl rfl hmatch rfl rfl rfl rfl rfl
  have hbuild : buildToken .str ('"' :: body ++ ['"']) =
      some (.String s) := by
    show (unescape (('"' :: body ++ ['"']).drop 1).dropLast).map _ = _
    have hdrop : ('"' :: body ++ ['"']).drop 1 = body ++ ['"'] := by
      simp
    rw [hdrop, List.dropLast_concat]
    rw [show unescape body = unescapeGo body.length body from rfl]
    rw [hbody, unescapeGo_escape_string s.toList _ (le_refl _)]
    cases s
    rfl
  have := lexAllFrom_token '"' (body ++ ['"']) rest pos .str (.String s)
    (by decide) (by simpa using hbest) (by simpa using hbuild)
  simpa using this

theorem boundary_not_symInit {c : Char} (h : BoundaryChar c) :
    symInit c = false := by
  rcases h with h | h | h
  · unfold isWs at h
    simp only [Bool.or_eq_true, decide_eq_true_eq] at h
    rcases h with ((h | h) | h) | h <;> (subst h; decide)
  · subst h; decide
  · subst h; decide

theorem pipeBodyGo_raw (fuel : Nat) (c : Char) (tail : List Char) (n : Nat)
    (h1 : ¬c = '|') (h2 : ¬c = '\\') :
    pipeBodyGo (fuel + 1) (c :: tail) n = pipeBodyGo fuel tail (n + 1) := by
  simp [pipeBodyGo, h1, h2]

/-- The piped-symbol pattern consumes an escaped body up to the closing
pipe. -/
theorem pipeBodyGo_escape (s : List Char) : ∀ (fuel n : Nat) (r : List Char),
    (s.flatMap escPipeChar).length + 1 ≤ fuel →
    pipeBodyGo fuel (s.flatMap escPipeChar ++ '|' :: r) n =
      some (n + (s.flatMap escPipeChar).length + 2) := by
  induction s with
  | nil =>
    intro fuel n r hf
    cases fuel with
    | zero => omega
    | succ fuel' =>
      rw [show ([] : List Char).flatMap escPipeChar = [] from rfl,
        List.nil_append]
      rfl
  | cons c s ih =>
    intro fuel n r hf
    have hesc : (c :: s).flatMap escPipeChar =
        escPipeChar c ++ s.flatMap escPipeChar := by
      simp [List.flatMap_cons]
    rw [hesc] at hf ⊢
    by_cases h1 : c = '|'
    · subst h1
      rw [show escPipeChar '|' = ['\\', '|'] from rfl] at hf ⊢
      simp only [List.length_append, List.length_cons, List.length_nil] at hf
      cases fuel with
      | zero => omega
      | succ fuel' =>
        rw [show (['\\', '|'] : List Char) ++ s.flatMap escPipeChar ++ '|' :: r =
          '\\' :: '|' :: (s.flatMap escPipeChar ++ '|' :: r) by simp,
          show ∀ t, pipeBodyGo (fuel' + 1) ('\\' :: '|' :: t) n =
            pipeBodyGo fuel' t (n + 2) from fun t => rfl,
          ih fuel' (n + 2) r (by omega)]
        congr 1
        simp
        omega
    · by_cases h2 : c = '\\'
      · subst h2
        rw [show escPipeChar '\\' = ['\\', '\\'] from rfl] at hf ⊢
        simp only [List.length_append, List.length_cons, List.length_nil] at hf
        cases fuel with
        | zero => omega
        | succ fuel' =>
          rw [show (['\\', '\\'] : List Char) ++ s.flatMap escPipeChar ++ '|' :: r =
            '\\' :: '\\' :: (s.flatMap escPipeChar ++ '|' :: r) by simp,
            show ∀ t, pipeBodyGo (fuel' + 1) ('\\' :: '\\' :: t) n =
              pipeBodyGo fuel' t (n + 2) from fun t => rfl,
            ih fuel' (n + 2) r (by omega)]
          congr 1
          simp
          omega
      · have hesc1 : escPipeChar c = [c] := by
          simp [escPipeChar, h1, h2]
        rw [hesc1] at hf ⊢
        simp only [List.length_append, List.length_cons, List.length_nil] at hf
        cases fuel with
        | zero => omega
        | succ fuel' =>
          rw [List.singleton_append, List.cons_append,
            pipeBodyGo_raw fuel' c _ n h1 h2,
            ih fuel' (n + 1) r (by omega)]
          congr 1
          simp
          omega

/-- Unescaping inverts the pipe escape. -/
theorem unescapeGo_escape_pipe (s : List Char) : ∀ (fuel : Nat),
    (s.flatMap escPipeChar).length ≤ fuel →
    unescapeGo fuel (s.flatMap escPipeChar) = some s := by
  induction s with
  | nil => intro fuel _; simpa using unescapeGo_nil fuel
  | cons c s ih =>
    intro fuel hf
    have hesc : (c :: s).flatMap escPipeChar =
        escPipeChar c ++ s.flatMap escPipeChar := by
      simp [List.flatMap_cons]
    rw [hesc] at hf ⊢
    by_cases h1 : c = '|'
    · subst h1
      rw [show escPipeChar '|' = ['\\', '|'] from rfl] at hf ⊢
      simp only [List.length_append, List.length_cons, List.length_nil] at hf
      cases fuel with
      | zero => omega
      | succ fuel' =>
        rw [show (['\\', '|'] : List Char) ++ s.flatMap escPipeChar =
          '\\' :: '|' :: s.flatMap escPipeChar from rfl,
          show ∀ t, unescapeGo (fuel' + 1) ('\\' :: '|' :: t) =
            (unescapeGo fuel' t).map ('|' :: ·) from fun t => rfl,
          ih fuel' (by omega)]
        rfl
    · by_cases h2 : c = '\\'
      · subst h2
        rw [show escPipeChar '\\' = ['\\', '\\'] from rfl] at hf ⊢
        simp only [List.length_append, List.length_cons, List.length_nil] at hf
        cases fuel with
        | zero => omega
        | succ fuel' =>
          rw [show (['\\', '\\'] : List Char) ++ s.flatMap escPipeChar =
            '\\' :: '\\' :: s.flatMap escPipeChar from rfl,
            show ∀ t, unescapeGo (fuel' + 1) ('\\' :: '\\' :: t) =
              (unescapeGo fuel' t).map ('\\' :: ·) from fun t => rfl,
            ih fuel' (by omega)]
          rfl
      · have hesc1 : escPipeChar c = [c] := by
          simp [escPipeChar, h1, h2]
        rw [hesc1] at hf ⊢
        simp only [List.length_append, List.length_cons, List.length_nil] at hf
        cases fuel with
        | zero => omega
        | succ fuel' =>
          rw [List.singleton_append, unescapeGo_raw fuel' c _ h2,
            ih fuel' (by omega)]
          rfl

/-- Lexing at a pipe-quoted symbol: one `Symbol` token carrying the
original text, regardless of what follows. -/
theorem lexFrag_symbol_piped (s : String) (rest : List Char) (pos : Nat) :
    lexAllFrom (('|' :: s.toList.flatMap escPipeChar ++ ['|']) ++ rest) pos =
      (some (Token.Symbol s),
        ⟨pos, pos + ('|' :: s.toList.flatMap escPipeChar ++ ['|']).length⟩) ::
        lexAllFrom rest
          (pos + ('|' :: s.toList.flatMap escPipeChar ++ ['|']).length) := by
  set body := s.toList.flatMap escPipeChar with hbody
  have hmatch : kindMatch .sym (('|' :: body ++ ['|']) ++ rest) =
      some (body.length + 2) := by
    show symMatch ('|' :: (body ++ ['|'] ++ rest)) = _
    rw [show symMatch ('|' :: (body ++ ['|'] ++ rest)) =
      pipeBody (body ++ ['|'] ++ rest) 0 from rfl]
    unfold pipeBody
    rw [show body ++ ['|'] ++ rest = body ++ '|' :: rest by simp]
    rw [hbody, pipeBodyGo_escape s.toList _ 0 rest
      (by rw [← hbody]; simp)]
    simp [hbody]
  have hbest : lexBest (('|' :: body ++ ['|']) ++ rest) =
      some (.sym, ('|' :: body ++ ['|']).length) := by
    have hlen : ('|' :: body ++ ['|']).length = body.length + 2 := by simp
    rw [hlen]
    exact lexBest_only_sym _ _ rfl rfl rfl hmatch rfl rfl rfl rfl
  have hbuild : buildToken .sym ('|' :: body ++ ['|']) =
      some (.Symbol s) := by
    show (unescape ((('|' :: body ++ ['|']).drop 1).dropLast)).map
        (fun l => Token.Symbol (String.mk l)) = _
    have hdrop : ('|' :: body ++ ['|']).drop 1 = body ++ ['|'] := by simp
    rw [hdrop, List.dropLast_concat]
    rw [show unescape body = unescapeGo body.length body from rfl]
    rw [hbody, unescapeGo_escape_pipe s.toList _ (le_refl _)]
    cases s
    rfl
  have := lexAllFrom_token '|' (body ++ ['|']) rest pos .sym (.Symbol s)
    (by decide) (by simpa using hbest) (by simpa using hbuild)
  simpa using this

theorem kindMatch_integer_sign_ne {c : Char} (l : List Char)
    (hc : c = '+' ∨ c = '-') (hl : runLen Char.isDigit l = 0) :
    kindMatch .integer (c :: l) = none := by
  rcases hc with rfl | rfl <;> simp [kindMatch, intMatch, hl]

theorem kindMatch_floating_sign_ne {c : Char} (l : List Char)
    (hc : c = '+' ∨ c = '-') (hl : runLen Char.isDigit l = 0) :
    kindMatch .floating (c :: l) = none := by
  rcases hc with rfl | rfl <;>
    simp [kindMatch, floatMatch, floatRegexMatch, List.take_succ_cons, hl]

theorem runLen_all_append {p : Char → Bool} {xs : List Char}
    (hx : xs.all p = true) {ys : List Char} (hy : runLen p ys = 0) :
    runLen p (xs ++ ys) = xs.length + 0 := by
  rw [runLen_append_of_all p xs ys (fun c hc => by
    exact List.all_eq_true.mp hx c hc), hy]

theorem isBareSymbol_elim {ss : List Char} (h : isBareSymbol ss = true) :
    (∃ c tail, ss = c :: tail ∧ symInit c = true ∧ tail.all symCont = true) ∨
    (∃ c, ss = [c] ∧ (c = '+' ∨ c = '-')) ∨
    (∃ c d t', ss = c :: d :: t' ∧ (c = '+' ∨ c = '-') ∧ symInit d = true ∧
      t'.all symCont = true) := by
  cases ss with
  | nil => cases h
  | cons c tail =>
    by_cases hc : symInit c = true
    · refine Or.inl ⟨c, tail, rfl, hc, ?_⟩
      rw [isBareSymbol.eq_def] at h
      simpa [hc] using h
    · have hc' : symInit c = false := by
        cases hcv : symInit c with
        | false => rfl
        | true => exact absurd hcv hc
      by_cases hpm : (c = '+' || c = '-') = true
      · cases tail with
        | nil => exact Or.inr (Or.inl ⟨c, rfl, by simpa using hpm⟩)
        | cons d t' =>
          rw [isBareSymbol.eq_def] at h
          simp only [hc', Bool.false_eq_true, if_false, hpm, if_true,
            Bool.and_eq_true] at h
          exact Or.inr (Or.inr ⟨c, d, t', rfl, by simpa using hpm, h.1, h.2⟩)
      · rw [isBareSymbol.eq_def] at h
        simp [hc', hpm] at h

/-- Lexing at a symbol text accepted verbatim by the bare-symbol
grammar: one `Symbol` token carrying that text. -/
theorem lexFrag_symbol_bare (ss rest : List Char) (pos : Nat)
    (h : isBareSymbol ss = true) (hB : Boundary rest) :
    lexAllFrom (ss ++ rest) pos =
      (some (Token.Symbol (String.mk ss)), ⟨pos, pos + ss.length⟩) ::
        lexAllFrom rest (pos + ss.length) := by
  have hbrun : runLen symCont rest = 0 := boundary_runLen_symCont hB
  have hbdig : runLen Char.isDigit rest = 0 := boundary_runLen_digit hB
  rcases isBareSymbol_elim h with ⟨c, tail, rfl, hc, hall⟩ |
    ⟨c, rfl, hsgn'⟩ | ⟨c, d, t', rfl, hsgn', hd, ht⟩
  · have hsym : kindMatch .sym ((c :: tail) ++ rest) =
        some (1 + (tail.length + 0)) := by
      rw [List.cons_append, kindMatch_sym_init _ hc,
        runLen_all_append hall hbrun]
    have hcw : isWs c = false := symInit_not_ws c hc
    have hdg : c.isDigit = false := symInit_not_digit c hc
    have hbest : lexBest ((c :: tail) ++ rest) =
        some (.sym, (c :: tail).length) := by
      rw [List.cons_append]
      rw [List.cons_append] at hsym
      have := lexBest_only_sym (c :: (tail ++ rest)) (1 + (tail.length + 0))
        (kindMatch_openL_ne _ (ne_of_class hc (by decide)))
        (kindMatch_closeL_ne _ (ne_of_class hc (by decide)))
        (kindMatch_str_ne _ (ne_of_class hc (by decide)))
        hsym
        (kindMatch_comment_ne _ (ne_of_class hc (by decide)))
        (kindMatch_boolean_ne _ (ne_of_class hc (by decide)))
        (kindMatch_integer_ne _ (ne_of_class hc (by decide))
          (ne_of_class hc (by decide)) hdg)
        (kindMatch_floating_ne _ (ne_of_class hc (by decide))
          (ne_of_class hc (by decide)) (ne_of_class hc (by decide)) hdg)
      rw [this]
      simp [Nat.add_comm]
    have hbuild : buildToken .sym (c :: tail) =
        some (.Symbol (String.mk (c :: tail))) := by
      have hne : ¬c = '|' := ne_of_class hc (by decide)
      simp [buildToken, List.take_succ_cons, hne]
    have := lexAllFrom_token c tail rest pos .sym
      (.Symbol (String.mk (c :: tail))) hcw hbest hbuild
    simpa using this
  · have hcw : isWs c = false := by
      rcases hsgn' with rfl | rfl <;> decide
    have hsym : kindMatch .sym ([c] ++ rest) = some 1 := by
      cases rest with
      | nil => exact kindMatch_sym_sign_nil hsgn'
      | cons r0 r' =>
        exact kindMatch_sym_sign_stop r' hsgn' (boundary_not_symInit hB)
    have hbest : lexBest ([c] ++ rest) = some (.sym, [c].length) := by
      rw [show ([c] : List Char).length = 1 from rfl]
      rw [show [c] ++ rest = c :: rest from rfl] at hsym ⊢
      refine lexBest_only_sym (c :: rest) 1 ?_ ?_ ?_ hsym ?_ ?_ ?_ ?_
      · exact kindMatch_openL_ne _ (by rcases hsgn' with rfl | rfl <;> decide)
      · exact kindMatch_closeL_ne _ (by rcases hsgn' with rfl | rfl <;> decide)
      · exact kindMatch_str_ne _ (by rcases hsgn' with rfl | rfl <;> decide)
      · exact kindMatch_comment_ne _ (by rcases hsgn' with rfl | rfl <;> decide)
      · exact kindMatch_boolean_ne _ (by rcases hsgn' with rfl | rfl <;> decide)
      · exact kindMatch_integer_sign_ne _ hsgn' hbdig
      · exact kindMatch_floating_sign_ne _ hsgn' hbdig
    have hbuild : buildToken .sym [c] = some (.Symbol (String.mk [c])) := by
      have hne : ¬c = '|' := by rcases hsgn' with rfl | rfl <;> decide
      simp [buildToken, List.take_succ_cons, hne]
    have := lexAllFrom_token c [] rest pos .sym
      (.Symbol (String.mk [c])) hcw hbest hbuild
    simpa using this
  · have hcw : isWs c = false := by
      rcases hsgn' with rfl | rfl <;> decide
    have hdig0 : runLen Char.isDigit (d :: (t' ++ rest)) = 0 :=
      runLen_cons_false _ _ _ (symInit_not_digit d hd)
    have hsym : kindMatch .sym ((c :: d :: t') ++ rest) =
        some (2 + (t'.length + 0)) := by
      rw [show (c :: d :: t') ++ rest = c :: d :: (t' ++ rest) from rfl,
        kindMatch_sym_sign_init _ hsgn' hd, runLen_all_append ht hbrun]
    have hbest : lexBest ((c :: d :: t') ++ rest) =
        some (.sym, (c :: d :: t').length) := by
      rw [show (c :: d :: t') ++ rest = c :: (d :: (t' ++ rest)) by simp]
      rw [show (c :: d :: t') ++ rest = c :: (d :: (t' ++ rest)) by simp]
        at hsym
      have := lexBest_only_sym (c :: (d :: (t' ++ rest)))
        (2 + (t'.length + 0))
        (kindMatch_openL_ne _ (by rcases hsgn' with rfl | rfl <;> decide))
        (kindMatch_closeL_ne _ (by rcases hsgn' with rfl | rfl <;> decide))
        (kindMatch_str_ne _ (by rcases hsgn' with rfl | rfl <;> decide))
        hsym
        (kindMatch_comment_ne _ (by rcases hsgn' with rfl | rfl <;> decide))
        (kindMatch_boolean_ne _ (by rcases hsgn' with rfl | rfl <;> decide))
        (kindMatch_integer_sign_ne _ hsgn' hdig0)
        (kindMatch_floating_sign_ne _ hsgn' hdig0)
      rw [this]
      simp
      omega
    have hbuild : buildToken .sym (c :: d :: t') =
        some (.Symbol (String.mk (c :: d :: t'))) := by
      have hne : ¬c = '|' := by rcases hsgn' with rfl | rfl <;> decide
      simp [buildToken, List.take_succ_cons, hne]
    have := lexAllFrom_token c (d :: t') rest pos .sym
      (.Symbol (String.mk (c :: d :: t'))) hcw hbest hbuild
    simpa using this

/-- Little-endian value of a digit list (the order produced by
`natDigitsRev`). -/
def valRev : List Nat → Nat
  | [] => 0
  | d :: ds => d + 10 * valRev ds

theorem natDigitsRev_val : ∀ (fuel n : Nat), n ≤ fuel →
    valRev (natDigitsRev fuel n) = n := by
  intro fuel
  induction fuel with
  | zero =>
    intro n h
    have : n = 0 := Nat.le_zero.mp h
    subst this
    rfl
  | succ f ih =>
    intro n h
    rw [natDigitsRev]
    by_cases h0 : n = 0
    · subst h0; rfl
    · rw [if_neg h0]
      have hdiv : n / 10 < n := Nat.div_lt_self (Nat.pos_of_ne_zero h0)
        (by norm_num)
      rw [valRev, ih (n / 10) (by omega)]
      omega

theorem natDigitsRev_lt : ∀ (fuel n d : Nat), d ∈ natDigitsRev fuel n →
    d < 10 := by
  intro fuel
  induction fuel with
  | zero => intro n d h; cases h
  | succ f ih =>
    intro n d h
    rw [natDigitsRev] at h
    by_cases h0 : n = 0
    · rw [if_pos h0] at h; cases h
    · rw [if_neg h0] at h
      rcases List.mem_cons.mp h with rfl | h'
      · exact Nat.mod_lt _ (by norm_num)
      · exact ih _ _ h'

theorem digit_char_facts (d : Nat) (h : d < 10) :
    (Char.ofNat (48 + d)).isDigit = true ∧ (Char.ofNat (48 + d)).toNat = 48 + d := by
  interval_cases d <;> exact ⟨by decide, by decide⟩

theorem digitsVal_append_digit (l : List Char) (c : Char) :
    digitsVal (l ++ [c]) = 10 * digitsVal l + (c.toNat - 48) := by
  unfold digitsVal
  rw [List.foldl_append]
  rfl

theorem digitsVal_rev_map (ds : List Nat) (h : ∀ d ∈ ds, d < 10) :
    digitsVal ((ds.map (fun d => Char.ofNat (48 + d))).reverse) = valRev ds := by
  induction ds with
  | nil => rfl
  | cons d ds ih =>
    simp only [List.map_cons, List.reverse_cons]
    rw [digitsVal_append_digit,
      ih (fun e he => h e (List.mem_cons_of_mem _ he)),
      (digit_char_facts d (h d (List.mem_cons_self _ _))).2]
    rw [valRev]
    omega

theorem digitsVal_natToString (n : Nat) : digitsVal (natToString n) = n := by
  unfold natToString
  by_cases h0 : n = 0
  · subst h0; rfl
  · rw [if_neg h0, digitsVal_rev_map _ (fun d hd => natDigitsRev_lt n n d hd),
      natDigitsRev_val n n (le_refl _)]

theorem natToString_all_digit (n : Nat) :
    ∀ c ∈ natToString n, c.isDigit = true := by
  unfold natToString
  by_cases h0 : n = 0
  · subst h0; intro c hc; simp at hc; subst hc; decide
  · rw [if_neg h0]
    intro c hc
    rw [List.mem_reverse] at hc
    obtain ⟨d, hd, rfl⟩ := List.mem_map.mp hc
    exact (digit_char_facts d (natDigitsRev_lt n n d hd)).1

theorem natToString_ne_nil (n : Nat) : natToString n ≠ [] := by
  unfold natToString
  by_cases h0 : n = 0
  · subst h0; simp
  · rw [if_neg h0]
    obtain ⟨m, rfl⟩ := Nat.exists_eq_succ_of_ne_zero h0
    rw [natDigitsRev, if_neg h0]
    simp

theorem kindMatch_integer_digits (ds r : List Char) (hne : ds ≠ [])
    (hall : ∀ c ∈ ds, c.isDigit = true) (hr : runLen Char.isDigit r = 0) :
    kindMatch .integer (ds ++ r) = some ds.length := by
  cases ds with
  | nil => exact absurd rfl hne
  | cons c t =>
    have hc : c.isDigit = true := hall c (List.mem_cons_self _ _)
    have hrun : runLen Char.isDigit ((c :: t) ++ r) = (c :: t).length + 0 :=
      runLen_all_append (List.all_eq_true.mpr hall) hr
    rw [List.cons_append] at hrun ⊢
    simp only [kindMatch, intMatch]
    rw [if_neg (by simp [ne_of_class hc (show Char.isDigit '+' = false by decide),
      ne_of_class hc (show Char.isDigit '-' = false by decide)])]
    rw [hrun]
    simp

theorem kindMatch_integer_sign_digits (c : Char) (ds r : List Char)
    (hc : c = '+' ∨ c = '-') (hne : ds ≠ [])
    (hall : ∀ e ∈ ds, e.isDigit = true) (hr : runLen Char.isDigit r = 0) :
    kindMatch .integer (c :: (ds ++ r)) = some (1 + ds.length) := by
  have hrun : runLen Char.isDigit (ds ++ r) = ds.length + 0 :=
    runLen_all_append (List.all_eq_true.mpr hall) hr
  have hlen : ds.length ≠ 0 := by
    cases ds with
    | nil => exact absurd rfl hne
    | cons a b => simp
  rcases hc with rfl | rfl <;>
    (simp only [kindMatch, intMatch]
     rw [if_pos (by simp), hrun]
     simp [hlen])

/-- The float regex requires a decimal point right after the integer
digits; a boundary there (or end of input) rejects the whole pattern. -/
theorem floatRegexMatch_digits_boundary (ds r : List Char) (hne : ds ≠ [])
    (hall : ∀ c ∈ ds, c.isDigit = true) (hB : Boundary r)
    (hsign : ∀ c t, ds = c :: t → (if (c = '+' || c = '-') = true
      then 1 else 0) = 0) :
    floatRegexMatch (ds ++ r) = none := by
  cases ds with
  | nil => exact absurd rfl hne
  | cons c t =>
    have hrun : runLen Char.isDigit ((c :: t) ++ r) = (c :: t).length + 0 :=
      runLen_all_append (List.all_eq_true.mpr hall) (boundary_runLen_digit hB)
    simp only [floatRegexMatch, List.cons_append]
    rw [hsign c t rfl]
    rw [List.drop_zero]
    rw [List.cons_append] at hrun
    rw [hrun]
    rw [if_neg (by simp)]
    have hdrop : (c :: (t ++ r)).drop ((c :: t).length + 0) = r := by
      rw [Nat.add_zero, ← List.cons_append]
      exact List.drop_left _ _
    rw [hdrop]
    cases r with
    | nil => rfl
    | cons r0 r' =>
      have hdot := boundary_not_dot hB
      simp [hdot]

theorem kindMatch_floating_digits_ne (ds r : List Char) (hne : ds ≠ [])
    (hall : ∀ c ∈ ds, c.isDigit = true) (hB : Boundary r) :
    kindMatch .floating (ds ++ r) = none := by
  cases ds with
  | nil => exact absurd rfl hne
  | cons c t =>
    have hc : c.isDigit = true := hall c (List.mem_cons_self _ _)
    have hhash : c ≠ '#' := ne_of_class hc (by decide)
    rw [show (c :: t) ++ r = c :: (t ++ r) from rfl]
    simp only [kindMatch, floatMatch, List.take_succ_cons]
    rw [if_neg (by simp [hhash]), if_neg (by simp [hhash]),
      if_neg (by simp [hhash])]
    rw [show c :: (t ++ r) = (c :: t) ++ r from rfl]
    refine floatRegexMatch_digits_boundary (c :: t) r hne hall hB ?_
    intro e t' he
    have he' : e = c := by
      rw [List.cons.injEq] at he
      exact he.1.symm
    subst he'
    simp [ne_of_class hc (show Char.isDigit '+' = false by decide),
      ne_of_class hc (show Char.isDigit '-' = false by decide)]

theorem floatRegexMatch_sign (c : Char) (ds r : List Char)
    (hc : c = '+' ∨ c = '-') (hne : ds ≠ [])
    (hall : ∀ e ∈ ds, e.isDigit = true) (hB : Boundary r) :
    floatRegexMatch (c :: (ds ++ r)) = none := by
  have hrun : runLen Char.isDigit (ds ++ r) = ds.length + 0 :=
    runLen_all_append (List.all_eq_true.mpr hall) (boundary_runLen_digit hB)
  have hlen0 : ¬(ds.length + 0 = 0) := by
    cases ds with
    | nil => exact absurd rfl hne
    | cons a b => simp
  have hdrop : (ds ++ r).drop (ds.length + 0) = r := by
    rw [Nat.add_zero]
    exact List.drop_left _ _
  cases r with
  | nil =>
    rw [List.append_nil] at hrun hdrop
    rcases hc with rfl | rfl <;> simp [floatRegexMatch, hrun, hlen0, hdrop]
  | cons r0 r' =>
    have hdot := boundary_not_dot hB
    rcases hc with rfl | rfl <;>
      simp [floatRegexMatch, hrun, hlen0, hdrop, hdot]

theorem kindMatch_floating_sign_digits_ne (c : Char) (ds r : List Char)
    (hc : c = '+' ∨ c = '-') (hne : ds ≠ [])
    (hall : ∀ e ∈ ds, e.isDigit = true) (hB : Boundary r) :
    kindMatch .floating (c :: (ds ++ r)) = none := by
  have hhash : c ≠ '#' := by rcases hc with rfl | rfl <;> decide
  simp only [kindMatch, floatMatch, List.take_succ_cons]
  rw [if_neg (by simp [hhash]), if_neg (by simp [hhash]),
    if_neg (by simp [hhash])]
  exact floatRegexMatch_sign c ds r hc hne hall hB

theorem parseI64_nosign (c : Char) (t : List Char) (h1 : ¬c = '+')
    (h2 : ¬c = '-') :
    parseI64 (c :: t) =
      if -(2 ^ 63) ≤ (digitsVal (c :: t) : Int) ∧
          (digitsVal (c :: t) : Int) ≤ 2 ^ 63 - 1
        then some ((digitsVal (c :: t) : Nat) : Int) else none := by
  simp [parseI64, h1, h2]

theorem parseI64_negsign (t : List Char) :
    parseI64 ('-' :: t) =
      if -(2 ^ 63) ≤ -((digitsVal t : Nat) : Int) ∧
          -((digitsVal t : Nat) : Int) ≤ 2 ^ 63 - 1
        then some (-((digitsVal t : Nat) : Int)) else none := by
  simp [parseI64]

/-- `str::parse::<i64>` undoes the decimal rendering within range. -/
theorem parseI64_intToString (i : Int) (hlo : -(2 ^ 63) ≤ i)
    (hhi : i ≤ 2 ^ 63 - 1) : parseI64 (intToString i) = some i := by
  by_cases hneg : i < 0
  · have habs : (i.natAbs : Int) = -i :=
      Int.ofNat_natAbs_of_nonpos (le_of_lt hneg)
    rw [show intToString i = '-' :: natToString i.natAbs by
      simp [intToString, hneg]]
    rw [parseI64_negsign, digitsVal_natToString, habs, neg_neg,
      if_pos ⟨hlo, hhi⟩]
  · push_neg at hneg
    have habs : (i.natAbs : Int) = i := Int.natAbs_of_nonneg hneg
    rw [show intToString i = natToString i.natAbs by
      simp [intToString, not_lt.mpr hneg]]
    cases hns : natToString i.natAbs with
    | nil => exact absurd hns (natToString_ne_nil _)
    | cons c t =>
      have hc : c.isDigit = true := by
        refine natToString_all_digit i.natAbs c ?_
        rw [hns]
        exact List.mem_cons_self _ _
      have hdv : digitsVal (c :: t) = i.natAbs := by
        rw [← hns, digitsVal_natToString]
      rw [parseI64_nosign c t
        (ne_of_class hc (show Char.isDigit '+' = false by decide))
        (ne_of_class hc (show Char.isDigit '-' = false by decide)),
        hdv, habs, if_pos ⟨hlo, hhi⟩]

/-- Lexing at a rendered integer literal: one `Int` token carrying the
original value. -/
theorem lexFrag_int (i : Int) (rest : List Char) (pos : Nat)
    (hB : Boundary rest) (hlo : -(2 ^ 63) ≤ i) (hhi : i ≤ 2 ^ 63 - 1) :
    lexAllFrom (intToString i ++ rest) pos =
      (some (Token.Int i), ⟨pos, pos + (intToString i).length⟩) ::
        lexAllFrom rest (pos + (intToString i).length) := by
  have hbdig : runLen Char.isDigit rest = 0 := boundary_runLen_digit hB
  have hbuild : buildToken .integer (intToString i) = some (.Int i) := by
    show (parseI64 (intToString i)).map Token.Int = _
    rw [parseI64_intToString i hlo hhi]
    rfl
  by_cases hneg : i < 0
  · have hrepr : intToString i = '-' :: natToString i.natAbs := by
      simp [intToString, hneg]
    obtain ⟨c, t, hns⟩ : ∃ c t, natToString i.natAbs = c :: t := by
      cases hns : natToString i.natAbs with
      | nil => exact absurd hns (natToString_ne_nil _)
      | cons c t => exact ⟨c, t, rfl⟩
    have hdig : ∀ e ∈ natToString i.natAbs, e.isDigit = true :=
      natToString_all_digit _
    have hc : c.isDigit = true := by
      refine hdig c ?_
      rw [hns]
      exact List.mem_cons_self _ _
    have hsym : kindMatch .sym ((intToString i) ++ rest) = some 1 := by
      rw [hrepr, hns, List.cons_append, List.cons_append]
      exact kindMatch_sym_sign_stop _ (Or.inr rfl) (digit_not_symInit c hc)
    have hint : kindMatch .integer ((intToString i) ++ rest) =
        some (1 + (natToString i.natAbs).length) := by
      rw [hrepr, List.cons_append]
      exact kindMatch_integer_sign_digits '-' _ rest (Or.inr rfl)
        (natToString_ne_nil _) hdig hbdig
    have hflo : kindMatch .floating ((intToString i) ++ rest) = none := by
      rw [hrepr, List.cons_append]
      exact kindMatch_floating_sign_digits_ne '-' _ rest (Or.inr rfl)
        (natToString_ne_nil _) hdig hB
    have hbest : lexBest ((intToString i) ++ rest) =
        some (.integer, (intToString i).length) := by
      have hlen : (intToString i).length = 1 + (natToString i.natAbs).length := by
        rw [hrepr]
        simp [Nat.add_comm]
      rw [hlen]
      rw [show (intToString i) ++ rest = '-' :: (natToString i.natAbs ++ rest) by
        rw [hrepr, List.cons_append]] at hsym hint hflo ⊢
      refine lexBest_sym_int _ _ ?_ ?_ ?_ hsym ?_ ?_ hint hflo ?_
      · exact kindMatch_openL_ne _ (by decide)
      · exact kindMatch_closeL_ne _ (by decide)
      · exact kindMatch_str_ne _ (by decide)
      · exact kindMatch_comment_ne _ (by decide)
      · exact kindMatch_boolean_ne _ (by decide)
      · have := natToString_ne_nil i.natAbs
        cases hq : natToString i.natAbs with
        | nil => exact absurd hq this
        | cons a b =>
          simp only [List.length_cons]
          omega
    obtain ⟨c0, t0, hct⟩ : ∃ c0 t0, intToString i = c0 :: t0 := by
      rw [hrepr]
      exact ⟨_, _, rfl⟩
    have hcw : isWs c0 = false := by
      rw [hrepr] at hct
      rw [show c0 = '-' by
        rw [List.cons.injEq] at hct
        exact hct.1.symm]
      decide
    rw [hct] at hbest hbuild ⊢
    have := lexAllFrom_token c0 t0 rest pos .integer (.Int i) hcw hbest hbuild
    simpa using this
  · push_neg at hneg
    have hrepr : intToString i = natToString i.natAbs := by
      simp [intToString, not_lt.mpr hneg]
    obtain ⟨c, t, hns⟩ : ∃ c t, natToString i.natAbs = c :: t := by
      cases hns : natToString i.natAbs with
      | nil => exact absurd hns (natToString_ne_nil _)
      | cons c t => exact ⟨c, t, rfl⟩
    have hdig : ∀ e ∈ natToString i.natAbs, e.isDigit = true :=
      natToString_all_digit _
    have hc : c.isDigit = true := by
      refine hdig c ?_
      rw [hns]
      exact List.mem_cons_self _ _
    have hint : kindMatch .integer ((intToString i) ++ rest) =
        some (intToString i).length := by
      rw [hrepr]
      exact kindMatch_integer_digits _ rest (natToString_ne_nil _) hdig hbdig
    have hflo : kindMatch .floating ((intToString i) ++ rest) = none := by
      rw [hrepr]
      exact kindMatch_floating_digits_ne _ rest (natToString_ne_nil _) hdig hB
    have hbest : lexBest ((intToString i) ++ rest) =
        some (.integer, (intToString i).length) := by
      rw [show (intToString i) ++ rest = c :: (t ++ rest) by
        rw [hrepr, hns, List.cons_append]] at hint hflo ⊢
      refine lexBest_only_int _ _ ?_ ?_ ?_ ?_ ?_ ?_ hint hflo
      · exact kindMatch_openL_ne _ (ne_of_class hc (by decide))
      · exact kindMatch_closeL_ne _ (ne_of_class hc (by decide))
      · exact kindMatch_str_ne _ (ne_of_class hc (by decide))
      · exact kindMatch_sym_ne _ (digit_not_symInit c hc)
          (ne_of_class hc (by decide)) (ne_of_class hc (by decide))
          (ne_of_class hc (by decide))
      · exact kindMatch_comment_ne _ (ne_of_class hc (by decide))
      · exact kindMatch_boolean_ne _ (ne_of_class hc (by decide))
    have hcw : isWs c = false := digit_not_ws c hc
    rw [hrepr, hns] at hbest hbuild ⊢
    have := lexAllFrom_token c t rest pos .integer (.Int i) hcw hbest hbuild
    simpa using this

theorem findExpGo_ge : ∀ (fuel d k : Nat), k ≤ findExpGo fuel d k := by
  intro fuel
  induction fuel with
  | zero => intro d k; exact le_refl _
  | succ f ih =>
    intro d k
    rw [findExpGo]
    by_cases h : 10 ^ k % d = 0
    · rw [if_pos h]
    · rw [if_neg h]
      exact (Nat.le_succ k).trans (ih d (k + 1))

theorem findExpGo_spec : ∀ (fuel d k : Nat),
    (∃ j, k ≤ j ∧ j ≤ k + fuel ∧ 10 ^ j % d = 0) →
    10 ^ (findExpGo fuel d k) % d = 0 := by
  intro fuel
  induction fuel with
  | zero =>
    intro d k ⟨j, h1, h2, h3⟩
    have : j = k := by omega
    subst this
    exact h3
  | succ f ih =>
    intro d k ⟨j, h1, h2, h3⟩
    rw [findExpGo]
    by_cases h : 10 ^ k % d = 0
    · rw [if_pos h]; exact h
    · rw [if_neg h]
      refine ih d (k + 1) ⟨j, ?_, by omega, h3⟩
      rcases Nat.eq_or_lt_of_le h1 with rfl | hlt
      · exact absurd h3 h
      · exact hlt

/-- For a dyadic denominator the exponent search succeeds. -/
theorem findExp_dyadic (e : Nat) : 10 ^ (findExp (2 ^ e)) % (2 ^ e) = 0 := by
  refine findExpGo_spec (2 ^ e) (2 ^ e) 0 ⟨e, Nat.zero_le _, ?_, ?_⟩
  · simpa using (Nat.lt_two_pow e).le
  · rw [show (10 : Nat) ^ e = 2 ^ e * 5 ^ e by rw [← Nat.mul_pow]]
    exact Nat.mul_mod_right _ _

theorem findExp_pos_of_den (d : Nat) (hd : 2 ≤ d) : 1 ≤ findExp d := by
  unfold findExp
  obtain ⟨f, rfl⟩ : ∃ f, d = f + 1 := ⟨d - 1, by omega⟩
  have hne : ¬(10 ^ 0 % (f + 1) = 0) := by
    rw [pow_zero, Nat.mod_eq_of_lt (by omega)]
    omega
  rw [findExpGo, if_neg hne]
  exact findExpGo_ge f (f + 1) 1

theorem natDigitsRev_length : ∀ (fuel x k : Nat), x < 10 ^ k →
    (natDigitsRev fuel x).length ≤ k := by
  intro fuel
  induction fuel with
  | zero => intro x k _; simp [natDigitsRev]
  | succ f ih =>
    intro x k hx
    rw [natDigitsRev]
    by_cases h0 : x = 0
    · rw [if_pos h0]; simp
    · rw [if_neg h0]
      cases k with
      | zero =>
        simp only [pow_zero] at hx
        omega
      | succ k' =>
        have hdiv : x / 10 < 10 ^ k' := by
          rw [Nat.div_lt_iff_lt_mul (by norm_num)]
          calc x < 10 ^ (k' + 1) := hx
          _ = 10 ^ k' * 10 := by ring
        simpa using Nat.succ_le_succ (ih (x / 10) k' hdiv)

theorem natToString_length_le (x k : Nat) (hx : x < 10 ^ k) (hk : 1 ≤ k) :
    (natToString x).length ≤ k := by
  unfold natToString
  by_cases h0 : x = 0
  · rw [if_pos h0]; simpa using hk
  · rw [if_neg h0]
    simpa using natDigitsRev_length x x k hx

theorem padDigits_length (k fp : Nat) (h : (natToString fp).length ≤ k) :
    (padDigits k fp).length = k := by
  unfold padDigits
  simp only [List.length_append, List.length_replicate]
  omega

theorem padDigits_all_digit (k fp : Nat) :
    ∀ c ∈ padDigits k fp, c.isDigit = true := by
  intro c hc
  unfold padDigits at hc
  rcases List.mem_append.mp hc with h | h
  · rw [List.eq_of_mem_replicate h]
    decide
  · exact natToString_all_digit fp c h

theorem digitsVal_replicate_zero (j : Nat) (l : List Char) :
    digitsVal (List.replicate j '0' ++ l) = digitsVal l := by
  have hz : ∀ (jj : Nat),
      (List.replicate jj '0').foldl
        (fun acc c => 10 * acc + (c.toNat - '0'.toNat)) 0 = 0 := by
    intro jj
    induction jj with
    | zero => rfl
    | succ j' ih => simpa [List.replicate_succ, List.foldl_cons] using ih
  unfold digitsVal
  rw [List.foldl_append, hz]

theorem digitsVal_padDigits (k fp : Nat) :
    digitsVal (padDigits k fp) = fp := by
  unfold padDigits
  rw [digitsVal_replicate_zero, digitsVal_natToString]

theorem rat_decomp (m k : Nat) :
    ((m / 10 ^ k : Nat) : Rat) + ((m % 10 ^ k : Nat) : Rat) / (10 : Rat) ^ k =
      (m : Rat) / (10 : Rat) ^ k := by
  have h10 : ((10 : Rat)) ^ k ≠ 0 := pow_ne_zero _ (by norm_num)
  have key : (m / 10 ^ k) * 10 ^ k + m % 10 ^ k = m := by
    rw [Nat.mul_comm]
    exact Nat.div_add_mod m (10 ^ k)
  rw [add_div' _ _ _ h10]
  congr 1
  rw [show ((10 : Rat)) ^ k = ((10 ^ k : Nat) : Rat) by push_cast; ring]
  exact_mod_cast key

theorem rat_val (n d m k : Nat) (hd : 0 < d) (hmd : m * d = n * 10 ^ k) :
    (m : Rat) / (10 : Rat) ^ k = (n : Rat) / (d : Rat) := by
  have h10 : ((10 : Rat)) ^ k ≠ 0 := pow_ne_zero _ (by norm_num)
  have hd' : (d : Rat) ≠ 0 := by positivity
  rw [div_eq_div_iff h10 hd']
  rw [show ((10 : Rat)) ^ k = ((10 ^ k : Nat) : Rat) by push_cast; ring]
  exact_mod_cast hmd

theorem floatRegexMatch_decimal_nosign (c : Char) (ipt fp r : List Char)
    (hc : c.isDigit = true) (hipd : ∀ x ∈ c :: ipt, x.isDigit = true)
    (hfpd : ∀ x ∈ fp, x.isDigit = true) (hB : Boundary r) :
    floatRegexMatch (c :: (ipt ++ '.' :: (fp ++ r))) =
      some (0 + ((c :: ipt).length + 0) + 1 + (fp.length + 0)) := by
  have hr1 : runLen Char.isDigit (c :: (ipt ++ '.' :: (fp ++ r))) =
      (c :: ipt).length + 0 := by
    rw [← List.cons_append]
    exact runLen_all_append (List.all_eq_true.mpr hipd)
      (runLen_cons_false _ _ _ (by decide))
  have hlen0 : ¬((c :: ipt).length + 0 = 0) := by simp
  have hdrop1 : (c :: (ipt ++ '.' :: (fp ++ r))).drop ((c :: ipt).length + 0) =
      '.' :: (fp ++ r) := by
    rw [Nat.add_zero, ← List.cons_append]
    exact List.drop_left _ _
  have hr2 : runLen Char.isDigit (fp ++ r) = fp.length + 0 :=
    runLen_all_append (List.all_eq_true.mpr hfpd) (boundary_runLen_digit hB)
  have hdrop2 : (fp ++ r).drop (fp.length + 0) = r := by
    rw [Nat.add_zero]
    exact List.drop_left _ _
  have hplus : ¬(c = '+') := ne_of_class hc (by decide)
  have hminus : ¬(c = '-') := ne_of_class hc (by decide)
  cases r with
  | nil =>
    rw [List.append_nil] at hr1 hdrop1 hr2 hdrop2 ⊢
    simp [floatRegexMatch, hr1, hlen0, hdrop1, hr2, hdrop2, hplus, hminus]
  | cons r0 r' =>
    have hexp := boundary_not_exp hB
    simp [floatRegexMatch, hr1, hlen0, hdrop1, hr2, hdrop2, hplus, hminus,
      hexp.1, hexp.2]

theorem floatRegexMatch_decimal_sign (ip fp r : List Char)
    (hip : ip ≠ []) (hipd : ∀ x ∈ ip, x.isDigit = true)
    (hfpd : ∀ x ∈ fp, x.isDigit = true) (hB : Boundary r) :
    floatRegexMatch ('-' :: (ip ++ '.' :: (fp ++ r))) =
      some (1 + (ip.length + 0) + 1 + (fp.length + 0)) := by
  have hr1 : runLen Char.isDigit (ip ++ '.' :: (fp ++ r)) =
      ip.length + 0 :=
    runLen_all_append (List.all_eq_true.mpr hipd)
      (runLen_cons_false _ _ _ (by decide))
  have hlen0 : ¬(ip.length + 0 = 0) := by
    cases ip with
    | nil => exact absurd rfl hip
    | cons a b => simp
  have hdrop1 : (ip ++ '.' :: (fp ++ r)).drop (ip.length + 0) =
      '.' :: (fp ++ r) := by
    rw [Nat.add_zero]
    exact List.drop_left _ _
  have hr2 : runLen Char.isDigit (fp ++ r) = fp.length + 0 :=
    runLen_all_append (List.all_eq_true.mpr hfpd) (boundary_runLen_digit hB)
  have hdrop2 : (fp ++ r).drop (fp.length + 0) = r := by
    rw [Nat.add_zero]
    exact List.drop_left _ _
  cases r with
  | nil =>
    rw [List.append_nil] at hr1 hdrop1 hr2 hdrop2 ⊢
    simp [floatRegexMatch, hr1, hlen0, hdrop1, hr2, hdrop2, hip]
  | cons r0 r' =>
    have hexp := boundary_not_exp hB
    simp [floatRegexMatch, hr1, hlen0, hdrop1, hr2, hdrop2,
      hexp.1, hexp.2, hip]

theorem parseFloat_decimal_nosign (c : Char) (ipt fp : List Char)
    (hc : c.isDigit = true) (hipd : ∀ x ∈ c :: ipt, x.isDigit = true)
    (hfpd : ∀ x ∈ fp, x.isDigit = true) :
    parseFloat (c :: (ipt ++ '.' :: fp)) =
      .finite ((digitsVal (c :: ipt) : Rat) +
        (digitsVal fp : Rat) / (10 : Rat) ^ fp.length) := by
  have hplus : ¬(c = '+') := ne_of_class hc (by decide)
  have hminus : ¬(c = '-') := ne_of_class hc (by decide)
  have hr1 : runLen Char.isDigit (c :: (ipt ++ '.' :: fp)) =
      (c :: ipt).length + 0 := by
    rw [← List.cons_append]
    exact runLen_all_append (List.all_eq_true.mpr hipd)
      (runLen_cons_false _ _ _ (by decide))
  have htake1 : (c :: (ipt ++ '.' :: fp)).take ((c :: ipt).length + 0) =
      c :: ipt := by
    rw [Nat.add_zero, ← List.cons_append]
    exact List.take_left _ _
  have hdrop1 : (c :: (ipt ++ '.' :: fp)).drop ((c :: ipt).length + 0) =
      '.' :: fp := by
    rw [Nat.add_zero, ← List.cons_append]
    exact List.drop_left _ _
  have hr2 : runLen Char.isDigit fp = fp.length + 0 := by
    have := @runLen_all_append Char.isDigit fp
      (List.all_eq_true.mpr hfpd) [] rfl
    simpa using this
  have htake2 : fp.take (fp.length + 0) = fp := by
    rw [Nat.add_zero]
    exact List.take_length ..
  have hdrop2 : fp.drop (fp.length + 0) = [] := by
    rw [Nat.add_zero]
    simp
  simp [parseFloat, hplus, hminus, hr1, htake1, hdrop1, hr2, htake2, hdrop2]

theorem parseFloat_decimal_sign (ip fp : List Char)
    (hipd : ∀ x ∈ ip, x.isDigit = true)
    (hfpd : ∀ x ∈ fp, x.isDigit = true) :
    parseFloat ('-' :: (ip ++ '.' :: fp)) =
      .finite (-((digitsVal ip : Rat) +
        (digitsVal fp : Rat) / (10 : Rat) ^ fp.length)) := by
  have hr1 : runLen Char.isDigit (ip ++ '.' :: fp) = ip.length + 0 :=
    runLen_all_append (List.all_eq_true.mpr hipd)
      (runLen_cons_false _ _ _ (by decide))
  have htake1 : (ip ++ '.' :: fp).take (ip.length + 0) = ip := by
    rw [Nat.add_zero]
    exact List.take_left _ _
  have hdrop1 : (ip ++ '.' :: fp).drop (ip.length + 0) = '.' :: fp := by
    rw [Nat.add_zero]
    exact List.drop_left _ _
  have hr2 : runLen Char.isDigit fp = fp.length + 0 := by
    have := @runLen_all_append Char.isDigit fp
      (List.all_eq_true.mpr hfpd) [] rfl
    simpa using this
  have htake2 : fp.take (fp.length + 0) = fp := by
    rw [Nat.add_zero]
    exact List.take_length ..
  have hdrop2 : fp.drop (fp.length + 0) = [] := by
    rw [Nat.add_zero]
    simp
  simp [parseFloat, hr1, htake1, hdrop1, hr2, htake2, hdrop2]

/-- Lexing at an unsigned rendered decimal float literal. -/
theorem lexFrag_decimal_nosign (ip fp rest : List Char) (pos : Nat)
    (hip : ip ≠ []) ( _hfp : fp ≠ [])
    (hipd : ∀ x ∈ ip, x.isDigit = true) (hfpd : ∀ x ∈ fp, x.isDigit = true)
    (hB : Boundary rest) :
    lexAllFrom ((ip ++ '.' :: fp) ++ rest) pos =
      (some (Token.Float (.finite ((digitsVal ip : Rat) +
          (digitsVal fp : Rat) / (10 : Rat) ^ fp.length))),
        ⟨pos, pos + (ip ++ '.' :: fp).length⟩) ::
      lexAllFrom rest (pos + (ip ++ '.' :: fp).length) := by
  obtain ⟨c, ipt, rfl⟩ : ∃ c ipt, ip = c :: ipt := by
    cases ip with
    | nil => exact absurd rfl hip
    | cons c ipt => exact ⟨c, ipt, rfl⟩
  have hc : c.isDigit = true := hipd c (List.mem_cons_self _ _)
  have hhash : ¬(c = '#') := ne_of_class hc (by decide)
  have hint : kindMatch .integer (c :: (ipt ++ '.' :: (fp ++ rest))) =
      some (c :: ipt).length := by
    have := kindMatch_integer_digits (c :: ipt) ('.' :: (fp ++ rest))
      (by simp) hipd (runLen_cons_false _ _ _ (by decide))
    simpa using this
  have hflo : kindMatch .floating (c :: (ipt ++ '.' :: (fp ++ rest))) =
      some (0 + ((c :: ipt).length + 0) + 1 + (fp.length + 0)) := by
    simp only [kindMatch, floatMatch, List.take_succ_cons]
    rw [if_neg (by simp [hhash]), if_neg (by simp [hhash]),
      if_neg (by simp [hhash])]
    exact floatRegexMatch_decimal_nosign c ipt fp rest hc hipd hfpd hB
  have hlenL : 0 + ((c :: ipt).length + 0) + 1 + (fp.length + 0) =
      (c :: (ipt ++ '.' :: fp)).length := by
    simp
    omega
  have hbest : lexBest ((c :: (ipt ++ '.' :: fp)) ++ rest) =
      some (.floating, (c :: (ipt ++ '.' :: fp)).length) := by
    rw [show (c :: (ipt ++ '.' :: fp)) ++ rest =
      c :: (ipt ++ '.' :: (fp ++ rest)) by simp]
    rw [← hlenL]
    refine lexBest_int_float _ _ _ ?_ ?_ ?_ ?_ ?_ ?_ hint hflo ?_
    · exact kindMatch_openL_ne _ (ne_of_class hc (by decide))
    · exact kindMatch_closeL_ne _ (ne_of_class hc (by decide))
    · exact kindMatch_str_ne _ (ne_of_class hc (by decide))
    · exact kindMatch_sym_ne _ (digit_not_symInit c hc)
        (ne_of_class hc (by decide)) (ne_of_class hc (by decide))
        (ne_of_class hc (by decide))
    · exact kindMatch_comment_ne _ (ne_of_class hc (by decide))
    · exact kindMatch_boolean_ne _ hhash
    · simp only [List.length_cons]
      omega
  have hbuild : buildToken .floating (c :: (ipt ++ '.' :: fp)) =
      some (.Float (.finite ((digitsVal (c :: ipt) : Rat) +
        (digitsVal fp : Rat) / (10 : Rat) ^ fp.length))) := by
    simp only [buildToken, List.take_succ_cons]
    rw [if_neg (by simp [hhash]), if_neg (by simp [hhash]),
      if_neg (by simp [hhash])]
    rw [parseFloat_decimal_nosign c ipt fp hc hipd hfpd]
  have := lexAllFrom_token c (ipt ++ '.' :: fp) rest pos .floating
    (.Float (.finite ((digitsVal (c :: ipt) : Rat) +
      (digitsVal fp : Rat) / (10 : Rat) ^ fp.length)))
    (digit_not_ws c hc) hbest hbuild
  simpa using this

/-- Lexing at a negative rendered decimal float literal. -/
theorem lexFrag_decimal_sign (ip fp rest : List Char) (pos : Nat)
    (hip : ip ≠ []) ( _hfp : fp ≠ [])
    (hipd : ∀ x ∈ ip, x.isDigit = true) (hfpd : ∀ x ∈ fp, x.isDigit = true)
    (hB : Boundary rest) :
    lexAllFrom (('-' :: (ip ++ '.' :: fp)) ++ rest) pos =
      (some (Token.Float (.finite (-((digitsVal ip : Rat) +
          (digitsVal fp : Rat) / (10 : Rat) ^ fp.length)))),
        ⟨pos, pos + ('-' :: (ip ++ '.' :: fp)).length⟩) ::
      lexAllFrom rest (pos + ('-' :: (ip ++ '.' :: fp)).length) := by
  obtain ⟨ic, ipt, rfl⟩ : ∃ ic ipt, ip = ic :: ipt := by
    cases ip with
    | nil => exact absurd rfl hip
    | cons ic ipt => exact ⟨ic, ipt, rfl⟩
  have hic : ic.isDigit = true := hipd ic (List.mem_cons_self _ _)
  have hsym : kindMatch .sym ('-' :: ((ic :: ipt) ++ '.' :: (fp ++ rest))) =
      some 1 := by
    rw [show (ic :: ipt) ++ '.' :: (fp ++ rest) =
      ic :: (ipt ++ '.' :: (fp ++ rest)) from rfl]
    exact kindMatch_sym_sign_stop _ (Or.inr rfl) (digit_not_symInit ic hic)
  have hint : kindMatch .integer ('-' :: ((ic :: ipt) ++ '.' :: (fp ++ rest))) =
      some (1 + (ic :: ipt).length) :=
    kindMatch_integer_sign_digits '-' _ ('.' :: (fp ++ rest)) (Or.inr rfl)
      (by simp) hipd (runLen_cons_false _ _ _ (by decide))
  have hflo : kindMatch .floating ('-' :: ((ic :: ipt) ++ '.' :: (fp ++ rest))) =
      some (1 + ((ic :: ipt).length + 0) + 1 + (fp.length + 0)) := by
    simp only [kindMatch, floatMatch, List.take_succ_cons]
    rw [if_neg (by simp), if_neg (by simp), if_neg (by simp)]
    exact floatRegexMatch_decimal_sign (ic :: ipt) fp rest (by simp)
      hipd hfpd hB
  have hlenL : 1 + ((ic :: ipt).length + 0) + 1 + (fp.length + 0) =
      ('-' :: ((ic :: ipt) ++ '.' :: fp)).length := by
    simp
    omega
  have hbest : lexBest (('-' :: ((ic :: ipt) ++ '.' :: fp)) ++ rest) =
      some (.floating, ('-' :: ((ic :: ipt) ++ '.' :: fp)).length) := by
    rw [show ('-' :: ((ic :: ipt) ++ '.' :: fp)) ++ rest =
      '-' :: ((ic :: ipt) ++ '.' :: (fp ++ rest)) by simp]
    rw [← hlenL]
    refine lexBest_sym_int_float _ _ _ ?_ ?_ ?_ hsym ?_ ?_ hint hflo ?_ ?_
    · exact kindMatch_openL_ne _ (by decide)
    · exact kindMatch_closeL_ne _ (by decide)
    · exact kindMatch_str_ne _ (by decide)
    · exact kindMatch_comment_ne _ (by decide)
    · exact kindMatch_boolean_ne _ (by decide)
    · simp only [List.length_cons]
      omega
    · simp only [List.length_cons]
      omega
  have hbuild : buildToken .floating ('-' :: ((ic :: ipt) ++ '.' :: fp)) =
      some (.Float (.finite (-((digitsVal (ic :: ipt) : Rat) +
        (digitsVal fp : Rat) / (10 : Rat) ^ fp.length)))) := by
    simp only [buildToken, List.take_succ_cons]
    rw [if_neg (by simp), if_neg (by simp), if_neg (by simp)]
    rw [parseFloat_decimal_sign (ic :: ipt) fp hipd hfpd]
  have := lexAllFrom_token '-' ((ic :: ipt) ++ '.' :: fp) rest pos .floating
    (.Float (.finite (-((digitsVal (ic :: ipt) : Rat) +
      (digitsVal fp : Rat) / (10 : Rat) ^ fp.length))))
    (by decide) hbest hbuild
  simpa using this

theorem rat_signed_abs (q : Rat) :
    (if q < 0 then -((q.num.natAbs : Rat) / (q.den : Rat))
      else ((q.num.natAbs : Rat) / (q.den : Rat))) = q := by
  have habs : ((q.num.natAbs : Nat) : Rat) = ((|q.num| : Int) : Rat) :=
    Int.cast_natAbs
  by_cases hq : q < 0
  · rw [if_pos hq]
    have hnum : q.num < 0 := Rat.num_neg.mpr hq
    rw [habs, abs_of_neg hnum, Int.cast_neg, neg_div, neg_neg,
      Rat.num_div_den]
  · rw [if_neg hq]
    push_neg at hq
    have hnum : 0 ≤ q.num := Rat.num_nonneg.mpr hq
    rw [habs, abs_of_nonneg hnum, Rat.num_div_den]

theorem f64Display_int (q : Rat) (hone : q.den = 1) :
    f64Display (.finite q) =
      (if q < 0 then ['-'] else []) ++ natToString q.num.natAbs := by
  simp only [f64Display]
  rw [hone, show findExp 1 = 0 from rfl]
  simp

theorem f64Display_frac (q : Rat) (hone : q.den ≠ 1) :
    f64Display (.finite q) =
      (if q < 0 then ['-'] else []) ++
        natToString (q.num.natAbs * 10 ^ findExp q.den / q.den / 10 ^ findExp q.den) ++
        '.' :: padDigits (findExp q.den)
          (q.num.natAbs * 10 ^ findExp q.den / q.den % 10 ^ findExp q.den) := by
  have h2 : 2 ≤ q.den := by
    have := Rat.den_pos q
    omega
  have hk : ¬(findExp q.den = 0) := by
    have := findExp_pos_of_den q.den h2
    omega
  simp only [f64Display]
  rw [if_neg hk]

theorem prettyFloatText_finite (q : Rat) :
    prettyFloatText (.finite q) =
      if F64.ieeeEq (.finite q) ((F64.finite q).ceil) then
        f64Display (.finite q) ++ ['.', '0']
      else f64Display (.finite q) := by
  simp [prettyFloatText, F64.isNan,
    show F64.ieeeEq (.finite q) F64.inf = false from rfl,
    show F64.ieeeEq (.finite q) F64.neginf = false from rfl]

/-- Lexing at a rendered finite float literal recovers exactly the
original (dyadic) rational payload. -/
theorem lexFrag_float_finite (q : Rat) (e : Nat) (hden : q.den = 2 ^ e)
    (rest : List Char) (pos : Nat) (hB : Boundary rest) :
    lexAllFrom (prettyFloatText (.finite q) ++ rest) pos =
      (some (Token.Float (.finite q)),
        ⟨pos, pos + (prettyFloatText (.finite q)).length⟩) ::
      lexAllFrom rest (pos + (prettyFloatText (.finite q)).length) := by
  by_cases hone : q.den = 1
  · have hceil : F64.ieeeEq (.finite q) ((F64.finite q).ceil) = true :=
      (ieeeEq_ceil_iff q).mpr hone
    have hpf : prettyFloatText (.finite q) =
        ((if q < 0 then ['-'] else []) ++ natToString q.num.natAbs) ++
          '.' :: ['0'] := by
      rw [prettyFloatText_finite, if_pos hceil, f64Display_int q hone]
    rw [hpf]
    by_cases hq : q < 0
    · rw [if_pos hq]
      have hval : -((digitsVal (natToString q.num.natAbs) : Rat) +
          (digitsVal ['0'] : Rat) / (10 : Rat) ^ (['0'] : List Char).length) =
          q := by
        rw [digitsVal_natToString, show digitsVal ['0'] = 0 from rfl]
        have := rat_signed_abs q
        rw [if_pos hq, hone] at this
        simpa using this
      have hfrag := lexFrag_decimal_sign (natToString q.num.natAbs) ['0']
        rest pos (natToString_ne_nil _) (by simp)
        (natToString_all_digit _)
        (by intro x hx; simp at hx; subst hx; decide) hB
      rw [show ((['-'] ++ natToString q.num.natAbs) ++ '.' :: ['0']) =
        '-' :: (natToString q.num.natAbs ++ '.' :: ['0']) by simp]
      rw [hfrag, hval]
    · rw [if_neg hq]
      have hval : ((digitsVal (natToString q.num.natAbs) : Rat) +
          (digitsVal ['0'] : Rat) / (10 : Rat) ^ (['0'] : List Char).length) =
          q := by
        rw [digitsVal_natToString, show digitsVal ['0'] = 0 from rfl]
        have := rat_signed_abs q
        rw [if_neg hq, hone] at this
        simpa using this
      have hfrag := lexFrag_decimal_nosign (natToString q.num.natAbs) ['0']
        rest pos (natToString_ne_nil _) (by simp)
        (natToString_all_digit _)
        (by intro x hx; simp at hx; subst hx; decide) hB
      rw [show (([] ++ natToString q.num.natAbs) ++ '.' :: ['0']) =
        natToString q.num.natAbs ++ '.' :: ['0'] by simp]
      rw [hfrag, hval]
  · have hceil : F64.ieeeEq (.finite q) ((F64.finite q).ceil) = false := by
      cases hc : F64.ieeeEq (.finite q) ((F64.finite q).ceil) with
      | false => rfl
      | true => exact absurd ((ieeeEq_ceil_iff q).mp hc) hone
    have h2 : 2 ≤ q.den := by
      have := Rat.den_pos q
      omega
    have hk1 : 1 ≤ findExp q.den := findExp_pos_of_den q.den h2
    have hpow : 0 < 10 ^ findExp q.den := Nat.pos_pow_of_pos _ (by norm_num)
    have hmlt : q.num.natAbs * 10 ^ findExp q.den / q.den %
        10 ^ findExp q.den < 10 ^ findExp q.den := Nat.mod_lt _ hpow
    have hlen : (natToString (q.num.natAbs * 10 ^ findExp q.den / q.den %
        10 ^ findExp q.den)).length ≤ findExp q.den :=
      natToString_length_le _ _ hmlt hk1
    have hfplen : (padDigits (findExp q.den)
        (q.num.natAbs * 10 ^ findExp q.den / q.den %
          10 ^ findExp q.den)).length = findExp q.den :=
      padDigits_length _ _ hlen
    have hfpne : padDigits (findExp q.den)
        (q.num.natAbs * 10 ^ findExp q.den / q.den %
          10 ^ findExp q.den) ≠ [] := by
      refine List.ne_nil_of_length_pos ?_
      rw [hfplen]
      omega
    have hdvd : q.den ∣ 10 ^ findExp q.den := by
      refine Nat.dvd_of_mod_eq_zero ?_
      rw [hden]
      exact findExp_dyadic e
    have hmd : (q.num.natAbs * 10 ^ findExp q.den / q.den) * q.den =
        q.num.natAbs * 10 ^ findExp q.den :=
      Nat.div_mul_cancel (Dvd.dvd.mul_left hdvd _)
    have hcore : ((digitsVal (natToString (q.num.natAbs *
          10 ^ findExp q.den / q.den / 10 ^ findExp q.den)) : Rat) +
        (digitsVal (padDigits (findExp q.den) (q.num.natAbs *
          10 ^ findExp q.den / q.den % 10 ^ findExp q.den)) : Rat) /
          (10 : Rat) ^ (padDigits (findExp q.den) (q.num.natAbs *
            10 ^ findExp q.den / q.den % 10 ^ findExp q.den)).length) =
        (q.num.natAbs : Rat) / (q.den : Rat) := by
      rw [digitsVal_natToString, digitsVal_padDigits, hfplen, rat_decomp]
      exact rat_val _ _ _ _ (Rat.den_pos q) hmd
    have hpf : prettyFloatText (.finite q) =
        (if q < 0 then ['-'] else []) ++
          (natToString (q.num.natAbs * 10 ^ findExp q.den / q.den /
            10 ^ findExp q.den) ++
          '.' :: padDigits (findExp q.den)
            (q.num.natAbs * 10 ^ findExp q.den / q.den %
              10 ^ findExp q.den)) := by
      rw [prettyFloatText_finite, if_neg (by rw [hceil]; simp),
        f64Display_frac q hone]
      simp
    rw [hpf]
    by_cases hq : q < 0
    · rw [if_pos hq]
      have hval : -((digitsVal (natToString (q.num.natAbs *
            10 ^ findExp q.den / q.den / 10 ^ findExp q.den)) : Rat) +
          (digitsVal (padDigits (findExp q.den) (q.num.natAbs *
            10 ^ findExp q.den / q.den % 10 ^ findExp q.den)) : Rat) /
            (10 : Rat) ^ (padDigits (findExp q.den) (q.num.natAbs *
              10 ^ findExp q.den / q.den % 10 ^ findExp q.den)).length) =
          q := by
        rw [hcore]
        have := rat_signed_abs q
        rw [if_pos hq] at this
        exact this
      have hfrag := lexFrag_decimal_sign
        (natToString (q.num.natAbs * 10 ^ findExp q.den / q.den /
          10 ^ findExp q.den))
        (padDigits (findExp q.den) (q.num.natAbs * 10 ^ findExp q.den /
          q.den % 10 ^ findExp q.den))
        rest pos (natToString_ne_nil _) hfpne (natToString_all_digit _)
        (padDigits_all_digit _ _) hB
      rw [show (['-'] : List Char) ++ (natToString (q.num.natAbs *
          10 ^ findExp q.den / q.den / 10 ^ findExp q.den) ++
          '.' :: padDigits (findExp q.den) (q.num.natAbs *
            10 ^ findExp q.den / q.den % 10 ^ findExp q.den)) =
        '-' :: (natToString (q.num.natAbs * 10 ^ findExp q.den / q.den /
          10 ^ findExp q.den) ++
          '.' :: padDigits (findExp q.den) (q.num.natAbs *
            10 ^ findExp q.den / q.den % 10 ^ findExp q.den)) from rfl]
      rw [hfrag, hval]
    · rw [if_neg hq]
      have hval : ((digitsVal (natToString (q.num.natAbs *
            10 ^ findExp q.den / q.den / 10 ^ findExp q.den)) : Rat) +
          (digitsVal (padDigits (findExp q.den) (q.num.natAbs *
            10 ^ findExp q.den / q.den % 10 ^ findExp q.den)) : Rat) /
            (10 : Rat) ^ (padDigits (findExp q.den) (q.num.natAbs *
              10 ^ findExp q.den / q.den % 10 ^ findExp q.den)).length) =
          q := by
        rw [hcore]
        have := rat_signed_abs q
        rw [if_neg hq] at this
        exact this
      have hfrag := lexFrag_decimal_nosign
        (natToString (q.num.natAbs * 10 ^ findExp q.den / q.den /
          10 ^ findExp q.den))
        (padDigits (findExp q.den) (q.num.natAbs * 10 ^ findExp q.den /
          q.den % 10 ^ findExp q.den))
        rest pos (natToString_ne_nil _) hfpne (natToString_all_digit _)
        (padDigits_all_digit _ _) hB
      rw [List.nil_append]
      rw [hfrag, hval]

/-- The lexing contract of a rendered chunk `u`: whatever boundary-headed
continuation follows and wherever the chunk starts, the lexer emits
exactly the entries `E` carrying the tokens `ts`, flush against both ends
of the chunk, whose adjacent spans pass the whitespace check. -/
def ChunkSpec (ts : List Token) (u : List Char) : Prop :=
  u ≠ [] ∧
  ∀ (r : List Char) (pos : Nat), Boundary r →
    ∃ E : List (Token × Span),
      lexAllFrom (u ++ r) pos =
        E.map (fun p => (some p.1, p.2)) ++ lexAllFrom r (pos + u.length) ∧
      E.map Prod.fst = ts ∧
      E.head?.map (fun p => p.2.start) = some pos ∧
      E.getLast?.map (fun p => p.2.stop) = some (pos + u.length) ∧
      E.Chain' windowOk

theorem chunkSpec_single (tok : Token) (u : List Char) (hne : u ≠ [])
    (hlex : ∀ (r : List Char) (pos : Nat), Boundary r →
      lexAllFrom (u ++ r) pos =
        (some tok, ⟨pos, pos + u.length⟩) :: lexAllFrom r (pos + u.length)) :
    ChunkSpec [tok] u := by
  refine ⟨hne, ?_⟩
  intro r pos hBr
  refine ⟨[(tok, ⟨pos, pos + u.length⟩)], ?_, rfl, rfl, rfl, ?_⟩
  · simpa using hlex r pos hBr
  · simp

theorem chunkSpec_string (s : String) :
    ChunkSpec [.String s] ('"' :: escape_string s.toList ++ ['"']) :=
  chunkSpec_single _ _ (by simp) (fun r pos _ => lexFrag_string s r pos)

theorem chunkSpec_symbol (s : String) :
    ChunkSpec [.Symbol s] (escape_symbol s.toList) := by
  unfold escape_symbol
  by_cases h : isBareSymbol s.toList = true
  · rw [if_pos h]
    refine chunkSpec_single _ _ ?_ ?_
    · intro hnil
      rw [hnil] at h
      cases h
    · intro r pos hBr
      have := lexFrag_symbol_bare s.toList r pos h hBr
      have hmk : String.mk s.toList = s := by
        cases s
        rfl
      rw [hmk] at this
      exact this
  · rw [if_neg h]
    exact chunkSpec_single _ _ (by simp)
      (fun r pos _ => lexFrag_symbol_piped s r pos)

theorem chunkSpec_bool (b : Bool) :
    ChunkSpec [.Bool b] (prettyBoolText b) :=
  chunkSpec_single _ _ (by cases b <;> simp [prettyBoolText])
    (fun r pos _ => lexFrag_bool b r pos)

theorem chunkSpec_int (i : Int) (hlo : -(2 ^ 63) ≤ i) (hhi : i ≤ 2 ^ 63 - 1) :
    ChunkSpec [.Int i] (intToString i) := by
  refine chunkSpec_single _ _ ?_ ?_
  · unfold intToString
    by_cases hneg : i < 0
    · rw [if_pos hneg]; simp
    · rw [if_neg hneg]; exact natToString_ne_nil _
  · intro r pos hBr
    exact lexFrag_int i r pos hBr hlo hhi

theorem chunkSpec_float_special (f : F64)
    (h : f = .nan ∨ f = .inf ∨ f = .neginf) :
    ChunkSpec [.Float f] (prettyFloatText f) := by
  refine chunkSpec_single _ _ ?_ ?_
  · rcases h with rfl | rfl | rfl <;> decide
  · intro r pos _
    exact lexFrag_float_special f r pos h

theorem chunkSpec_float_finite (q : Rat) (e : Nat) (hden : q.den = 2 ^ e) :
    ChunkSpec [.Float (.finite q)] (prettyFloatText (.finite q)) := by
  refine chunkSpec_single _ _ ?_ ?_
  · rw [prettyFloatText_finite]
    by_cases hc : F64.ieeeEq (.finite q) ((F64.finite q).ceil) = true
    · rw [if_pos hc, f64Display_int q ((ieeeEq_ceil_iff q).mp hc)]
      by_cases hq : q < 0 <;> simp [hq]
    · rw [if_neg hc, f64Display_frac q
        (fun hone => hc ((ieeeEq_ceil_iff q).mpr hone))]
      by_cases hq : q < 0 <;> simp [hq, natToString_ne_nil]
  · intro r pos hBr
    exact lexFrag_float_finite q e hden r pos hBr

theorem chunkSpec_parens_empty :
    ChunkSpec [Token.OpenList 0, Token.CloseList] ['(', ')'] := by
  refine ⟨by simp, ?_⟩
  intro r pos hBr
  refine ⟨[(.OpenList 0, ⟨pos, pos + 1⟩), (.CloseList, ⟨pos + 1, pos + 1 + 1⟩)],
    ?_, rfl, rfl, ?_, ?_⟩
  · rw [show (['(', ')'] : List Char) ++ r = '(' :: (')' :: r) from rfl,
      lexFrag_open, lexFrag_close]
    simp
  · simp
  · refine List.chain'_cons.mpr ⟨fun _ => Or.inl rfl, ?_⟩
    simp

theorem chunkSpec_wrap (ts : List Token) (u : List Char)
    (h : ChunkSpec ts u) :
    ChunkSpec (Token.OpenList 0 :: ts ++ [Token.CloseList])
      ('(' :: u ++ [')']) := by
  obtain ⟨hne, hspec⟩ := h
  refine ⟨by simp, ?_⟩
  intro r pos hBr
  obtain ⟨E, hlex, hfst, hhead, hlast, hchain⟩ :=
    hspec (')' :: r) (pos + 1) (Or.inr (Or.inr rfl))
  refine ⟨(Token.OpenList 0, ⟨pos, pos + 1⟩) :: E ++
    [(Token.CloseList, ⟨pos + 1 + u.length, pos + 1 + u.length + 1⟩)],
    ?_, ?_, ?_, ?_, ?_⟩
  · rw [show ('(' :: u ++ [')']) ++ r = '(' :: (u ++ ')' :: r) by simp,
      lexFrag_open, hlex, lexFrag_close]
    rw [show pos + ('(' :: u ++ [')']).length = pos + 1 + u.length + 1 by
      simp; omega]
    simp [List.append_assoc]
  · simp [hfst]
  · rfl
  · rw [show (Token.OpenList 0, (⟨pos, pos + 1⟩ : Span)) :: E ++
      [(Token.CloseList, ⟨pos + 1 + u.length, pos + 1 + u.length + 1⟩)] =
      ((Token.OpenList 0, (⟨pos, pos + 1⟩ : Span)) :: E) ++
      [(Token.CloseList, ⟨pos + 1 + u.length, pos + 1 + u.length + 1⟩)] by simp]
    rw [List.getLast?_append]
    simp
    omega
  · rw [List.cons_append, List.chain'_cons']
    constructor
    · intro y _
      exact fun _ => Or.inl rfl
    · rw [List.chain'_append]
      refine ⟨hchain, by simp, ?_⟩
      intro x _ y hy
      simp at hy
      subst hy
      exact fun _ => Or.inr rfl

theorem chunkSpec_append (ts1 ts2 : List Token) (u1 ws u2 : List Char)
    (h1 : ChunkSpec ts1 u1) (h2 : ChunkSpec ts2 u2)
    (hws : ws ≠ []) (hall : ∀ c ∈ ws, isWs c = true) :
    ChunkSpec (ts1 ++ ts2) (u1 ++ (ws ++ u2)) := by
  obtain ⟨hne1, hspec1⟩ := h1
  obtain ⟨hne2, hspec2⟩ := h2
  refine ⟨by simp [hne1], ?_⟩
  intro r pos hBr
  have hBws : Boundary (ws ++ (u2 ++ r)) := by
    cases ws with
    | nil => exact absurd rfl hws
    | cons w ws' => exact Or.inl (hall w (List.mem_cons_self _ _))
  obtain ⟨E1, hlex1, hfst1, hhead1, hlast1, hchain1⟩ :=
    hspec1 (ws ++ (u2 ++ r)) pos hBws
  obtain ⟨E2, hlex2, hfst2, hhead2, hlast2, hchain2⟩ :=
    hspec2 r (pos + u1.length + ws.length) hBr
  refine ⟨E1 ++ E2, ?_, ?_, ?_, ?_, ?_⟩
  · rw [show (u1 ++ (ws ++ u2)) ++ r = u1 ++ (ws ++ (u2 ++ r)) by simp,
      hlex1, lexAllFrom_ws ws (u2 ++ r) _ hws hall, hlex2]
    simp only [List.map_append, List.append_assoc]
    have harith : pos + u1.length + ws.length + u2.length =
        pos + (u1 ++ (ws ++ u2)).length := by
      simp
      omega
    rw [harith]
  · simp [hfst1, hfst2]
  · cases E1 with
    | nil => cases hhead1
    | cons e1 E1' => simpa using hhead1
  · cases hE2 : E2.getLast? with
    | none =>
      rw [hE2] at hlast2
      cases hlast2
    | some y =>
      rw [List.getLast?_append_of_ne_nil]
      · rw [hE2] at hlast2 ⊢
        simp only [Option.map_some'] at hlast2 ⊢
        have harith : pos + u1.length + ws.length + u2.length =
            pos + (u1 ++ (ws ++ u2)).length := by
          simp
          omega
        rw [← harith]
        exact hlast2
      · intro hnil
        rw [hnil] at hE2
        cases hE2
  · rw [List.chain'_append]
    refine ⟨hchain1, hchain2, ?_⟩
    intro x hx y hy
    intro htouch
    exfalso
    have hx' : x.2.stop = pos + u1.length := by
      cases hE1 : E1.getLast? with
      | none =>
        rw [hE1] at hx
        cases hx
      | some x' =>
        rw [hE1] at hlast1 hx
        cases hx
        simpa using hlast1
    have hy' : y.2.start = pos + u1.length + ws.length := by
      cases hE2h : E2.head? with
      | none =>
        rw [hE2h] at hy
        cases hy
      | some y' =>
        rw [hE2h] at hhead2 hy
        cases hy
        simpa using hhead2
    rw [hx', hy'] at htouch
    have hwsl : 1 ≤ ws.length := by
      cases ws with
      | nil => exact absurd rfl hws
      | cons a b => simp
    omega

theorem layOut_nil_inv {o : List Char} (h : LayOut [] o) : o = [] := by
  cases h
  rfl

theorem layOut_nilD_inv {i : Nat} {m : Mode} {z : List (Nat × Mode × Doc)}
    {o : List Char} (h : LayOut ((i, m, .nil) :: z) o) : LayOut z o := by
  cases h with
  | nilD h' => exact h'

theorem layOut_cat_inv {i : Nat} {m : Mode} {a b : Doc}
    {z : List (Nat × Mode × Doc)} {o : List Char}
    (h : LayOut ((i, m, .cat a b) :: z) o) :
    LayOut ((i, m, a) :: (i, m, b) :: z) o := by
  cases h with
  | cat h' => exact h'

theorem layOut_text_inv {i : Nat} {m : Mode} {s : List Char}
    {z : List (Nat × Mode × Doc)} {o : List Char}
    (h : LayOut ((i, m, .text s) :: z) o) :
    ∃ o', o = s ++ o' ∧ LayOut z o' := by
  cases h with
  | text _ h' => exact ⟨_, rfl, h'⟩

theorem layOut_nest_inv {i : Nat} {m : Mode} {j : Nat} {d : Doc}
    {z : List (Nat × Mode × Doc)} {o : List Char}
    (h : LayOut ((i, m, .nest j d) :: z) o) :
    LayOut ((i + j, m, d) :: z) o := by
  cases h with
  | nest h' => exact h'

theorem layOut_group_inv {i : Nat} {m : Mode} {d : Doc}
    {z : List (Nat × Mode × Doc)} {o : List Char}
    (h : LayOut ((i, m, .group d) :: z) o) :
    ∃ m', LayOut ((i, m', d) :: z) o := by
  cases h with
  | group h' => exact ⟨_, h'⟩

theorem layOut_line_inv {i : Nat} {m : Mode}
    {z : List (Nat × Mode × Doc)} {o : List Char}
    (h : LayOut ((i, m, .line) :: z) o) :
    ∃ ws o', o = ws ++ o' ∧ ws ≠ [] ∧ (∀ c ∈ ws, isWs c = true) ∧
      LayOut z o' := by
  cases h with
  | lineFlat h' =>
    refine ⟨[' '], _, rfl, by simp, ?_, h'⟩
    intro c hc
    simp at hc
    subst hc
    decide
  | lineBrk h' =>
    refine ⟨'\n' :: List.replicate i ' ', _, by simp, by simp, ?_, h'⟩
    intro c hc
    rcases List.mem_cons.mp hc with rfl | hc'
    · decide
    · rw [List.eq_of_mem_replicate hc']
      decide

theorem flatTokens_length_pos (v : Value) : 1 ≤ (flatTokens v).length := by
  cases v <;> simp [flatTokens]

/-- Main tokenization invariant: any layout of a value's document splits
the output into the value's chunk followed by a layout of the remaining
work, and the chunk lexes to the value's flat tokens with zeroed
skips. -/
theorem layoutLex (n : Nat) :
    (∀ v, WFValue v → (flatTokens v).length ≤ n →
      ∀ (i : Nat) (m : Mode) (z : List (Nat × Mode × Doc)) (o : List Char),
      LayOut ((i, m, valueDoc v) :: z) o →
      ∃ u o', o = u ++ o' ∧ LayOut z o' ∧
        ChunkSpec (zeroSkips (flatTokens v)) u) ∧
    (∀ l, (∀ v ∈ l, WFValue v) → l ≠ [] → (flatTokensList l).length ≤ n →
      ∀ (i : Nat) (m : Mode) (z : List (Nat × Mode × Doc)) (o : List Char),
      LayOut ((i, m, intersperseDocs (valueDocList l)) :: z) o →
      ∃ u o', o = u ++ o' ∧ LayOut z o' ∧
        ChunkSpec (zeroSkips (flatTokensList l)) u) := by
  induction n using Nat.strong_induction_on with
  | _ n IH =>
  have hP : ∀ v, WFValue v → (flatTokens v).length ≤ n →
      ∀ (i : Nat) (m : Mode) (z : List (Nat × Mode × Doc)) (o : List Char),
      LayOut ((i, m, valueDoc v) :: z) o →
      ∃ u o', o = u ++ o' ∧ LayOut z o' ∧
        ChunkSpec (zeroSkips (flatTokens v)) u := by
    intro v hwf hlen i m z o hlay
    cases v with
    | String s =>
      obtain ⟨o', rfl, hz⟩ := layOut_text_inv hlay
      exact ⟨_, o', rfl, hz, chunkSpec_string s⟩
    | Symbol s =>
      obtain ⟨o', rfl, hz⟩ := layOut_text_inv hlay
      exact ⟨_, o', rfl, hz, chunkSpec_symbol s⟩
    | Bool b =>
      obtain ⟨o', rfl, hz⟩ := layOut_text_inv hlay
      exact ⟨_, o', rfl, hz, chunkSpec_bool b⟩
    | Int j =>
      obtain ⟨o', rfl, hz⟩ := layOut_text_inv hlay
      cases hwf with
      | int _ hlo hhi =>
        exact ⟨_, o', rfl, hz, chunkSpec_int j hlo hhi⟩
    | Float f =>
      obtain ⟨o', rfl, hz⟩ := layOut_text_inv hlay
      cases hwf with
      | floatNan => exact ⟨_, o', rfl, hz, chunkSpec_float_special _ (Or.inl rfl)⟩
      | floatInf =>
        exact ⟨_, o', rfl, hz, chunkSpec_float_special _ (Or.inr (Or.inl rfl))⟩
      | floatNegInf =>
        exact ⟨_, o', rfl, hz, chunkSpec_float_special _ (Or.inr (Or.inr rfl))⟩
      | floatFin q e hden =>
        exact ⟨_, o', rfl, hz, chunkSpec_float_finite q e hden⟩
    | List l =>
      have hc1 := layOut_cat_inv hlay
      have hc2 := layOut_cat_inv hc1
      obtain ⟨o1, rfl, h3⟩ := layOut_text_inv hc2
      obtain ⟨m', h4⟩ := layOut_group_inv h3
      have h5 := layOut_nest_inv h4
      have hmem : ∀ w ∈ l, WFValue w := by
        cases hwf with
        | list _ hmem => exact hmem
      cases l with
      | nil =>
        have h6 := layOut_nilD_inv h5
        obtain ⟨o2, rfl, hz⟩ := layOut_text_inv h6
        refine ⟨['(', ')'], o2, by simp, hz, ?_⟩
        exact chunkSpec_parens_empty
      | cons w ws =>
        have hft : flatTokens (Value.List (w :: ws)) =
            .OpenList ((flatTokensList (w :: ws)).length + 1) ::
              flatTokensList (w :: ws) ++ [Token.CloseList] := by
          rw [flatTokens]
        rw [hft] at hlen
        simp only [List.length_cons, List.length_append,
          List.length_nil] at hlen
        have hlen2 : (flatTokensList (w :: ws)).length ≤ n - 1 := by omega
        have hn1 : n - 1 < n := by omega
        obtain ⟨u_in, o1', rfl, hlay', hchunk⟩ :=
          (IH (n - 1) hn1).2 (w :: ws) hmem (by simp) hlen2 (i + 2) m' _ _ h5
        obtain ⟨o2, rfl, hz⟩ := layOut_text_inv hlay'
        refine ⟨'(' :: u_in ++ [')'], o2, by simp, hz, ?_⟩
        have := chunkSpec_wrap _ _ hchunk
        rw [show zeroSkips (flatTokens (.List (w :: ws))) =
          Token.OpenList 0 :: zeroSkips (flatTokensList (w :: ws)) ++
            [Token.CloseList] by simp [flatTokens, zeroSkips]]
        exact this
  refine ⟨hP, ?_⟩
  intro l hmem hne hlen i m z o hlay
  cases l with
  | nil => exact absurd rfl hne
  | cons v vs =>
    cases vs with
    | nil =>
      rw [show intersperseDocs (valueDocList [v]) = valueDoc v from rfl]
        at hlay
      have hlen1 : (flatTokens v).length ≤ n := by
        simp only [flatTokensList, List.append_nil] at hlen
        exact hlen
      obtain ⟨u, o', rfl, hz, hchunk⟩ :=
        hP v (hmem v (List.mem_cons_self _ _)) hlen1 i m z _ hlay
      refine ⟨u, o', rfl, hz, ?_⟩
      rw [show flatTokensList [v] = flatTokens v ++ [] from rfl,
        List.append_nil]
      exact hchunk
    | cons w ws =>
      rw [show intersperseDocs (valueDocList (v :: w :: ws)) =
        .cat (valueDoc v) (.cat .line
          (intersperseDocs (valueDocList (w :: ws)))) from rfl] at hlay
      have hc1 := layOut_cat_inv hlay
      have hlenv : (flatTokens v).length ≤ n := by
        simp only [flatTokensList, List.length_append] at hlen
        omega
      obtain ⟨u_v, o1, rfl, hlay1, hchunkv⟩ :=
        hP v (hmem v (List.mem_cons_self _ _)) hlenv i m _ _ hc1
      have hc2 := layOut_cat_inv hlay1
      obtain ⟨ws_c, o2, rfl, hwsne, hwsall, hlay2⟩ := layOut_line_inv hc2
      have hlen2 : (flatTokensList (w :: ws)).length ≤ n - 1 := by
        simp only [flatTokensList, List.length_append] at hlen ⊢
        have := flatTokens_length_pos v
        omega
      have hn1 : n - 1 < n := by
        simp only [flatTokensList, List.length_append] at hlen
        have := flatTokens_length_pos v
        omega
      obtain ⟨u_l, o3, rfl, hz, hchunkl⟩ :=
        (IH (n - 1) hn1).2 (w :: ws)
          (fun x hx => hmem x (List.mem_cons_of_mem _ hx)) (by simp)
          hlen2 i m z _ hlay2
      refine ⟨u_v ++ (ws_c ++ u_l), o3, by simp, hz, ?_⟩
      rw [show flatTokensList (v :: w :: ws) =
        flatTokens v ++ flatTokensList (w :: ws) from rfl]
      rw [show zeroSkips (flatTokens v ++ flatTokensList (w :: ws)) =
        zeroSkips (flatTokens v) ++ zeroSkips (flatTokensList (w :: ws)) by
        simp [zeroSkips]]
      exact chunkSpec_append _ _ _ _ _ hchunkv hchunkl hwsne hwsall

theorem flatTokens_no_comment (n : Nat) :
    (∀ v, (flatTokens v).length ≤ n → ∀ t ∈ flatTokens v, t ≠ .Comment) ∧
    (∀ l, (flatTokensList l).length ≤ n →
      ∀ t ∈ flatTokensList l, t ≠ .Comment) := by
  induction n using Nat.strong_induction_on with
  | _ n IH =>
  have hP : ∀ v, (flatTokens v).length ≤ n →
      ∀ t ∈ flatTokens v, t ≠ .Comment := by
    intro v hlen t ht
    cases v with
    | List l =>
      have hft : flatTokens (Value.List l) =
          .OpenList ((flatTokensList l).length + 1) ::
            flatTokensList l ++ [Token.CloseList] := by
        rw [flatTokens]
      rw [hft] at hlen ht
      simp only [List.length_cons, List.length_append, List.length_nil]
        at hlen
      rw [List.cons_append] at ht
      rcases List.mem_cons.mp ht with rfl | ht'
      · intro h
        cases h
      · rcases List.mem_append.mp ht' with h2 | h2
        · exact (IH (n - 1) (by omega)).2 l (by omega) t h2
        · simp at h2
          subst h2
          intro h
          cases h
    | String s => simp [flatTokens] at ht; subst ht; intro h; cases h
    | Symbol s => simp [flatTokens] at ht; subst ht; intro h; cases h
    | Bool b => simp [flatTokens] at ht; subst ht; intro h; cases h
    | Int i => simp [flatTokens] at ht; subst ht; intro h; cases h
    | Float f => simp [flatTokens] at ht; subst ht; intro h; cases h
  refine ⟨hP, ?_⟩
  intro l hlen t ht
  induction l with
  | nil => cases ht
  | cons v vs ihl =>
    rw [show flatTokensList (v :: vs) =
      flatTokens v ++ flatTokensList vs from rfl] at ht hlen
    simp only [List.length_append] at hlen
    rcases List.mem_append.mp ht with h2 | h2
    · exact hP v (by omega) t h2
    · refine ihl ?_ h2
      have := flatTokens_length_pos v
      omega

theorem zeroSkips_no_comment (ts : List Token)
    (h : ∀ t ∈ ts, t ≠ .Comment) : ∀ t ∈ zeroSkips ts, t ≠ .Comment := by
  intro t ht
  unfold zeroSkips at ht
  obtain ⟨t', ht', rfl⟩ := List.mem_map.mp ht
  cases t' with
  | OpenList k => intro hcc; cases hcc
  | Comment => exact absurd rfl (h _ ht')
  | CloseList => exact h _ ht'
  | String s => exact h _ ht'
  | Symbol s => exact h _ ht'
  | Bool b => exact h _ ht'
  | Int i => exact h _ ht'
  | Float f => exact h _ ht'

/-- Collecting a comment-free all-token entry list succeeds with exactly
those tokens. -/
theorem collectTokens_entries (E : List (Token × Span))
    (hnc : ∀ p ∈ E, p.1 ≠ Token.Comment) :
    collectTokens (E.map (fun p => (some p.1, p.2))) = .ok E := by
  induction E with
  | nil => rfl
  | cons p E ih =>
    obtain ⟨t, sp⟩ := p
    have hne : t ≠ Token.Comment := hnc (t, sp) (List.mem_cons_self _ _)
    have ihE := ih (fun q hq => hnc q (List.mem_cons_of_mem _ hq))
    cases t with
    | Comment => exact absurd rfl hne
    | OpenList k =>
      show (collectTokens _).map _ = _
      rw [ihE]
      rfl
    | CloseList =>
      show (collectTokens _).map _ = _
      rw [ihE]
      rfl
    | String s =>
      show (collectTokens _).map _ = _
      rw [ihE]
      rfl
    | Symbol s =>
      show (collectTokens _).map _ = _
      rw [ihE]
      rfl
    | Bool b =>
      show (collectTokens _).map _ = _
      rw [ihE]
      rfl
    | Int i =>
      show (collectTokens _).map _ = _
      rw [ihE]
      rfl
    | Float f =>
      show (collectTokens _).map _ = _
      rw [ihE]
      rfl

theorem map_eq_append_split {α β : Type} (f : α → β) :
    ∀ (t1 : List β) (B : List α) (t2 : List β), B.map f = t1 ++ t2 →
    ∃ B1 B2, B = B1 ++ B2 ∧ B1.map f = t1 ∧ B2.map f = t2 := by
  intro t1
  induction t1 with
  | nil =>
    intro B t2 h
    exact ⟨[], B, rfl, rfl, by simpa using h⟩
  | cons x t1 ih =>
    intro B t2 h
    cases B with
    | nil => cases h
    | cons b B' =>
      simp only [List.map_cons, List.cons_append, List.cons.injEq] at h
      obtain ⟨B1, B2, rfl, hm1, hm2⟩ := ih B' t2 h.2
      exact ⟨b :: B1, B2, rfl, by simp [h.1, hm1], hm2⟩

/-- The balancing pass maps a zero-skip rendering of a value's tokens to
the canonical-skip form, leaving the surrounding computation alone. -/
theorem balance_block (n : Nat) :
    (∀ v (B : List (Token × Span)),
      B.map Prod.fst = zeroSkips (flatTokens v) →
      (flatTokens v).length ≤ n →
      ∃ B' : List (Token × Span), B'.map Prod.fst = flatTokens v ∧
        ∀ (rest acc : List (Token × Span)) (stack : List Nat),
          balanceGo (B ++ rest) acc stack =
            balanceGo rest (acc ++ B') stack) ∧
    (∀ l (B : List (Token × Span)),
      B.map Prod.fst = zeroSkips (flatTokensList l) →
      (flatTokensList l).length ≤ n →
      ∃ B' : List (Token × Span), B'.map Prod.fst = flatTokensList l ∧
        ∀ (rest acc : List (Token × Span)) (stack : List Nat),
          balanceGo (B ++ rest) acc stack =
            balanceGo rest (acc ++ B') stack) := by
  induction n using Nat.strong_induction_on with
  | _ n IH =>
  have hatom : ∀ (tok : Token) (B : List (Token × Span)),
      isAtomTok tok = true → B.map Prod.fst = [tok] →
      ∃ B' : List (Token × Span), B'.map Prod.fst = [tok] ∧
        ∀ (rest acc : List (Token × Span)) (stack : List Nat),
          balanceGo (B ++ rest) acc stack =
            balanceGo rest (acc ++ B') stack := by
    intro tok B hat hmap
    cases B with
    | nil => cases hmap
    | cons p B' =>
      obtain ⟨t, sp⟩ := p
      simp only [List.map_cons, List.cons.injEq] at hmap
      obtain ⟨heq, hnil⟩ := hmap
      have hB' : B' = [] := by simpa using hnil
      subst hB'
      subst heq
      refine ⟨[(t, sp)], rfl, ?_⟩
      intro rest acc stack
      cases t with
      | OpenList k => exact absurd hat (by simp [isAtomTok])
      | CloseList => exact absurd hat (by simp [isAtomTok])
      | String s => rfl
      | Symbol s => rfl
      | Comment => rfl
      | Bool b => rfl
      | Int i => rfl
      | Float f => rfl
  have hP : ∀ v (B : List (Token × Span)),
      B.map Prod.fst = zeroSkips (flatTokens v) →
      (flatTokens v).length ≤ n →
      ∃ B' : List (Token × Span), B'.map Prod.fst = flatTokens v ∧
        ∀ (rest acc : List (Token × Span)) (stack : List Nat),
          balanceGo (B ++ rest) acc stack =
            balanceGo rest (acc ++ B') stack := by
    intro v B hmap hlen
    cases v with
    | String s => exact hatom _ B rfl hmap
    | Symbol s => exact hatom _ B rfl hmap
    | Bool b => exact hatom _ B rfl hmap
    | Int i => exact hatom _ B rfl hmap
    | Float f => exact hatom _ B rfl hmap
    | List l =>
      have hft : flatTokens (Value.List l) =
          .OpenList ((flatTokensList l).length + 1) ::
            flatTokensList l ++ [Token.CloseList] := by
        rw [flatTokens]
      rw [hft] at hmap hlen ⊢
      rw [show zeroSkips (Token.OpenList ((flatTokensList l).length + 1) ::
          flatTokensList l ++ [Token.CloseList]) =
        Token.OpenList 0 :: (zeroSkips (flatTokensList l) ++
          [Token.CloseList]) by simp [zeroSkips]] at hmap
      cases B with
      | nil => cases hmap
      | cons p B0 =>
        obtain ⟨t0, sp0⟩ := p
        simp only [List.map_cons, List.cons.injEq] at hmap
        obtain ⟨rfl, hmap0⟩ := hmap
        obtain ⟨B1, B2, rfl, hmap1, hmap2⟩ :=
          map_eq_append_split Prod.fst _ B0 _ hmap0
        obtain ⟨pc, B2', rfl, hpc⟩ : ∃ pc B2', B2 = pc :: B2' ∧
            pc.1 = Token.CloseList := by
          cases B2 with
          | nil => cases hmap2
          | cons pc B2' =>
            simp only [List.map_cons, List.cons.injEq] at hmap2
            exact ⟨pc, B2', rfl, hmap2.1⟩
        have hB2' : B2' = [] := by
          simp only [List.map_cons, List.cons.injEq] at hmap2
          simpa using hmap2.2
        subst hB2'
        obtain ⟨spc, rfl⟩ : ∃ spc, pc = (Token.CloseList, spc) := by
          obtain ⟨t, sp⟩ := pc
          simp only at hpc
          subst hpc
          exact ⟨sp, rfl⟩
        simp only [List.length_cons, List.length_append,
          List.length_nil] at hlen
        obtain ⟨B1', hmap1', hstep1⟩ :=
          (IH (n - 1) (by omega)).2 l B1 hmap1 (by omega)
        have hlen1 : B1'.length = (flatTokensList l).length := by
          rw [← hmap1']
          simp
        refine ⟨(Token.OpenList ((flatTokensList l).length + 1), sp0) ::
          B1' ++ [(Token.CloseList, spc)], ?_, ?_⟩
        · simp [hmap1']
        · intro rest acc stack
          rw [show ((Token.OpenList 0, sp0) ::
              (B1 ++ [(Token.CloseList, spc)])) ++ rest =
            (Token.OpenList 0, sp0) ::
              (B1 ++ ([(Token.CloseList, spc)] ++ rest)) by simp]
          rw [show balanceGo ((Token.OpenList 0, sp0) ::
              (B1 ++ ([(Token.CloseList, spc)] ++ rest))) acc stack =
            balanceGo (B1 ++ ([(Token.CloseList, spc)] ++ rest))
              (acc ++ [(Token.OpenList 0, sp0)])
              (acc.length :: stack) from rfl]
          rw [hstep1]
          rw [show ([(Token.CloseList, spc)] ++ rest) =
            (Token.CloseList, spc) :: rest from rfl]
          rw [show balanceGo ((Token.CloseList, spc) :: rest)
              ((acc ++ [(Token.OpenList 0, sp0)]) ++ B1')
              (acc.length :: stack) =
            balanceGo rest
              (setTok ((acc ++ [(Token.OpenList 0, sp0)]) ++ B1')
                acc.length
                (Token.OpenList
                  (((acc ++ [(Token.OpenList 0, sp0)]) ++ B1').length -
                    acc.length)) ++ [(Token.CloseList, spc)])
              stack from rfl]
          have hskip : ((acc ++ [(Token.OpenList 0, sp0)]) ++ B1').length -
              acc.length = (flatTokensList l).length + 1 := by
            simp [hlen1]
          rw [hskip]
          rw [show (acc ++ [(Token.OpenList 0, sp0)]) ++ B1' =
            acc ++ ((Token.OpenList 0, sp0) :: B1') by simp]
          rw [setTok_decomp]
          simp
  refine ⟨hP, ?_⟩
  intro l B hmap hlen
  cases l with
  | nil =>
    have : B = [] := by
      cases B with
      | nil => rfl
      | cons p B' => cases hmap
    subst this
    refine ⟨[], rfl, ?_⟩
    intro rest acc stack
    simp
  | cons v vs =>
    rw [show flatTokensList (v :: vs) =
      flatTokens v ++ flatTokensList vs from rfl] at hmap hlen ⊢
    rw [show zeroSkips (flatTokens v ++ flatTokensList vs) =
      zeroSkips (flatTokens v) ++ zeroSkips (flatTokensList vs) by
      simp [zeroSkips]] at hmap
    obtain ⟨B1, B2, rfl, hmap1, hmap2⟩ :=
      map_eq_append_split Prod.fst _ B _ hmap
    simp only [List.length_append] at hlen
    have hpos := flatTokens_length_pos v
    obtain ⟨B1', hmapv, hstepv⟩ := hP v B1 hmap1 (by omega)
    obtain ⟨B2', hmapl, hstepl⟩ :=
      (IH (n - 1) (by omega)).2 vs B2 hmap2 (by omega)
    refine ⟨B1' ++ B2', by simp [hmapv, hmapl], ?_⟩
    intro rest acc stack
    rw [show (B1 ++ B2) ++ rest = B1 ++ (B2 ++ rest) by simp,
      hstepv, hstepl]
    simp

/-- Reading back a stream whose tokens begin with a value's canonical
flat tokens yields that value and consumes exactly those tokens. -/
theorem read_block : ∀ (fuel : Nat),
    (∀ v (ts rest : List (Token × Span)) (cs ps : Span),
      ts.map Prod.fst = flatTokens v → 2 * ts.length + 1 ≤ fuel →
      ∃ cs', valueFromParens fuel ⟨ts ++ rest, cs, ps⟩ =
        .ok (v, ⟨rest, cs', ps⟩)) ∧
    (∀ l (ts : List (Token × Span)) (cs ps : Span),
      ts.map Prod.fst = flatTokensList l → 2 * ts.length + 2 ≤ fuel →
      valuesFromParens fuel ⟨ts, cs, ps⟩ = .ok l) := by
  intro fuel
  induction fuel with
  | zero =>
    constructor
    · intro v ts rest cs ps _ hfl
      omega
    · intro l ts cs ps _ hfl
      omega
  | succ fuel IHf =>
    have hP : ∀ v (ts rest : List (Token × Span)) (cs ps : Span),
        ts.map Prod.fst = flatTokens v → 2 * ts.length + 1 ≤ fuel + 1 →
        ∃ cs', valueFromParens (fuel + 1) ⟨ts ++ rest, cs, ps⟩ =
          .ok (v, ⟨rest, cs', ps⟩) := by
      intro v ts rest cs ps hmap hfl
      cases v with
      | String s =>
        obtain ⟨sp, rfl⟩ : ∃ sp, ts = [(Token.String s, sp)] := by
          cases ts with
          | nil => cases hmap
          | cons p ts' =>
            obtain ⟨t, sp⟩ := p
            simp only [flatTokens, List.map_cons, List.cons.injEq] at hmap
            obtain ⟨rfl, h2⟩ := hmap
            have : ts' = [] := by simpa using h2
            subst this
            exact ⟨sp, rfl⟩
        exact ⟨sp, rfl⟩
      | Symbol s =>
        obtain ⟨sp, rfl⟩ : ∃ sp, ts = [(Token.Symbol s, sp)] := by
          cases ts with
          | nil => cases hmap
          | cons p ts' =>
            obtain ⟨t, sp⟩ := p
            simp only [flatTokens, List.map_cons, List.cons.injEq] at hmap
            obtain ⟨rfl, h2⟩ := hmap
            have : ts' = [] := by simpa using h2
            subst this
            exact ⟨sp, rfl⟩
        exact ⟨sp, rfl⟩
      | Bool b =>
        obtain ⟨sp, rfl⟩ : ∃ sp, ts = [(Token.Bool b, sp)] := by
          cases ts with
          | nil => cases hmap
          | cons p ts' =>
            obtain ⟨t, sp⟩ := p
            simp only [flatTokens, List.map_cons, List.cons.injEq] at hmap
            obtain ⟨rfl, h2⟩ := hmap
            have : ts' = [] := by simpa using h2
            subst this
            exact ⟨sp, rfl⟩
        exact ⟨sp, rfl⟩
      | Int i =>
        obtain ⟨sp, rfl⟩ : ∃ sp, ts = [(Token.Int i, sp)] := by
          cases ts with
          | nil => cases hmap
          | cons p ts' =>
            obtain ⟨t, sp⟩ := p
            simp only [flatTokens, List.map_cons, List.cons.injEq] at hmap
            obtain ⟨rfl, h2⟩ := hmap
            have : ts' = [] := by simpa using h2
            subst this
            exact ⟨sp, rfl⟩
        exact ⟨sp, rfl⟩
      | Float f =>
        obtain ⟨sp, rfl⟩ : ∃ sp, ts = [(Token.Float f, sp)] := by
          cases ts with
          | nil => cases hmap
          | cons p ts' =>
            obtain ⟨t, sp⟩ := p
            simp only [flatTokens, List.map_cons, List.cons.injEq] at hmap
            obtain ⟨rfl, h2⟩ := hmap
            have : ts' = [] := by simpa using h2
            subst this
            exact ⟨sp, rfl⟩
        exact ⟨sp, rfl⟩
      | List l =>
        have hft : flatTokens (Value.List l) =
            .OpenList ((flatTokensList l).length + 1) ::
              flatTokensList l ++ [Token.CloseList] := by
          rw [flatTokens]
        rw [hft] at hmap
        rw [show Token.OpenList ((flatTokensList l).length + 1) ::
            flatTokensList l ++ [Token.CloseList] =
          Token.OpenList ((flatTokensList l).length + 1) ::
            (flatTokensList l ++ [Token.CloseList]) from rfl] at hmap
        obtain ⟨p0, ts0, rfl⟩ : ∃ p0 ts0, ts = p0 :: ts0 := by
          cases ts with
          | nil => cases hmap
          | cons p0 ts0 => exact ⟨p0, ts0, rfl⟩
        obtain ⟨t0, sp0⟩ := p0
        simp only [List.map_cons, List.cons.injEq] at hmap
        obtain ⟨rfl, hmap0⟩ := hmap
        obtain ⟨inner, B2, rfl, hmapin, hmap2⟩ :=
          map_eq_append_split Prod.fst _ ts0 _ hmap0
        obtain ⟨spc, rfl⟩ : ∃ spc, B2 = [(Token.CloseList, spc)] := by
          cases B2 with
          | nil => cases hmap2
          | cons pc B2' =>
            obtain ⟨tc, spc⟩ := pc
            simp only [List.map_cons, List.cons.injEq] at hmap2
            obtain ⟨rfl, h2⟩ := hmap2
            have : B2' = [] := by simpa using h2
            subst this
            exact ⟨spc, rfl⟩
        have hlenin : inner.length = (flatTokensList l).length := by
          rw [← hmapin]
          simp
        have htoks : ((Token.OpenList ((flatTokensList l).length + 1), sp0) ::
            (inner ++ [(Token.CloseList, spc)])) ++ rest =
            (Token.OpenList ((flatTokensList l).length + 1), sp0) ::
            (inner ++ ((Token.CloseList, spc) :: rest)) := by
          simp
        rw [htoks]
        have htake : (inner ++ ((Token.CloseList, spc) :: rest)).take
            (flatTokensList l).length = inner := by
          rw [← hlenin]
          exact List.take_left _ _
        have hpeek : (⟨(Token.OpenList ((flatTokensList l).length + 1), sp0) ::
            (inner ++ ((Token.CloseList, spc) :: rest)), cs, ps⟩ :
              ReaderStream).peek =
            some (.List ⟨inner, ⟨sp0.stop, sp0.stop⟩, ⟨sp0.stop,
              closerStop ((Token.OpenList ((flatTokensList l).length + 1),
                  sp0) :: (inner ++ ((Token.CloseList, spc) :: rest)))
                ((flatTokensList l).length + 1)⟩⟩) := by
          simp only [ReaderStream.peek]
          rw [show List.drop 1 ((Token.OpenList
              ((flatTokensList l).length + 1), sp0) ::
            (inner ++ (Token.CloseList, spc) :: rest)) =
            inner ++ (Token.CloseList, spc) :: rest from rfl]
          rw [show (flatTokensList l).length + 1 - 1 =
            (flatTokensList l).length from rfl, htake]
        have hdrop : ((Token.OpenList ((flatTokensList l).length + 1), sp0) ::
            (inner ++ ((Token.CloseList, spc) :: rest))).drop
              (inner.length + 2) = rest := by
          rw [show inner.length + 2 = (inner.length + 1) + 1 by omega,
            List.drop_succ_cons]
          rw [show (inner.length + 1 : Nat) = inner.length + 1 from rfl,
            List.drop_append]
          rfl
        have hnext : (⟨(Token.OpenList ((flatTokensList l).length + 1), sp0) ::
            (inner ++ ((Token.CloseList, spc) :: rest)), cs, ps⟩ :
              ReaderStream).next =
            some (.List ⟨inner, ⟨sp0.stop, sp0.stop⟩, ⟨sp0.stop,
              closerStop ((Token.OpenList ((flatTokensList l).length + 1),
                  sp0) :: (inner ++ ((Token.CloseList, spc) :: rest)))
                ((flatTokensList l).length + 1)⟩⟩,
              ⟨rest, ⟨sp0.stop,
                closerStop ((Token.OpenList ((flatTokensList l).length + 1),
                    sp0) :: (inner ++ ((Token.CloseList, spc) :: rest)))
                  ((flatTokensList l).length + 1)⟩, ps⟩) := by
          simp only [ReaderStream.next]
          rw [hpeek]
          simp only
          rw [hdrop]
        simp only [List.length_cons, List.length_append,
          List.length_nil] at hfl
        have hlist := IHf.2 l inner ⟨sp0.stop, sp0.stop⟩
          ⟨sp0.stop, closerStop ((Token.OpenList
              ((flatTokensList l).length + 1), sp0) ::
            (inner ++ ((Token.CloseList, spc) :: rest)))
            ((flatTokensList l).length + 1)⟩
          hmapin (by omega)
        refine ⟨⟨sp0.stop, closerStop ((Token.OpenList
            ((flatTokensList l).length + 1), sp0) ::
          (inner ++ ((Token.CloseList, spc) :: rest)))
          ((flatTokensList l).length + 1)⟩, ?_⟩
        simp only [valueFromParens]
        rw [hnext]
        simp only
        rw [hlist]
    refine ⟨hP, ?_⟩
    intro l ts cs ps hmap hfl
    cases l with
    | nil =>
      have : ts = [] := by
        cases ts with
        | nil => rfl
        | cons p t => cases hmap
      subst this
      rfl
    | cons v vs =>
      rw [show flatTokensList (v :: vs) =
        flatTokens v ++ flatTokensList vs from rfl] at hmap
      obtain ⟨A, B, rfl, hmA, hmB⟩ := map_eq_append_split Prod.fst _ ts _ hmap
      have hAlen : A.length = (flatTokens v).length := by
        rw [← hmA]
        simp
      have hApos := flatTokens_length_pos v
      simp only [List.length_append] at hfl
      obtain ⟨cs', hok⟩ := IHf.1 v A B cs ps hmA (by omega)
      have hvs := IHf.2 vs B cs' ps hmB (by omega)
      obtain ⟨f', hf'⟩ : ∃ f', fuel = f' + 1 := ⟨fuel - 1, by omega⟩
      have hpeek : ∃ tt, (⟨A ++ B, cs, ps⟩ : ReaderStream).peek = some tt := by
        cases hp : (⟨A ++ B, cs, ps⟩ : ReaderStream).peek with
        | some tt => exact ⟨tt, rfl⟩
        | none =>
          exfalso
          have hnextn : (⟨A ++ B, cs, ps⟩ : ReaderStream).next = none := by
            simp only [ReaderStream.next]
            rw [hp]
          rw [hf'] at hok
          simp only [valueFromParens] at hok
          rw [hnextn] at hok
          cases hok
      obtain ⟨tt, hp⟩ := hpeek
      simp only [valuesFromParens]
      rw [hp, hok]
      simp [hvs]

/-- Writing a value into the `Pretty` stream pushes exactly the value's
document onto the current buffer. -/
theorem pretty_push (n : Nat) :
    (∀ v, (flatTokens v).length ≤ n → ∀ p : Pretty,
      prettyValueToParens v p = .ok ⟨p.stack, p.current ++ [valueDoc v]⟩) ∧
    (∀ l, (flatTokensList l).length ≤ n → ∀ p : Pretty,
      prettyValuesToParens l p = .ok ⟨p.stack, p.current ++ valueDocList l⟩) := by
  induction n using Nat.strong_induction_on with
  | _ n IH =>
  have hP : ∀ v, (flatTokens v).length ≤ n → ∀ p : Pretty,
      prettyValueToParens v p = .ok ⟨p.stack, p.current ++ [valueDoc v]⟩ := by
    intro v hlen p
    cases v with
    | String s => rfl
    | Symbol s => rfl
    | Bool b => rfl
    | Int i => rfl
    | Float f => rfl
    | List l =>
      have hft : flatTokens (Value.List l) =
          .OpenList ((flatTokensList l).length + 1) ::
            flatTokensList l ++ [Token.CloseList] := by
        rw [flatTokens]
      rw [hft] at hlen
      simp only [List.length_cons, List.length_append, List.length_nil]
        at hlen
      have hlist := (IH (n - 1) (by omega)).2 l (by omega)
        ⟨p.current :: p.stack, []⟩
      simp only [prettyValueToParens]
      rw [hlist]
      simp [valueDoc]
  refine ⟨hP, ?_⟩
  intro l hlen p
  cases l with
  | nil =>
    show Except.ok p = _
    cases p
    simp [valueDocList]
  | cons v vs =>
    rw [show flatTokensList (v :: vs) =
      flatTokens v ++ flatTokensList vs from rfl] at hlen
    simp only [List.length_append] at hlen
    have hpos := flatTokens_length_pos v
    simp only [prettyValuesToParens]
    rw [hP v (by omega) p]
    have hvs := (IH (n - 1) (by omega)).2 vs (by omega)
      ⟨p.stack, p.current ++ [valueDoc v]⟩
    simp only at hvs ⊢
    rw [hvs]
    simp [valueDocList]

/-- C1: For every `Value` tree `v` representable by the Rust data model
(integers in the i64 range, float payloads that are NaN, an infinity, or
a dyadic rational, recursively) and for every rendering width `w`,
reading back the pretty-printed rendering of `v` yields exactly `v`:
`from_str::<Value>(to_string_pretty(v, w)) = Ok(v)`.  Equality of the
recovered value is the data model's structural equality, whose float
component makes NaN equal to NaN, so canonical float formatting
round-trips on the nose. -/
theorem c1_round_trip (v : Value) (hwf : WFValue v) (w : Nat) :
    from_str_value (to_string_pretty v w) = .ok v := by
  have hpush := (pretty_push (flatTokens v).length).1 v (le_refl _) ⟨[], []⟩
  have hts : to_string_pretty v w = String.mk (renderDoc w (valueDoc v)) := by
    unfold to_string_pretty
    rw [hpush]
    rfl
  rw [hts]
  have hlay : LayOut [(0, .brk, valueDoc v)] (renderDoc w (valueDoc v)) := by
    unfold renderDoc
    exact beGo_layout _ [(0, .brk, valueDoc v)] w 0 (by simp [workSize])
  obtain ⟨u, o', hsplit, hlayz, hchunk⟩ :=
    (layoutLex (flatTokens v).length).1 v hwf (le_refl _) 0 .brk [] _ hlay
  rw [layOut_nil_inv hlayz, List.append_nil] at hsplit
  rw [hsplit]
  obtain ⟨hune, hspec⟩ := hchunk
  obtain ⟨E, hlex, hfst, hhead, hlast, hchain⟩ := hspec [] 0 trivial
  rw [List.append_nil,
    show lexAllFrom [] (0 + u.length) = [] from lexGo_nil _ _,
    List.append_nil] at hlex
  have hnc : ∀ p ∈ E, p.1 ≠ Token.Comment := by
    intro p hp
    have hmem : p.1 ∈ zeroSkips (flatTokens v) := by
      rw [← hfst]
      exact List.mem_map_of_mem Prod.fst hp
    exact zeroSkips_no_comment _
      ((flatTokens_no_comment (flatTokens v).length).1 v (le_refl _)) _ hmem
  have hcol : collectTokens (lexAll (String.mk u).toList) = .ok E := by
    rw [show (String.mk u).toList = u from rfl,
      show lexAll u = lexAllFrom u 0 from rfl, hlex]
    exact collectTokens_entries E hnc
  have hws : check_whitespace E = .ok () := (check_whitespace_ok_iff E).mpr hchain
  obtain ⟨B', hmapB, hstep⟩ :=
    (balance_block (flatTokens v).length).1 v E hfst (le_refl _)
  have hbal : balance_lists E = .ok B' := by
    unfold balance_lists
    calc balanceGo E [] [] = balanceGo (E ++ []) [] [] := by
          rw [List.append_nil]
      _ = balanceGo [] ([] ++ B') [] := hstep [] [] []
      _ = .ok B' := by simp [balanceGo]
  have hstream : from_str_stream (String.mk u).toList =
      .ok ⟨B', ⟨0, 0⟩, ⟨0, (String.mk u).toList.length⟩⟩ := by
    simp only [from_str_stream, hcol, hws, hbal, bind, Except.bind, pure,
      Except.pure]
  have hlenB : B'.length = (flatTokens v).length := by
    rw [← hmapB, List.length_map]
  obtain ⟨cs', hread⟩ := (read_block (2 * B'.length + 2)).1 v B' []
    ⟨0, 0⟩ ⟨0, (String.mk u).toList.length⟩ hmapB (by omega)
  rw [List.append_nil] at hread
  have hread' : valueFromParens (2 * B'.length + 2)
      ⟨B', ⟨0, 0⟩, ⟨0, u.length⟩⟩ =
      .ok (v, ⟨[], cs', ⟨0, u.length⟩⟩) := hread
  unfold from_str_value
  rw [hstream]
  simp [hread']

/-- Closed instance of C1: the concrete list `(5 #t)` at width 10
round-trips through the full pipeline. -/
theorem c1_round_trip_witness :
    from_str_value (to_string_pretty
      (Value.List [Value.Int 5, Value.Bool true]) 10) =
      .ok (Value.List [Value.Int 5, Value.Bool true]) :=
  c1_round_trip _
    (WFValue.list _ (by
      intro x hx
      simp only [List.mem_cons, List.not_mem_nil, or_false] at hx
      rcases hx with rfl | rfl
      · exact WFValue.int 5 (by decide) (by decide)
      · exact WFValue.bool true))
    10

end Parenthesis
